import Mathlib

set_option synthInstance.maxSize 4000
set_option synthInstance.maxHeartbeats 2000000

/-!
Verification development for the fastflow repository: GF(2) solver,
causal-flow / gflow / Pauli-flow finders and verifiers, and the Python
wrapper layer (argument checking, warnings, index bookkeeping).

Conventions: vertices are dense indices `0..n-1` (`Nat`); GF(2) scalars
are `Bool` with `xor` as addition and `and` as multiplication; sets of
vertices are `Finset Nat`; matrices are row-major `List (List Bool)`.
-/

namespace Fastflow

/-! ## GF(2) vectors and matrices -/

/-- Hamming weight (population count) of a bit vector. -/
def hw (x : List Bool) : Nat :=
  x.countP (fun b => b)

/-- GF(2) dot product of two rows (AND then XOR-fold). -/
def dotB (r x : List Bool) : Bool :=
  (List.zipWith (fun a b => a && b) r x).foldr xor false

/-- Matrix-vector product over GF(2): entry `i` is `dotB (row i) x`. -/
def matVec (a : List (List Bool)) (x : List Bool) : List Bool :=
  a.map (fun row => dotB row x)

/-- Column `j` of a row-major matrix (missing entries read as `false`). -/
def colJ (b : List (List Bool)) (j : Nat) : List Bool :=
  b.map (fun row => row.getD j false)

/-- All bit vectors of length `n`, enumerated with bit 0 varying fastest
(the order `utils.iter_bvector` uses in the repository's tests). -/
def bvecs : Nat → List (List Bool)
  | 0 => [[]]
  | n + 1 => (bvecs n).flatMap (fun t => [false :: t, true :: t])

/-- Keep the strictly lighter of a candidate and a previous best. -/
def pickBetter (x : List Bool) : Option (List Bool) → List Bool
  | none => x
  | some y => if hw y < hw x then y else x

/-- First element of minimum Hamming weight in a list of bit vectors. -/
def pickMin : List (List Bool) → Option (List Bool)
  | [] => none
  | x :: xs => some (pickBetter x (pickMin xs))

/-! ## GF(2) solver core

Modelled from the spec: the solver core `fastflow._impl.solve` is a Rust
binding absent from the source tree; only its Python wrapper
(`src/python/fastflow/solver.py`) is present.  Spec section 4.B specifies
its operation and guarantees: for each right-hand-side column `b`, return
a solution `x` of `A x = b` over GF(2) when one exists (otherwise "no
solution"), deterministically selecting a solution of minimum Hamming
weight.  We model exactly that contract: enumerate all `2^n` candidate
vectors and pick the first one of minimum weight that solves the system
(the spec leaves the tie-break rule implementation-defined: "solution
picking algorithm is unspecified" per the wrapper's docstring). -/

/-- Solve `a · x = b` over GF(2) for a single right-hand side `b`:
the first minimum-weight solution in enumeration order, if any. -/
def solveOne (n : Nat) (a : List (List Bool)) (b : List Bool) : Option (List Bool) :=
  pickMin ((bvecs n).filter (fun x => matVec a x == b))

/-- Modelled from the spec: `fastflow._impl.solve` (see section 4.B).
Solve `a · x = colJ b j` for each right-hand-side column `j < neqs`. -/
def solveCore (n : Nat) (a b : List (List Bool)) (neqs : Nat) : List (Option (List Bool)) :=
  (List.range neqs).map (fun j => solveOne n a (colJ b j))

/-! ## Python wrapper of the solver (src/python/fastflow/solver.py)

A NumPy array is modelled by its shape vector and row-major data. -/

/-- Shape-and-data model of a NumPy integer array. -/
structure PyArr where
  shape : List Nat
  data : List Int
deriving Repr, DecidableEq

/-- Typed errors raised by `solver.solve` before the core runs. -/
inductive SolverErr where
  | notBinary : SolverErr
  | aNot2D : SolverErr
  | bNot2D : SolverErr
  | rowMismatch : SolverErr
deriving Repr, DecidableEq

/-- The value-level content of `_arraycheck`: an integer array casts
losslessly to boolean iff every entry is 0 or 1. -/
def isBinary (x : PyArr) : Bool :=
  x.data.all (fun v => v == 0 || v == 1)

/-- Reinterpret a checked 2-D array as a `Bool` matrix of its shape. -/
def toMat (x : PyArr) : List (List Bool) :=
  let m := x.shape.getD 0 0
  let n := x.shape.getD 1 0
  (List.range m).map (fun i => (List.range n).map (fun j => x.data.getD (i * n + j) 0 != 0))

/-- The reshape applied to a 1-D right-hand side: `b.reshape(-1, 1)`. -/
def reshapeB (b : PyArr) : PyArr :=
  if b.shape.length = 1 then PyArr.mk [b.data.length, 1] b.data else b

/-- The `solver.solve` wrapper (src/python/fastflow/solver.py): check both
inputs are binary (`_arraycheck`), `a` is 2-D, `b` is 2-D or a 1-D vector
(reshaped to one column), and the row counts agree; then invoke the core
solver.  The guards run in the order of the Python code. -/
def solvePy (a b : PyArr) : Except SolverErr (List (Option (List Bool))) :=
  if isBinary a = false then Except.error SolverErr.notBinary
  else if isBinary b = false then Except.error SolverErr.notBinary
  else if a.shape.length ≠ 2 then Except.error SolverErr.aNot2D
  else
    let b' := reshapeB b
    if b'.shape.length ≠ 2 then Except.error SolverErr.bNot2D
    else if b'.shape ≠ [a.shape.getD 0 0, b'.shape.getD 1 0] then Except.error SolverErr.rowMismatch
    else Except.ok (solveCore (a.shape.getD 1 0) (toMat a) (toMat b') (b'.shape.getD 1 0))

/-- Discriminate success of an `Except`. -/
def isOkE {α β : Type} : Except α β → Bool
  | Except.ok _ => true
  | Except.error _ => false

/-! ## Graph substrate (dense indices 0..n-1)

The Rust core receives the encoded graph as `list[set[int]]`; we model it
as a list of neighbor sets. -/

/-- Dense adjacency: entry `i` is the neighbor set of vertex `i`. -/
abbrev DGraph := List (Finset Nat)

/-- Neighbor set of `v` (empty when out of range). -/
def nbr (g : DGraph) (v : Nat) : Finset Nat :=
  g.getD v ∅

/-- Odd neighborhood: vertices with an odd number of neighbors in `s`. -/
def oddN (g : DGraph) (s : Finset Nat) : Finset Nat :=
  (Finset.range g.length).filter (fun v => (nbr g v ∩ s).card % 2 = 1)

/-! ## Measurement labels -/

/-- Measurement planes for gflow (ABI codes XY=0, YZ=1, ZX=2). -/
inductive Plane where
  | XY : Plane
  | YZ : Plane
  | ZX : Plane
deriving Repr, DecidableEq

/-- Measurement planes and Pauli axes for Pauli flow
(ABI codes XY=0, YZ=1, ZX=2, X=3, Y=4, Z=5). -/
inductive PPlane where
  | XY : PPlane
  | YZ : PPlane
  | ZX : PPlane
  | X : PPlane
  | Y : PPlane
  | Z : PPlane
deriving Repr, DecidableEq

/-- Whether a `PPlane` label is a Pauli axis. -/
def isPauli : PPlane → Bool
  | PPlane.X => true
  | PPlane.Y => true
  | PPlane.Z => true
  | _ => false

/-- The plane a planar `PPlane` label denotes (Pauli axes are mapped to
`XY`; used only on label maps without Pauli axes). -/
def planarize : PPlane → Plane
  | PPlane.XY => Plane.XY
  | PPlane.YZ => Plane.YZ
  | PPlane.ZX => Plane.ZX
  | _ => Plane.XY

/-- Enumerate a finite set of naturals as a list in ascending order (the
model's fixed iteration order for the core's vertex sets). -/
def fsort (s : Finset Nat) : List Nat :=
  (List.range (s.sup id + 1)).filter (fun i => decide (i ∈ s))

/-- Decidable equality on `Except`, for checking concrete results. -/
instance {e a : Type} [DecidableEq e] [DecidableEq a] : DecidableEq (Except e a) := fun x y =>
  match x, y with
  | Except.error u, Except.error v => decidable_of_iff (u = v) (by simp)
  | Except.error _, Except.ok _ => isFalse (by simp)
  | Except.ok _, Except.error _ => isFalse (by simp)
  | Except.ok u, Except.ok v => decidable_of_iff (u = v) (by simp)

/-! ## Causal-flow finder core

Modelled from the spec: `fastflow._impl.flow.find` is a Rust binding
absent from the source tree.  Section 4.D specifies the layered
Mhalla-Perdrix search: keep a set of solved vertices (initially `O`) and
of available correctors (outputs, later solved non-inputs); each round a
corrector with exactly one unsolved neighbor claims that neighbor
(conflicts resolved toward the smallest corrector index), the claimed
vertex joins the current layer, and a used corrector retires; stop when a
round makes no progress, succeeding iff every vertex is solved. -/

/-- One round of corrector/vertex pairings: scan correctors in ascending
order, pair each corrector having exactly one unsolved neighbor with that
neighbor, first claim wins. -/
def flowPairs (g : DGraph) (solved correctors : Finset Nat) : List (Nat × Nat) :=
  (fsort correctors).foldl (fun acc c =>
    match fsort (nbr g c \ solved) with
    | [u] => if acc.any (fun p => p.1 = u) then acc else acc ++ [(u, c)]
    | _ => acc) []

/-- The layered loop of the causal-flow finder (fuel-bounded). -/
def flowLoop (g : DGraph) (iset : Finset Nat) :
    Nat → Finset Nat → Finset Nat → (Nat → Option Nat) → (Nat → Nat) → Nat →
    Option ((Nat → Option Nat) × (Nat → Nat))
  | 0, _, _, _, _, _ => none
  | fuel + 1, solved, correctors, f, layer, l =>
    let ps := flowPairs g solved correctors
    if ps.isEmpty then
      if solved = Finset.range g.length then some (f, layer) else none
    else
      flowLoop g iset fuel
        (solved ∪ ps.foldl (fun t p => insert p.1 t) ∅)
        ((correctors \ ps.foldl (fun t p => insert p.2 t) ∅) ∪
          (ps.foldl (fun t p => insert p.1 t) ∅ \ iset))
        (fun v => match ps.find? (fun p => p.1 == v) with
          | some p => some p.2
          | none => f v)
        (fun v => if ps.any (fun p => p.1 == v) then l else layer v)
        (l + 1)

/-- Modelled from the spec: `fastflow._impl.flow.find` (section 4.D).
Returns the flow map as an assoc list and the dense layer list. -/
def flowFindCore (g : DGraph) (iset oset : Finset Nat) :
    Option (List (Nat × Nat) × List Nat) :=
  match flowLoop g iset (g.length + 1) oset (oset \ iset) (fun _ => none) (fun _ => 0) 1 with
  | none => none
  | some (f, layer) =>
    some ((List.range g.length).filterMap (fun u => (f u).map (fun c => (u, c))),
          (List.range g.length).map layer)

/-! ## Verifier core

Modelled from the spec: the `verify` bindings are Rust code absent from
the source tree; section 4.G lists the re-checked conditions and section 6
the structured diagnostics. -/

/-- Structured diagnostics of the verifier (section 6 of the spec). -/
inductive VMsg where
  | excessiveNonZeroLayer (node lay : Nat) : VMsg
  | excessiveZeroLayer (node : Nat) : VMsg
  | invalidFlowDomain (node : Nat) : VMsg
  | invalidFlowCodomain (node : Nat) : VMsg
  | invalidMeasurementSpec (node : Nat) : VMsg
  | inconsistentFlowOrder (node1 node2 : Nat) : VMsg
  | inconsistentFlowPlane (node : Nat) : VMsg
  | inconsistentFlowPPlane (node : Nat) : VMsg
deriving Repr, DecidableEq

/-- Emit a diagnostic unless the check holds. -/
def chk (b : Bool) (e : VMsg) : Option VMsg :=
  if b then none else some e

/-- First failing check, if any. -/
def firstErr (l : List (Option VMsg)) : Except VMsg Unit :=
  match l.findSome? id with
  | some e => Except.error e
  | none => Except.ok ()

/-- Assoc-list lookup for flow maps. -/
def flookup {α : Type} (f_ : List (Nat × α)) (u : Nat) : Option α :=
  (f_.find? (fun p => p.1 == u)).map Prod.snd

/-- Layer of `v` in a dense layer list. -/
def layAt (layer_ : List Nat) (v : Nat) : Nat :=
  layer_.getD v 0

/-- Modelled from the spec: `fastflow._impl.flow.verify` (section 4.G).
Checks the layer contract, the domain/codomain of `f`, adjacency
(`u ∈ Odd({f(u)})` with `u ∉ {f(u)}`, the XY condition specialized to
singletons), and the layer ordering over `{f(u)} ∪ Odd({f(u)})`. -/
def flowVerifyCore (g : DGraph) (iset oset : Finset Nat)
    (f_ : List (Nat × Nat)) (layer_ : List Nat) : Except VMsg Unit :=
  let n := g.length
  firstErr (
    ((List.range n).map (fun v =>
      if v ∈ oset then chk (layAt layer_ v == 0) (VMsg.excessiveNonZeroLayer v (layAt layer_ v))
      else chk (layAt layer_ v != 0) (VMsg.excessiveZeroLayer v))) ++
    ((List.range n).map (fun v =>
      chk ((flookup f_ v).isSome == decide (v ∉ oset)) (VMsg.invalidFlowDomain v))) ++
    ((List.range n).flatMap (fun u =>
      match flookup f_ u with
      | none => []
      | some c =>
        [chk (decide (c ∉ iset)) (VMsg.invalidFlowCodomain u),
         chk (decide (u ≠ c) && decide (u ∈ oddN g {c})) (VMsg.inconsistentFlowPlane u)] ++
        (fsort (insert c (oddN g {c}))).map (fun v =>
          chk (v == u || decide (layAt layer_ u > layAt layer_ v))
            (VMsg.inconsistentFlowOrder u v)))))

/-! ## Generalized-flow finder core

Modelled from the spec: `fastflow._impl.gflow.find` is a Rust binding
absent from the source tree.  Section 4.E specifies the layered search
from the outputs inward: with solved set `S` (initially `O`), a vertex
`u ∉ S` joins the current layer when some correction set `f(u)` drawn
from the allowed codomain (solved vertices outside `I`, plus `u` itself
for the YZ/ZX planes) satisfies the plane condition of `u` restricted to
`V \ S` — `Odd(f(u)) ∩ (V \ S) = {u}` with `u ∉ f(u)` for XY,
`Odd(f(u)) ∩ (V \ S) = ∅` with `u ∈ f(u)` for YZ, and
`Odd(f(u)) ∩ (V \ S) = {u}` with `u ∈ f(u)` for ZX; among admissible sets
a minimum-weight one is selected, as the GF(2) solver would.  A round with
no progress terminates the search, which succeeds iff `S = V`. -/

/-- Keep the strictly smaller of a candidate set and a previous best. -/
def pickBetterSet (x : Finset Nat) : Option (Finset Nat) → Finset Nat
  | none => x
  | some y => if y.card < x.card then y else x

/-- First minimum-cardinality element of a list of vertex sets. -/
def pickMinSet : List (Finset Nat) → Option (Finset Nat)
  | [] => none
  | x :: xs => some (pickBetterSet x (pickMinSet xs))

/-- All subsets of the vertices in a list. -/
def sublists : List Nat → List (Finset Nat)
  | [] => [∅]
  | a :: t => (sublists t).flatMap (fun s => [s, insert a s])

/-- All subsets of a vertex set, enumerated from its sorted elements. -/
def subsetsOf (c : Finset Nat) : List (Finset Nat) :=
  sublists (fsort c)

/-- Allowed codomain for the correction set of `u`: solved vertices
outside `I`, plus `u` itself for the non-XY planes when `u` is not an
input. -/
def gcand (iset B : Finset Nat) (pl : Nat → Plane) (u : Nat) : Finset Nat :=
  (B \ iset) ∪ (if pl u ≠ Plane.XY ∧ u ∉ iset then {u} else ∅)

/-- Plane condition of `u` for a candidate correction set `s`, restricted
to the unsolved vertices (`Odd(s) ⊆ B ∪ {u}` states the restriction). -/
def gcond (g : DGraph) (B : Finset Nat) (pl : Nat → Plane) (u : Nat) (s : Finset Nat) : Bool :=
  decide (oddN g s ⊆ B ∪ {u}) &&
  (match pl u with
   | Plane.XY => decide (u ∉ s) && decide (u ∈ oddN g s)
   | Plane.YZ => decide (u ∈ s) && decide (u ∉ oddN g s)
   | Plane.ZX => decide (u ∈ s) && decide (u ∈ oddN g s))

/-- Solve for a correction set of `u` in the current round: a
minimum-weight admissible subset of the allowed codomain, if any. -/
def gsolve (g : DGraph) (iset B : Finset Nat) (pl : Nat → Plane) (u : Nat) :
    Option (Finset Nat) :=
  pickMinSet ((subsetsOf (gcand iset B pl u)).filter (fun s => gcond g B pl u s))

/-- The layered loop of the gflow finder (fuel-bounded). -/
def gflowLoop (g : DGraph) (iset : Finset Nat) (pl : Nat → Plane) :
    Nat → Finset Nat → (Nat → Option (Finset Nat)) → (Nat → Nat) → Nat →
    Option ((Nat → Option (Finset Nat)) × (Nat → Nat))
  | 0, _, _, _, _ => none
  | fuel + 1, B, f, layer, l =>
    let news := (fsort (Finset.range g.length \ B)).filterMap
      (fun u => (gsolve g iset B pl u).map (fun s => (u, s)))
    if news.isEmpty then
      if B = Finset.range g.length then some (f, layer) else none
    else
      gflowLoop g iset pl fuel
        (B ∪ news.foldl (fun t p => insert p.1 t) ∅)
        (fun v => match news.find? (fun p => p.1 == v) with
          | some p => some p.2
          | none => f v)
        (fun v => if news.any (fun p => p.1 == v) then l else layer v)
        (l + 1)

/-- Modelled from the spec: `fastflow._impl.gflow.find` (section 4.E). -/
def gflowFindCore (g : DGraph) (iset oset : Finset Nat) (pl : Nat → Plane) :
    Option (List (Nat × Finset Nat) × List Nat) :=
  match gflowLoop g iset pl (g.length + 1) oset (fun _ => none) (fun _ => 0) 1 with
  | none => none
  | some (f, layer) =>
    some ((List.range g.length).filterMap (fun u => (f u).map (fun s => (u, s))),
          (List.range g.length).map layer)

/-- Modelled from the spec: `fastflow._impl.gflow.verify` (section 4.G):
layer contract, domain `V \ O`, codomain `V \ I`, layer ordering over
`f(u) ∪ Odd(f(u))`, and the plane conditions of section 4.E. -/
def gflowVerifyCore (g : DGraph) (iset oset : Finset Nat) (pl : Nat → Plane)
    (f_ : List (Nat × Finset Nat)) (layer_ : List Nat) : Except VMsg Unit :=
  let n := g.length
  firstErr (
    ((List.range n).map (fun v =>
      if v ∈ oset then chk (layAt layer_ v == 0) (VMsg.excessiveNonZeroLayer v (layAt layer_ v))
      else chk (layAt layer_ v != 0) (VMsg.excessiveZeroLayer v))) ++
    ((List.range n).map (fun v =>
      chk ((flookup f_ v).isSome == decide (v ∉ oset)) (VMsg.invalidFlowDomain v))) ++
    ((List.range n).flatMap (fun u =>
      match flookup f_ u with
      | none => []
      | some s =>
        [chk (decide (∀ w ∈ s, w ∉ iset)) (VMsg.invalidFlowCodomain u),
         chk (decide (∀ w ∈ s ∪ oddN g s, w ≠ u → layAt layer_ u > layAt layer_ w))
           (VMsg.inconsistentFlowOrder u u),
         chk (match pl u with
              | Plane.XY => decide (u ∉ s) && decide (u ∈ oddN g s)
              | Plane.YZ => decide (u ∈ s) && decide (u ∉ oddN g s)
              | Plane.ZX => decide (u ∈ s) && decide (u ∈ oddN g s))
           (VMsg.inconsistentFlowPlane u)])))

/-! ## Pauli-flow finder core

Modelled from the spec: `fastflow._impl.pflow.find` is a Rust binding
absent from the source tree.  Section 4.F specifies the generalization of
the gflow search to Pauli labels; where its condition table conflicts with
the repository's own expected outputs (src/tests/assets.py, CASE6-CASE8),
the conditions follow the standard Pauli-flow definition that those test
vectors satisfy: Pauli X/Y vertices may join a correction set regardless
of layer, Y/Z vertices may fall in an odd neighborhood regardless of
layer, a Y vertex not strictly later than `u` lies in `f(u)` iff it lies
in `Odd(f(u))`, and the per-label conditions are `u ∉ f(u) ∧ u ∈ Odd` for
XY, `u ∈ f(u) ∧ u ∉ Odd` for YZ, `u ∈ f(u) ∧ u ∈ Odd` for ZX,
`u ∈ Odd` for X, `u ∈ f(u) xor u ∈ Odd` for Y, and `u ∈ f(u)` for Z.
A vertex with a Pauli label may appear in its own correction set even if
it is an input (CASE7).  Rounds are counted from layer 0: a vertex whose
conditions need no strictly-later vertex at all may share layer 0 with
the outputs. -/

/-- Pauli X/Y labelled vertices. -/
def pauliXYs (pl : Nat → PPlane) (n : Nat) : Finset Nat :=
  (Finset.range n).filter (fun w => pl w = PPlane.X ∨ pl w = PPlane.Y)

/-- Pauli Y/Z labelled vertices. -/
def pauliYZs (pl : Nat → PPlane) (n : Nat) : Finset Nat :=
  (Finset.range n).filter (fun w => pl w = PPlane.Y ∨ pl w = PPlane.Z)

/-- May `u` include itself in its own correction set. -/
def selfOK (iset : Finset Nat) (pl : Nat → PPlane) (u : Nat) : Bool :=
  decide (pl u ≠ PPlane.XY) && (decide (u ∉ iset) || isPauli (pl u))

/-- Allowed codomain for the correction set of `u` in a Pauli-flow round:
vertices solved strictly earlier outside `I`, Pauli X/Y vertices outside
`I`, plus `u` itself when allowed. -/
def pcand (iset Bprev : Finset Nat) (pl : Nat → PPlane) (n : Nat) (u : Nat) : Finset Nat :=
  ((Bprev ∪ pauliXYs pl n) \ iset) ∪ (if selfOK iset pl u then {u} else ∅)

/-- Pauli-flow condition of `u` for a candidate correction set `s`,
relative to the set `Bprev` of vertices solved strictly earlier. -/
def pcond (g : DGraph) (Bprev : Finset Nat) (pl : Nat → PPlane) (u : Nat) (s : Finset Nat) : Bool :=
  decide (oddN g s ⊆ Bprev ∪ pauliYZs pl g.length ∪ {u}) &&
  decide (∀ w ∈ Finset.range g.length, pl w = PPlane.Y → w ≠ u → w ∉ Bprev →
    (w ∈ s ↔ w ∈ oddN g s)) &&
  (match pl u with
   | PPlane.XY => decide (u ∉ s) && decide (u ∈ oddN g s)
   | PPlane.YZ => decide (u ∈ s) && decide (u ∉ oddN g s)
   | PPlane.ZX => decide (u ∈ s) && decide (u ∈ oddN g s)
   | PPlane.X => decide (u ∈ oddN g s)
   | PPlane.Y => decide (¬((u ∈ s) ↔ u ∈ oddN g s))
   | PPlane.Z => decide (u ∈ s))

/-- Solve for a Pauli-flow correction set of `u` in the current round. -/
def psolve (g : DGraph) (iset Bprev : Finset Nat) (pl : Nat → PPlane) (u : Nat) :
    Option (Finset Nat) :=
  pickMinSet ((subsetsOf (pcand iset Bprev pl g.length u)).filter
    (fun s => pcond g Bprev pl u s))

/-- The layered loop of the Pauli-flow finder (fuel-bounded); layer 0 is
processed with an empty strictly-earlier set, and an empty round 0 does
not terminate the search. -/
def pflowLoop (g : DGraph) (iset : Finset Nat) (pl : Nat → PPlane) :
    Nat → Finset Nat → (Nat → Option (Finset Nat)) → (Nat → Nat) → Nat →
    Option ((Nat → Option (Finset Nat)) × (Nat → Nat))
  | 0, _, _, _, _ => none
  | fuel + 1, B, f, layer, l =>
    let bprev := if l = 0 then (∅ : Finset Nat) else B
    let news := (fsort (Finset.range g.length \ B)).filterMap
      (fun u => (psolve g iset bprev pl u).map (fun s => (u, s)))
    if news.isEmpty then
      if l = 0 then pflowLoop g iset pl fuel B f layer 1
      else if B = Finset.range g.length then some (f, layer) else none
    else
      pflowLoop g iset pl fuel
        (B ∪ news.foldl (fun t p => insert p.1 t) ∅)
        (fun v => match news.find? (fun p => p.1 == v) with
          | some p => some p.2
          | none => f v)
        (fun v => if news.any (fun p => p.1 == v) then l else layer v)
        (l + 1)

/-- Modelled from the spec: `fastflow._impl.pflow.find` (section 4.F).
When the labels of `V \ O` contain no Pauli axis the engine delegates to
the gflow path ("warn the caller and delegate to the gflow path; results
must be identical", section 4.F). -/
def pflowFindCore (g : DGraph) (iset oset : Finset Nat) (pl : Nat → PPlane) :
    Option (List (Nat × Finset Nat) × List Nat) :=
  if (fsort (Finset.range g.length \ oset)).all (fun v => !isPauli (pl v)) then
    gflowFindCore g iset oset (fun v => planarize (pl v))
  else
    match pflowLoop g iset pl (g.length + 2) oset (fun _ => none) (fun _ => 0) 0 with
    | none => none
    | some (f, layer) =>
      some ((List.range g.length).filterMap (fun u => (f u).map (fun s => (u, s))),
            (List.range g.length).map layer)

/-- Modelled from the spec: `fastflow._impl.pflow.verify` (sections 4.F,
4.G, adjusted to the Pauli-flow conditions the repository's test vectors
satisfy): outputs have layer 0; `dom f = V \ O`; a correction set may
contain an input only as a Pauli-labelled self-correction; ordering is
required only of non-(X/Y) members of `f(u)` and non-(Y/Z) members of
`Odd(f(u))`; a Y vertex not strictly later than `u` lies in `f(u)` iff in
`Odd(f(u))`; and the per-label membership conditions hold. -/
def pflowVerifyCore (g : DGraph) (iset oset : Finset Nat) (pl : Nat → PPlane)
    (f_ : List (Nat × Finset Nat)) (layer_ : List Nat) : Except VMsg Unit :=
  let n := g.length
  firstErr (
    ((List.range n).map (fun v =>
      if v ∈ oset then chk (layAt layer_ v == 0) (VMsg.excessiveNonZeroLayer v (layAt layer_ v))
      else none)) ++
    ((List.range n).map (fun v =>
      chk ((flookup f_ v).isSome == decide (v ∉ oset)) (VMsg.invalidFlowDomain v))) ++
    ((List.range n).flatMap (fun u =>
      match flookup f_ u with
      | none => []
      | some s =>
        [chk (decide (∀ w ∈ s, w ∉ iset ∨ (w = u ∧ isPauli (pl u)))) (VMsg.invalidFlowCodomain u),
         chk (decide (∀ w ∈ s, w ≠ u → pl w = PPlane.X ∨ pl w = PPlane.Y ∨
                layAt layer_ u > layAt layer_ w))
           (VMsg.inconsistentFlowOrder u u),
         chk (decide (∀ w ∈ oddN g s, w ≠ u → pl w = PPlane.Y ∨ pl w = PPlane.Z ∨
                layAt layer_ u > layAt layer_ w))
           (VMsg.inconsistentFlowOrder u u),
         chk (decide (∀ w ∈ Finset.range n, pl w = PPlane.Y → w ≠ u →
                ¬(layAt layer_ u > layAt layer_ w) → (w ∈ s ↔ w ∈ oddN g s)))
           (VMsg.inconsistentFlowPPlane u),
         chk (match pl u with
              | PPlane.XY => decide (u ∉ s) && decide (u ∈ oddN g s)
              | PPlane.YZ => decide (u ∈ s) && decide (u ∉ oddN g s)
              | PPlane.ZX => decide (u ∈ s) && decide (u ∈ oddN g s)
              | PPlane.X => decide (u ∈ oddN g s)
              | PPlane.Y => decide (¬((u ∈ s) ↔ u ∈ oddN g s))
              | PPlane.Z => decide (u ∈ s))
           (VMsg.inconsistentFlowPPlane u)])))

/-! ## Python wrapper layer

Host-level graphs (`networkx.Graph` with hashable nodes) are modelled
with `Nat` node identities: a node set and an adjacency map.  The
iteration order of the node set — which Python does not determine from
the set value alone — is an explicit parameter `ord` (the order
`IndexMap.__init__` receives from `list(vset)`). -/

/-- Host-level graph: node set and adjacency. -/
structure HG where
  vs : Finset Nat
  adj : Nat → Finset Nat

/-- A Python mapping: key set plus lookup. -/
structure PMap (P : Type) where
  keys : Finset Nat
  val : Nat → P

/-- Errors raised by the Python wrappers before or after the core runs. -/
inductive PyErr where
  | emptyGraph : PyErr
  | selfLoop : PyErr
  | isetNotSubset : PyErr
  | osetNotSubset : PyErr
  | planesUnknownNode : PyErr
  | planesMissing : PyErr
  | planesExcessive : PyErr
  | validation (m : VMsg) : PyErr
deriving Repr, DecidableEq

/-- The `check_graph` validation of src/python/fastflow/_common.py: the
graph must be nonempty and simple, and `iset`/`oset` must be node
subsets (checks in source order). -/
def checkGraph (hg : HG) (iset oset : Finset Nat) : Except PyErr Unit :=
  if hg.vs = ∅ then Except.error PyErr.emptyGraph
  else if ((fsort hg.vs).any (fun v => v ∈ hg.adj v)) then Except.error PyErr.selfLoop
  else if ¬iset ⊆ hg.vs then Except.error PyErr.isetNotSubset
  else if ¬oset ⊆ hg.vs then Except.error PyErr.osetNotSubset
  else Except.ok ()

/-- The `check_planelike` validation of src/python/fastflow/_common.py:
keys must be known nodes, must cover `V \ O`, and must not exceed
`V \ O` (checks in source order; the third check is the one that fires
on a label for an output vertex). -/
def checkPlanelike {P : Type} (vset oset : Finset Nat) (plike : PMap P) : Except PyErr Unit :=
  if ¬plike.keys ⊆ vset then Except.error PyErr.planesUnknownNode
  else if ¬(vset \ oset) ⊆ plike.keys then Except.error PyErr.planesMissing
  else if ¬plike.keys ⊆ (vset \ oset) then Except.error PyErr.planesExcessive
  else Except.ok ()

/-! ### IndexMap (src/python/fastflow/_common.py)

`encode` maps a node to its position in the iteration order `ord`;
`decode` maps an index back. -/

/-- Encode a node to its dense index. -/
def idxOf (ord : List Nat) (v : Nat) : Nat :=
  ord.indexOf v

/-- Decode a dense index back to its node. -/
def decV (ord : List Nat) (i : Nat) : Nat :=
  ord.getD i 0

/-- Encode a node set. -/
def encSet (ord : List Nat) (s : Finset Nat) : Finset Nat :=
  s.image (idxOf ord)

/-- Encode the host graph to dense adjacency (`encode_graph`). -/
def encGraph (ord : List Nat) (hg : HG) : DGraph :=
  ord.map (fun v => encSet ord (hg.adj v))

/-- Decode an index set. -/
def decSet (ord : List Nat) (s : Finset Nat) : Finset Nat :=
  s.image (decV ord)

/-- Decode a dense flow map (`decode_flow`). -/
def decFlow (ord : List Nat) (f_ : List (Nat × Nat)) : List (Nat × Nat) :=
  f_.map (fun p => (decV ord p.1, decV ord p.2))

/-- Decode a dense gflow map (`decode_gflow`). -/
def decGFlow (ord : List Nat) (f_ : List (Nat × Finset Nat)) : List (Nat × Finset Nat) :=
  f_.map (fun p => (decV ord p.1, decSet ord p.2))

/-- Decode a dense layer list into a node-keyed dict (`decode_layer`). -/
def decLayer (ord : List Nat) (layer_ : List Nat) : List (Nat × Nat) :=
  (List.range ord.length).map (fun i => (decV ord i, layer_.getD i 0))

/-- Encode a node-keyed flow map (`encode_flow`). -/
def encFlow (ord : List Nat) (f : List (Nat × Nat)) : List (Nat × Nat) :=
  f.map (fun p => (idxOf ord p.1, idxOf ord p.2))

/-- Encode a node-keyed gflow map (`encode_gflow`). -/
def encGFlow (ord : List Nat) (f : List (Nat × Finset Nat)) : List (Nat × Finset Nat) :=
  f.map (fun p => (idxOf ord p.1, encSet ord p.2))

/-- Encode a node-keyed layer dict into a dense list (`encode_layer`;
the Python code raises when a node is missing, which cannot happen for
the decoded witnesses fed back here, so missing nodes read as 0). -/
def encLayer (ord : List Nat) (layer : List (Nat × Nat)) : List Nat :=
  ord.map (fun v => ((layer.find? (fun p => p.1 == v)).map Prod.snd).getD 0)

/-- Label of an encoded vertex: dict lookup through `decode`, with the
"no label" (output) case reading as the default plane. -/
def labelAt {P : Type} (dflt : P) (ord : List Nat) (m : PMap P) : Nat → P :=
  fun i => if decV ord i ∈ m.keys then m.val (decV ord i) else dflt

/-! ### flow.find / flow.verify wrappers (src/python/fastflow/flow.py) -/

/-- The `flow.find` wrapper: validate the open graph, encode, run the
core finder, decode the witness. -/
def flowFindPy (hg : HG) (iset oset : Finset Nat) (ord : List Nat) :
    Except PyErr (Option (List (Nat × Nat) × List (Nat × Nat))) :=
  match checkGraph hg iset oset with
  | Except.error e => Except.error e
  | Except.ok _ =>
    match flowFindCore (encGraph ord hg) (encSet ord iset) (encSet ord oset) with
    | none => Except.ok none
    | some (f_, layer_) => Except.ok (some (decFlow ord f_, decLayer ord layer_))

/-- The `flow.verify` wrapper: validate the open graph, re-encode the
witness, run the core verifier. -/
def flowVerifyPy (w : List (Nat × Nat) × List (Nat × Nat)) (hg : HG)
    (iset oset : Finset Nat) (ord : List Nat) : Except PyErr Unit :=
  match checkGraph hg iset oset with
  | Except.error e => Except.error e
  | Except.ok _ =>
    match flowVerifyCore (encGraph ord hg) (encSet ord iset) (encSet ord oset)
        (encFlow ord w.1) (encLayer ord w.2) with
    | Except.error m => Except.error (PyErr.validation m)
    | Except.ok _ => Except.ok ()

/-! ### gflow.find / gflow.verify wrappers (src/python/fastflow/gflow.py) -/

/-- The `gflow.find` wrapper: validate the graph, default a missing
`plane` to all-XY on `V \ O`, validate the measurement mapping, drop (and
flag a warning for) labels of output vertices, encode, run the core
finder, decode.  The returned flag is the "Ignoring plane[v] where v in
oset" warning. -/
def gflowFindPy (hg : HG) (iset oset : Finset Nat) (plane? : Option (PMap Plane))
    (ord : List Nat) :
    Except PyErr (Bool × Option (List (Nat × Finset Nat) × List (Nat × Nat))) :=
  match checkGraph hg iset oset with
  | Except.error e => Except.error e
  | Except.ok _ =>
    let plane := plane?.getD (PMap.mk (hg.vs \ oset) (fun _ => Plane.XY))
    match checkPlanelike hg.vs oset plane with
    | Except.error e => Except.error e
    | Except.ok _ =>
      let ignore := plane.keys ∩ oset
      let warned := decide (ignore ≠ ∅)
      let plane' := PMap.mk (plane.keys \ ignore) plane.val
      match gflowFindCore (encGraph ord hg) (encSet ord iset) (encSet ord oset)
          (labelAt Plane.XY ord plane') with
      | none => Except.ok (warned, none)
      | some (f_, layer_) => Except.ok (warned, some (decGFlow ord f_, decLayer ord layer_))

/-- The `gflow.verify` wrapper: validate the graph, default a missing
`plane`, re-encode the witness, run the core verifier (the source runs no
`check_planelike` here). -/
def gflowVerifyPy (w : List (Nat × Finset Nat) × List (Nat × Nat)) (hg : HG)
    (iset oset : Finset Nat) (plane? : Option (PMap Plane)) (ord : List Nat) :
    Except PyErr Unit :=
  match checkGraph hg iset oset with
  | Except.error e => Except.error e
  | Except.ok _ =>
    let plane := plane?.getD (PMap.mk (hg.vs \ oset) (fun _ => Plane.XY))
    match gflowVerifyCore (encGraph ord hg) (encSet ord iset) (encSet ord oset)
        (labelAt Plane.XY ord plane) (encGFlow ord w.1) (encLayer ord w.2) with
    | Except.error m => Except.error (PyErr.validation m)
    | Except.ok _ => Except.ok ()

/-! ### pflow.find / pflow.verify wrappers (src/python/fastflow/pflow.py) -/

/-- The `pflow.find` wrapper: validate the graph, default a missing
`pplane` to all-XY on `V \ O`, validate the measurement mapping, flag the
"No Pauli measurement found" warning when no value is a Pauli axis,
encode, run the core finder, decode. -/
def pflowFindPy (hg : HG) (iset oset : Finset Nat) (pplane? : Option (PMap PPlane))
    (ord : List Nat) :
    Except PyErr (Bool × Option (List (Nat × Finset Nat) × List (Nat × Nat))) :=
  match checkGraph hg iset oset with
  | Except.error e => Except.error e
  | Except.ok _ =>
    let pplane := pplane?.getD (PMap.mk (hg.vs \ oset) (fun _ => PPlane.XY))
    match checkPlanelike hg.vs oset pplane with
    | Except.error e => Except.error e
    | Except.ok _ =>
      let warned := ((fsort pplane.keys).all (fun v => !isPauli (pplane.val v)))
      match pflowFindCore (encGraph ord hg) (encSet ord iset) (encSet ord oset)
          (labelAt PPlane.XY ord pplane) with
      | none => Except.ok (warned, none)
      | some (f_, layer_) => Except.ok (warned, some (decGFlow ord f_, decLayer ord layer_))

/-- The `pflow.verify` wrapper: validate the graph, default a missing
`pplane`, re-encode the witness, run the core verifier. -/
def pflowVerifyPy (w : List (Nat × Finset Nat) × List (Nat × Nat)) (hg : HG)
    (iset oset : Finset Nat) (pplane? : Option (PMap PPlane)) (ord : List Nat) :
    Except PyErr Unit :=
  match checkGraph hg iset oset with
  | Except.error e => Except.error e
  | Except.ok _ =>
    let pplane := pplane?.getD (PMap.mk (hg.vs \ oset) (fun _ => PPlane.XY))
    match pflowVerifyCore (encGraph ord hg) (encSet ord iset) (encSet ord oset)
        (labelAt PPlane.XY ord pplane) (encGFlow ord w.1) (encLayer ord w.2) with
    | Except.error m => Except.error (PyErr.validation m)
    | Except.ok _ => Except.ok ()

/-- Validity of an iteration order for a node set: it enumerates exactly
the nodes, without repetition. -/
def ordOK (ord : List Nat) (vs : Finset Nat) : Prop :=
  ord.Nodup ∧ ord.toFinset = vs

/-- Well-formedness of a host graph as networkx guarantees it: adjacency
is supported on the nodes and symmetric. -/
def hgWF (hg : HG) : Prop :=
  (∀ v ∈ hg.vs, hg.adj v ⊆ hg.vs) ∧
  (∀ v ∈ hg.vs, ∀ w ∈ hg.vs, w ∈ hg.adj v ↔ v ∈ hg.adj w)

/-- Well-formedness of a dense graph: symmetric, supported on
`0..n-1`, and without self-loops. -/
def dgWF (g : DGraph) : Prop :=
  (∀ i j, i ∈ nbr g j ↔ j ∈ nbr g i) ∧
  (∀ i j, i ∈ nbr g j → i < g.length) ∧
  (∀ i, i ∉ nbr g i)

/-! ## Loop invariants -/

/-- Facts carried by every entry of a causal-flow assignment. -/
def FlowEntry (g : DGraph) (iset : Finset Nat) (layer : Nat → Nat) (u c : Nat) : Prop :=
  c ∉ iset ∧ u ∈ nbr g c ∧ u ≠ c ∧ 1 ≤ layer u ∧
  ∀ w ∈ insert c (nbr g c), w ≠ u → layer w < layer u

/-- Loop invariant of the causal-flow finder. -/
def FlowInv (g : DGraph) (iset oset solved correctors : Finset Nat)
    (f : Nat → Option Nat) (layer : Nat → Nat) (l : Nat) : Prop :=
  oset ⊆ solved ∧ solved ⊆ Finset.range g.length ∧
  correctors ⊆ solved \ iset ∧ 1 ≤ l ∧
  (∀ v ∈ solved, layer v < l) ∧
  (∀ v ∈ oset, layer v = 0) ∧
  (∀ v, (f v).isSome ↔ v ∈ solved \ oset) ∧
  (∀ u c, f u = some c →
    (∀ w ∈ insert c (nbr g c), w ≠ u → w ∈ solved) ∧ FlowEntry g iset layer u c)

/-- Facts established about a successful causal-flow run. -/
def FlowGood (g : DGraph) (iset oset : Finset Nat)
    (f : Nat → Option Nat) (layer : Nat → Nat) : Prop :=
  (∀ v ∈ oset, layer v = 0) ∧
  (∀ v, (f v).isSome ↔ v ∈ Finset.range g.length \ oset) ∧
  (∀ u c, f u = some c → FlowEntry g iset layer u c)

/-- The gflow plane condition as a proposition. -/
def planeProp (g : DGraph) (pl : Nat → Plane) (u : Nat) (s : Finset Nat) : Prop :=
  match pl u with
  | Plane.XY => u ∉ s ∧ u ∈ oddN g s
  | Plane.YZ => u ∈ s ∧ u ∉ oddN g s
  | Plane.ZX => u ∈ s ∧ u ∈ oddN g s

/-- Facts carried by every entry of a gflow assignment. -/
def GEntry (g : DGraph) (iset : Finset Nat) (pl : Nat → Plane)
    (layer : Nat → Nat) (u : Nat) (s : Finset Nat) : Prop :=
  u < g.length ∧ 1 ≤ layer u ∧ s ⊆ Finset.range g.length ∧
  (∀ w ∈ s, w ∉ iset) ∧
  (∀ w ∈ s ∪ oddN g s, w ≠ u → layer w < layer u) ∧
  planeProp g pl u s

/-- Loop invariant of the gflow finder. -/
def GInv (g : DGraph) (iset oset : Finset Nat) (pl : Nat → Plane)
    (B : Finset Nat) (f : Nat → Option (Finset Nat)) (layer : Nat → Nat) (l : Nat) : Prop :=
  oset ⊆ B ∧ B ⊆ Finset.range g.length ∧ 1 ≤ l ∧
  (∀ v ∈ B, layer v < l) ∧
  (∀ v ∈ oset, layer v = 0) ∧
  (∀ v, (f v).isSome ↔ v ∈ B \ oset) ∧
  (∀ u s, f u = some s →
    (∀ w ∈ s ∪ oddN g s, w ≠ u → w ∈ B) ∧ GEntry g iset pl layer u s)

/-- Facts established about a successful gflow run. -/
def GGood (g : DGraph) (iset oset : Finset Nat) (pl : Nat → Plane)
    (f : Nat → Option (Finset Nat)) (layer : Nat → Nat) : Prop :=
  (∀ v ∈ oset, layer v = 0) ∧
  (∀ v, (f v).isSome ↔ v ∈ Finset.range g.length \ oset) ∧
  (∀ u s, f u = some s → GEntry g iset pl layer u s)

/-- The Pauli-flow per-label condition as a proposition. -/
def ptypeProp (g : DGraph) (pl : Nat → PPlane) (u : Nat) (s : Finset Nat) : Prop :=
  match pl u with
  | PPlane.XY => u ∉ s ∧ u ∈ oddN g s
  | PPlane.YZ => u ∈ s ∧ u ∉ oddN g s
  | PPlane.ZX => u ∈ s ∧ u ∈ oddN g s
  | PPlane.X => u ∈ oddN g s
  | PPlane.Y => ¬((u ∈ s) ↔ u ∈ oddN g s)
  | PPlane.Z => u ∈ s

/-- Facts carried by every entry of a Pauli-flow assignment. -/
def PEntry (g : DGraph) (iset : Finset Nat) (pl : Nat → PPlane)
    (layer : Nat → Nat) (u : Nat) (s : Finset Nat) : Prop :=
  u < g.length ∧ s ⊆ Finset.range g.length ∧
  (∀ w ∈ s, w ∉ iset ∨ (w = u ∧ isPauli (pl u) = true)) ∧
  (∀ w ∈ s, w ≠ u → pl w = PPlane.X ∨ pl w = PPlane.Y ∨ layer w < layer u) ∧
  (∀ w ∈ oddN g s, w ≠ u → pl w = PPlane.Y ∨ pl w = PPlane.Z ∨ layer w < layer u) ∧
  (∀ w ∈ Finset.range g.length, pl w = PPlane.Y → w ≠ u →
    layer w < layer u ∨ (w ∈ s ↔ w ∈ oddN g s)) ∧
  ptypeProp g pl u s

/-- Like `PEntry` but with the ordering disjuncts relativized to the
solved set `B` (vertices of `B` keep their layers for good). -/
def PEntryB (g : DGraph) (iset : Finset Nat) (pl : Nat → PPlane)
    (layer : Nat → Nat) (B : Finset Nat) (u : Nat) (s : Finset Nat) : Prop :=
  u < g.length ∧ s ⊆ Finset.range g.length ∧
  (∀ w ∈ s, w ∉ iset ∨ (w = u ∧ isPauli (pl u) = true)) ∧
  (∀ w ∈ s, w ≠ u → pl w = PPlane.X ∨ pl w = PPlane.Y ∨ (w ∈ B ∧ layer w < layer u)) ∧
  (∀ w ∈ oddN g s, w ≠ u → pl w = PPlane.Y ∨ pl w = PPlane.Z ∨ (w ∈ B ∧ layer w < layer u)) ∧
  (∀ w ∈ Finset.range g.length, pl w = PPlane.Y → w ≠ u →
    (w ∈ B ∧ layer w < layer u) ∨ (w ∈ s ↔ w ∈ oddN g s)) ∧
  ptypeProp g pl u s

/-- Loop invariant of the Pauli-flow finder for rounds `l ≥ 1`. -/
def PInv (g : DGraph) (iset oset : Finset Nat) (pl : Nat → PPlane)
    (B : Finset Nat) (f : Nat → Option (Finset Nat)) (layer : Nat → Nat) (l : Nat) : Prop :=
  oset ⊆ B ∧ B ⊆ Finset.range g.length ∧ 1 ≤ l ∧
  (∀ v ∈ B, layer v < l) ∧
  (∀ v ∈ oset, layer v = 0) ∧
  (∀ v, (f v).isSome ↔ v ∈ B \ oset) ∧
  (∀ u s, f u = some s → PEntryB g iset pl layer B u s)

/-- Facts established about a successful Pauli-flow run. -/
def PGood (g : DGraph) (iset oset : Finset Nat) (pl : Nat → PPlane)
    (f : Nat → Option (Finset Nat)) (layer : Nat → Nat) : Prop :=
  (∀ v ∈ oset, layer v = 0) ∧
  (∀ v, (f v).isSome ↔ v ∈ Finset.range g.length \ oset) ∧
  (∀ u s, f u = some s → PEntry g iset pl layer u s)

/-! ## Concrete instances (from src/tests/assets.py and src/tests) -/

/-- Host graph of CASE7: edges (0,1), (0,2), (0,4), (3,4). -/
def hg7 : HG :=
  HG.mk {0, 1, 2, 3, 4}
    (fun v => if v = 0 then {1, 2, 4} else if v = 1 then {0} else if v = 2 then {0}
      else if v = 3 then {4} else if v = 4 then {0, 3} else ∅)

/-- Pauli labels of CASE7: 0↦Z, 1↦Z, 2↦Y, 3↦Y. -/
def pm7 : PMap PPlane :=
  PMap.mk {0, 1, 2, 3}
    (fun v => if v ≤ 1 then PPlane.Z else if v ≤ 3 then PPlane.Y else PPlane.XY)

/-- Host graph of CASE1: the path 0-1-2-3-4. -/
def hgPath : HG :=
  HG.mk {0, 1, 2, 3, 4}
    (fun v => if v = 0 then {1} else if v = 1 then {0, 2} else if v = 2 then {1, 3}
      else if v = 3 then {2, 4} else if v = 4 then {3} else ∅)

/-- Host graph with a single edge 0-1 (test_gflow_redundant). -/
def hgEdge : HG :=
  HG.mk {0, 1} (fun v => if v = 0 then {1} else if v = 1 then {0} else ∅)

/-- Host star graph for the determinism counterexample: 0 adjacent to the
two outputs 1 and 2. -/
def hgStar : HG :=
  HG.mk {0, 1, 2} (fun v => if v = 0 then {1, 2} else if v ≤ 2 then {0} else ∅)

/-! ## Lemmas and theorems -/

/-! ### Enumeration helper -/

theorem mem_fsort {s : Finset Nat} {v : Nat} : v ∈ fsort s ↔ v ∈ s := by
  unfold fsort
  rw [List.mem_filter, List.mem_range]
  simp only [decide_eq_true_eq]
  constructor
  · exact fun h => h.2
  · intro h
    exact ⟨Nat.lt_succ_of_le (Finset.le_sup (f := id) h), h⟩

theorem fsort_toFinset {s : Finset Nat} : (fsort s).toFinset = s := by
  ext v
  rw [List.mem_toFinset]
  exact mem_fsort

/-! ### Solver lemmas -/

theorem bvecs_length_mem : ∀ {n : Nat} {x : List Bool}, x ∈ bvecs n → x.length = n := by
  intro n
  induction n with
  | zero =>
    intro x hx
    simp [bvecs] at hx
    simp [hx]
  | succ n ih =>
    intro x hx
    simp [bvecs] at hx
    obtain ⟨t, ht, hx⟩ := hx
    rcases hx with h | h <;> subst h <;> simp [ih ht]

theorem bvecs_complete : ∀ {n : Nat} {x : List Bool}, x.length = n → x ∈ bvecs n := by
  intro n
  induction n with
  | zero =>
    intro x hx
    simp [List.length_eq_zero] at hx
    simp [bvecs, hx]
  | succ n ih =>
    intro x hx
    cases x with
    | nil => simp at hx
    | cons a t =>
      simp at hx
      simp [bvecs]
      refine ⟨t, ih hx, ?_⟩
      cases a <;> simp

theorem pickMin_mem : ∀ {l : List (List Bool)} {x : List Bool}, pickMin l = some x → x ∈ l := by
  intro l
  induction l with
  | nil => intro x h; simp [pickMin] at h
  | cons a t ih =>
    intro x h
    simp only [pickMin, Option.some.injEq] at h
    cases hm : pickMin t with
    | none => rw [hm] at h; simp [pickBetter] at h; simp [h]
    | some y =>
      rw [hm] at h
      simp only [pickBetter] at h
      by_cases hlt : hw y < hw a
      · rw [if_pos hlt] at h
        subst h
        exact List.mem_cons_of_mem _ (ih hm)
      · rw [if_neg hlt] at h
        simp [h]

theorem pickMin_min : ∀ {l : List (List Bool)} {x y : List Bool},
    pickMin l = some x → y ∈ l → hw x ≤ hw y := by
  intro l
  induction l with
  | nil => intro x y h; simp [pickMin] at h
  | cons a t ih =>
    intro x y h hy
    simp only [pickMin, Option.some.injEq] at h
    cases hm : pickMin t with
    | none =>
      rw [hm] at h
      simp [pickBetter] at h
      subst h
      have ht : t = [] := by
        cases t with
        | nil => rfl
        | cons b s => simp [pickMin] at hm
      subst ht
      simp at hy
      simp [hy]
    | some z =>
      rw [hm] at h
      simp only [pickBetter] at h
      rcases List.mem_cons.mp hy with rfl | hyt
      · by_cases hlt : hw z < hw y
        · rw [if_pos hlt] at h
          subst h
          exact Nat.le_of_lt hlt
        · rw [if_neg hlt] at h
          subst h
          exact Nat.le_refl _
      · by_cases hlt : hw z < hw a
        · rw [if_pos hlt] at h
          subst h
          exact ih hm hyt
        · rw [if_neg hlt] at h
          subst h
          exact Nat.le_trans (Nat.le_of_not_lt hlt) (ih hm hyt)

theorem pickMin_none : ∀ {l : List (List Bool)}, pickMin l = none → l = [] := by
  intro l
  cases l with
  | nil => intro; rfl
  | cons a t => intro h; simp [pickMin] at h

theorem solveOne_sound {n : Nat} {a : List (List Bool)} {b x : List Bool}
    (h : solveOne n a b = some x) : x.length = n ∧ matVec a x = b := by
  have hx := pickMin_mem h
  simp only [List.mem_filter] at hx
  obtain ⟨hmem, hpred⟩ := hx
  refine ⟨bvecs_length_mem hmem, ?_⟩
  exact beq_iff_eq.mp hpred

theorem solveOne_complete {n : Nat} {a : List (List Bool)} {b x : List Bool}
    (hlen : x.length = n) (hsol : matVec a x = b) : (solveOne n a b).isSome := by
  cases hres : solveOne n a b with
  | some y => simp
  | none =>
    exfalso
    have hempty := pickMin_none hres
    have hmem : x ∈ (bvecs n).filter (fun x => matVec a x == b) := by
      simp [List.mem_filter, bvecs_complete hlen, hsol]
    rw [hempty] at hmem
    simp at hmem

theorem solveOne_min {n : Nat} {a : List (List Bool)} {b x y : List Bool}
    (h : solveOne n a b = some x) (hlen : y.length = n) (hsol : matVec a y = b) :
    hw x ≤ hw y := by
  refine pickMin_min h ?_
  simp [List.mem_filter, bvecs_complete hlen, hsol]

theorem solveCore_get {n : Nat} {a b : List (List Bool)} {neqs j : Nat} (hj : j < neqs) :
    (solveCore n a b neqs).getD j none = solveOne n a (colJ b j) := by
  simp [solveCore, List.getD, List.getElem?_map, List.getElem?_range hj]

/-! ### Claim C1 -/

/-- C1: for every binary matrix `a` of shape `(m, n)` and right-hand-side
matrix `b` with `m` rows, the solver returns one entry per column of `b`;
entry `j` is `some x` with `a · x = colJ b j` over GF(2) exactly when that
column's system is solvable, and `none` exactly when it is not. -/
theorem solver_sound_complete
    (m n neqs : Nat) (a b : List (List Bool)) (j : Nat)
    (ha : a.length = m) (har : ∀ row ∈ a, row.length = n)
    (hb : b.length = m) (hbr : ∀ row ∈ b, row.length = neqs)
    (hj : j < neqs) :
    (solveCore n a b neqs).length = neqs ∧
    (∀ x, (solveCore n a b neqs).getD j none = some x →
        x.length = n ∧ matVec a x = colJ b j) ∧
    ((solveCore n a b neqs).getD j none = none →
        ∀ x, x.length = n → matVec a x ≠ colJ b j) := by
  refine ⟨by simp [solveCore], ?_, ?_⟩
  · intro x hx
    rw [solveCore_get hj] at hx
    exact solveOne_sound hx
  · intro hnone x hlen hsol
    rw [solveCore_get hj] at hnone
    have := solveOne_complete hlen hsol
    rw [hnone] at this
    simp at this

/-- C1 witness: the theorem applied to the concrete system
`a = [[1],[0]]`, `b = [[1,0],[0,1]]`, column 0. -/
theorem solver_sound_complete_witness :
    (solveCore 1 [[true], [false]] [[true, false], [false, true]] 2).length = 2 :=
  (solver_sound_complete 2 1 2 [[true], [false]] [[true, false], [false, true]] 0
    rfl (by decide) rfl (by decide) (by decide)).1

/-! ### Claim C4 -/

/-- C4: a returned solution has minimum Hamming weight among all GF(2)
solutions of its column's system (the tie-break between equal-weight
solutions is a fixed deterministic rule of the enumeration); in particular
for `A = [[1,1],[0,0]]` and `B = [[0,1],[0,1]]` the result is
`[some [0,0], none]`. -/
theorem solver_minimal
    (n neqs : Nat) (a b : List (List Bool)) (j : Nat) (x : List Bool)
    (hj : j < neqs)
    (hx : (solveCore n a b neqs).getD j none = some x) :
    (∀ y, y.length = n → matVec a y = colJ b j → hw x ≤ hw y) ∧
    solveCore 2 [[true, true], [false, false]] [[false, true], [false, true]] 2 =
      [some [false, false], none] := by
  constructor
  · intro y hlen hsol
    rw [solveCore_get hj] at hx
    exact solveOne_min hx hlen hsol
  · decide

/-- C4 witness: the theorem applied at the concrete example itself
(column 0 of `A = [[1,1],[0,0]]`, `B = [[0,1],[0,1]]`). -/
theorem solver_minimal_witness :
    hw [false, false] ≤ hw [true, true] :=
  (solver_minimal 2 2 [[true, true], [false, false]] [[false, true], [false, true]]
      0 [false, false] (by decide) (by decide)).1 [true, true] (by decide) (by decide)

/-! ### Claim C8 -/

/-- C8 counterexample: a 1-D right-hand side `b` is not a 2-D matrix, yet
`solver.solve` accepts it (reshaping it to one column) instead of failing
with a typed error, so the claim as stated is false. -/
theorem solvePy_accepts_1d_rhs :
    solvePy (PyArr.mk [2, 1] [1, 0]) (PyArr.mk [2] [1, 0]) =
      Except.ok [some [true]] := by rfl

/-- C8 (amended): `solver.solve` fails with a typed error, before the core
solver is invoked, whenever `a` is not 2-D, whenever `b` is neither 2-D
nor a 1-D vector, whenever the row counts of `a` and `b` differ, or
whenever either input contains a value outside {0,1}. -/
theorem solvePy_errors (a b : PyArr)
    (hwfb : b.data.length = b.shape.prod)
    (h : a.shape.length ≠ 2 ∨
         (b.shape.length ≠ 2 ∧ b.shape.length ≠ 1) ∨
         b.shape.getD 0 0 ≠ a.shape.getD 0 0 ∨
         isBinary a = false ∨ isBinary b = false) :
    isOkE (solvePy a b) = false := by
  unfold solvePy
  by_cases hba : isBinary a = false
  · simp [hba, isOkE]
  · rw [if_neg hba]
    by_cases hbb : isBinary b = false
    · simp [hbb, isOkE]
    · rw [if_neg hbb]
      by_cases h2a : a.shape.length = 2
      · rw [if_neg (fun hc => hc h2a)]
        by_cases h2b : (reshapeB b).shape.length = 2
        · rw [if_neg (fun hc => hc h2b)]
          by_cases hrow : (reshapeB b).shape = [a.shape.getD 0 0, (reshapeB b).shape.getD 1 0]
          · rw [if_neg (fun hc => hc hrow)]
            exfalso
            rcases h with hd | ⟨hd2, hd1⟩ | hd | hd | hd
            · exact hd h2a
            · unfold reshapeB at h2b
              by_cases hone : b.shape.length = 1
              · exact hd1 hone
              · rw [if_neg hone] at h2b
                exact hd2 h2b
            · apply hd
              have hfirst : (reshapeB b).shape.getD 0 0 = a.shape.getD 0 0 := by
                rw [hrow]; rfl
              unfold reshapeB at hfirst
              by_cases hone : b.shape.length = 1
              · rw [if_pos hone] at hfirst
                simp at hfirst
                rw [List.length_eq_one] at hone
                obtain ⟨s0, hbs⟩ := hone
                rw [hbs] at hwfb
                simp at hwfb
                rw [hbs]
                simp
                rw [← hwfb]
                exact hfirst
              · rw [if_neg hone] at hfirst
                exact hfirst
            · exact hba hd
            · exact hbb hd
          · rw [if_pos hrow]
            simp [isOkE]
        · rw [if_pos h2b]
          simp [isOkE]
      · rw [if_pos h2a]
        simp [isOkE]

/-- C8 witness: the amended theorem applied to a concrete 1-D `a`. -/
theorem solvePy_errors_witness :
    isOkE (solvePy (PyArr.mk [2] [1, 0]) (PyArr.mk [2] [1, 0])) = false :=
  solvePy_errors (PyArr.mk [2] [1, 0]) (PyArr.mk [2] [1, 0]) (by decide)
    (Or.inl (by decide))

/-! ### General helpers -/

theorem foldl_pres {α β : Type} (P : β → Prop) :
    ∀ (l : List α) (step : β → α → β) (b : β),
    (∀ b' a, a ∈ l → P b' → P (step b' a)) → P b → P (l.foldl step b) := by
  intro l
  induction l with
  | nil => intro step b _ hb; simpa using hb
  | cons a t ih =>
    intro step b hstep hb
    simp only [List.foldl_cons]
    exact ih step (step b a) (fun b' x hx hb' => hstep b' x (List.mem_cons_of_mem _ hx) hb')
      (hstep b a (List.mem_cons_self _ _) hb)

theorem mem_foldl_insert {α : Type} (f : α → Nat) :
    ∀ (l : List α) (init : Finset Nat) (x : Nat),
    (x ∈ l.foldl (fun t p => insert (f p) t) init ↔ x ∈ init ∨ ∃ p ∈ l, f p = x) := by
  intro l
  induction l with
  | nil => intro init x; simp
  | cons a t ih =>
    intro init x
    rw [List.foldl_cons, ih]
    constructor
    · intro h
      rcases h with h1 | h2
      · rcases Finset.mem_insert.mp h1 with h' | h'
        · exact Or.inr ⟨a, List.mem_cons_self _ _, h'.symm⟩
        · exact Or.inl h'
      · obtain ⟨p, hp, hfp⟩ := h2
        exact Or.inr ⟨p, List.mem_cons_of_mem _ hp, hfp⟩
    · intro h
      rcases h with h1 | h2
      · exact Or.inl (Finset.mem_insert.mpr (Or.inr h1))
      · obtain ⟨p, hp, hfp⟩ := h2
        by_cases hpa : p = a
        · subst hpa
          exact Or.inl (Finset.mem_insert.mpr (Or.inl hfp.symm))
        · have hpt : p ∈ t := by
            rcases List.mem_cons.mp hp with h' | h'
            · exact absurd h' hpa
            · exact h'
          exact Or.inr ⟨p, hpt, hfp⟩

theorem chk_eq_none {b : Bool} {e : VMsg} : chk b e = none ↔ b = true := by
  cases b <;> simp [chk]

theorem firstErr_ok {l : List (Option VMsg)} :
    firstErr l = Except.ok () ↔ ∀ o ∈ l, o = none := by
  induction l with
  | nil => simp [firstErr]
  | cons a t ih =>
    cases a with
    | none => simpa [firstErr, List.findSome?_cons] using ih
    | some e => simp [firstErr, List.findSome?_cons]

theorem flookup_cons {α : Type} {a : Nat × α} {t : List (Nat × α)} {v : Nat} :
    flookup (a :: t) v = if a.1 = v then some a.2 else flookup t v := by
  by_cases h : a.1 = v
  · simp [flookup, List.find?_cons, h]
  · simp only [flookup, List.find?_cons]
    have : (a.1 == v) = false := beq_eq_false_iff_ne.mpr h
    rw [this]
    simp [h]

theorem flookup_filterMap {α : Type} (f : Nat → Option α) :
    ∀ (l : List Nat), l.Nodup → ∀ v,
    flookup (l.filterMap (fun u => (f u).map (fun c => (u, c)))) v
      = if v ∈ l then f v else none := by
  intro l
  induction l with
  | nil => intro _ v; simp [flookup]
  | cons a t ih =>
    intro hnd v
    have hnd' := hnd
    rw [List.nodup_cons] at hnd'
    obtain ⟨hat, hndt⟩ := hnd'
    cases hfa : f a with
    | none =>
      simp only [List.filterMap_cons, hfa, Option.map_none']
      rw [ih hndt v]
      by_cases hv : v = a
      · subst hv
        simp [hat, hfa]
      · by_cases hvt : v ∈ t
        · simp [hvt, List.mem_cons.mpr (Or.inr hvt)]
        · have hvc : v ∉ a :: t := by
            intro h
            rcases List.mem_cons.mp h with h' | h'
            · exact hv h'
            · exact hvt h'
          simp [hvt, hvc]
    | some c =>
      simp only [List.filterMap_cons, hfa, Option.map_some']
      rw [flookup_cons]
      by_cases hv : a = v
      · subst hv
        simp [hfa]
      · simp only [if_neg hv]
        rw [ih hndt v]
        by_cases hvt : v ∈ t
        · simp [hvt, List.mem_cons.mpr (Or.inr hvt)]
        · have hvc : v ∉ a :: t := by
            intro h
            rcases List.mem_cons.mp h with h' | h'
            · exact hv h'.symm
            · exact hvt h'
          simp [hvt, hvc]

theorem layAt_map_range {h : Nat → Nat} {n v : Nat} :
    layAt ((List.range n).map h) v = if v < n then h v else 0 := by
  by_cases hv : v < n
  · simp [layAt, List.getD, List.getElem?_map, List.getElem?_range hv, hv]
  · have hn : (List.range n).length ≤ v := by
      simpa using Nat.le_of_not_lt hv
    simp [layAt, List.getD, hv, List.getElem?_eq_none hn]

theorem nbr_lt_length {g : DGraph} {c x : Nat} (h : x ∈ nbr g c) : c < g.length := by
  by_contra hc
  have : nbr g c = ∅ := by
    simp [nbr, List.getD, List.getElem?_eq_none (by simpa using Nat.le_of_not_lt hc)]
  rw [this] at h
  simp at h

theorem mem_oddN {g : DGraph} {s : Finset Nat} {v : Nat} :
    v ∈ oddN g s ↔ v < g.length ∧ (nbr g v ∩ s).card % 2 = 1 := by
  simp [oddN, Finset.mem_filter, Finset.mem_range]

theorem oddN_singleton {g : DGraph} (hwf : dgWF g) (c : Nat) : oddN g {c} = nbr g c := by
  obtain ⟨hsym, hsup, _⟩ := hwf
  ext v
  rw [mem_oddN]
  constructor
  · rintro ⟨hv, hodd⟩
    by_cases hc : c ∈ nbr g v
    · exact (hsym c v).mp hc
    · rw [Finset.inter_singleton_of_not_mem hc] at hodd
      simp at hodd
  · intro hv
    have hc : c ∈ nbr g v := (hsym v c).mp hv
    refine ⟨hsup v c hv, ?_⟩
    rw [Finset.inter_singleton_of_mem hc]
    simp

theorem sublists_sub : ∀ {l : List Nat} {s : Finset Nat}, s ∈ sublists l → s ⊆ l.toFinset := by
  intro l
  induction l with
  | nil =>
    intro s h
    simp [sublists] at h
    simp [h]
  | cons a t ih =>
    intro s h
    simp only [sublists, List.mem_flatMap] at h
    obtain ⟨s', hs', hmem⟩ := h
    have hsub := ih hs'
    have hstep : ∀ x ∈ s', x ∈ (a :: t).toFinset := by
      intro x hx
      have := hsub hx
      rw [List.mem_toFinset] at this ⊢
      exact List.mem_cons_of_mem _ this
    rcases List.mem_cons.mp hmem with h' | h'
    · subst h'
      exact hstep
    · simp only [List.mem_singleton] at h'
      subst h'
      intro x hx
      rcases Finset.mem_insert.mp hx with h'' | h''
      · subst h''
        rw [List.mem_toFinset]
        exact List.mem_cons_self _ _
      · exact hstep x h''

theorem sublists_complete : ∀ {l : List Nat} {s : Finset Nat},
    s ⊆ l.toFinset → s ∈ sublists l := by
  intro l
  induction l with
  | nil =>
    intro s h
    simp at h
    simp [sublists, h]
  | cons a t ih =>
    intro s h
    simp only [sublists, List.mem_flatMap]
    by_cases ha : a ∈ s
    · refine ⟨s.erase a, ih ?_, ?_⟩
      · intro x hx
        have hxs := Finset.mem_of_mem_erase hx
        have hxa := Finset.ne_of_mem_erase hx
        have hmem := h hxs
        rw [List.mem_toFinset] at hmem
        rcases List.mem_cons.mp hmem with h' | h'
        · exact absurd h' hxa
        · rwa [List.mem_toFinset]
      · simp [Finset.insert_erase ha]
    · refine ⟨s, ih ?_, by simp⟩
      intro x hx
      have hmem := h hx
      rw [List.mem_toFinset] at hmem
      rcases List.mem_cons.mp hmem with h' | h'
      · subst h'
        exact absurd hx ha
      · rwa [List.mem_toFinset]

theorem mem_subsetsOf {c s : Finset Nat} : s ∈ subsetsOf c ↔ s ⊆ c := by
  constructor
  · intro h
    have := sublists_sub h
    rwa [fsort_toFinset] at this
  · intro h
    apply sublists_complete
    rwa [fsort_toFinset]

theorem find?_key_eq {α : Type} {ps : List (Nat × α)} {v : Nat} {p : Nat × α}
    (h : ps.find? (fun q => q.1 == v) = some p) : p ∈ ps ∧ p.1 = v := by
  refine ⟨List.mem_of_find?_eq_some h, ?_⟩
  have := List.find?_some h
  simpa using this

theorem find?_key_none {α : Type} {ps : List (Nat × α)} {v : Nat}
    (h : ∀ p ∈ ps, p.1 ≠ v) : ps.find? (fun q => q.1 == v) = none := by
  rw [List.find?_eq_none]
  intro p hp
  simpa using h p hp

theorem any_key_false {α : Type} {ps : List (Nat × α)} {v : Nat}
    (h : ∀ p ∈ ps, p.1 ≠ v) : (ps.any (fun q => q.1 == v)) = false := by
  rw [Bool.eq_false_iff]
  intro hc
  rw [List.any_eq_true] at hc
  obtain ⟨p, hp, hpv⟩ := hc
  exact h p hp (by simpa using hpv)

theorem pickMinSet_mem : ∀ {l : List (Finset Nat)} {x : Finset Nat},
    pickMinSet l = some x → x ∈ l := by
  intro l
  induction l with
  | nil => intro x h; simp [pickMinSet] at h
  | cons a t ih =>
    intro x h
    simp only [pickMinSet, Option.some.injEq] at h
    cases hm : pickMinSet t with
    | none => rw [hm] at h; simp [pickBetterSet] at h; simp [h]
    | some y =>
      rw [hm] at h
      simp only [pickBetterSet] at h
      by_cases hlt : y.card < a.card
      · rw [if_pos hlt] at h
        subst h
        exact List.mem_cons_of_mem _ (ih hm)
      · rw [if_neg hlt] at h
        simp [h]

/-! ### Causal-flow finder soundness -/

theorem flowPairs_spec (g : DGraph) (solved correctors : Finset Nat) :
    (∀ p ∈ flowPairs g solved correctors,
      p.2 ∈ correctors ∧ nbr g p.2 \ solved = {p.1}) ∧
    ((flowPairs g solved correctors).map Prod.fst).Nodup := by
  unfold flowPairs
  refine foldl_pres (fun acc : List (Nat × Nat) =>
    (∀ p ∈ acc, p.2 ∈ correctors ∧ nbr g p.2 \ solved = {p.1}) ∧
    (acc.map Prod.fst).Nodup) _ _ _ ?_ ?_
  · intro acc c hc hacc
    dsimp only
    split
    · next u heq =>
      by_cases hany : acc.any (fun p => p.1 = u)
      · rw [if_pos hany]
        exact hacc
      · rw [if_neg hany]
        have hset : nbr g c \ solved = {u} := by
          have hts := congrArg List.toFinset heq
          rw [fsort_toFinset] at hts
          simpa using hts
        constructor
        · intro p hp
          rcases List.mem_append.mp hp with hp' | hp'
          · exact hacc.1 p hp'
          · have : p = (u, c) := by simpa using hp'
            subst this
            exact ⟨mem_fsort.mp hc, hset⟩
        · rw [List.map_append]
          have hnotin : u ∉ acc.map Prod.fst := by
            intro hmem
            apply hany
            rw [List.any_eq_true]
            rw [List.mem_map] at hmem
            obtain ⟨p, hp, hpu⟩ := hmem
            exact ⟨p, hp, by simpa using hpu⟩
          simp [List.nodup_append, hacc.2, hnotin]
    · exact hacc
  · exact ⟨by simp, by simp⟩

theorem flowInv_step (g : DGraph) (iset oset : Finset Nat)
    (solved correctors : Finset Nat) (f : Nat → Option Nat) (layer : Nat → Nat) (l : Nat)
    (hwf : dgWF g)
    (hinv : FlowInv g iset oset solved correctors f layer l) :
    FlowInv g iset oset
      (solved ∪ (flowPairs g solved correctors).foldl (fun t p => insert p.1 t) ∅)
      ((correctors \ (flowPairs g solved correctors).foldl (fun t p => insert p.2 t) ∅) ∪
        ((flowPairs g solved correctors).foldl (fun t p => insert p.1 t) ∅ \ iset))
      (fun v => match (flowPairs g solved correctors).find? (fun p => p.1 == v) with
        | some p => some p.2
        | none => f v)
      (fun v => if (flowPairs g solved correctors).any (fun p => p.1 == v) then l else layer v)
      (l + 1) := by
  obtain ⟨hos, hsr, hcor, hl, hlay, holay, hdom, hent⟩ := hinv
  obtain ⟨hspec, hnodup⟩ := flowPairs_spec g solved correctors
  set ps := flowPairs g solved correctors with hps
  have hus : ∀ x, x ∈ ps.foldl (fun t p => insert p.1 t) (∅ : Finset Nat) ↔
      ∃ p ∈ ps, p.1 = x := by
    intro x
    rw [mem_foldl_insert]
    simp
  have hunsolved : ∀ p ∈ ps, p.1 ∉ solved := by
    intro p hp
    have := (hspec p hp).2
    intro hmem
    have : p.1 ∈ nbr g p.2 \ solved := by
      rw [this]
      exact Finset.mem_singleton_self _
    exact (Finset.mem_sdiff.mp this).2 hmem
  have hkeyne : ∀ v ∈ solved, ∀ p ∈ ps, p.1 ≠ v := by
    intro v hv p hp he
    exact hunsolved p hp (he ▸ hv)
  have hanyfalse : ∀ v ∈ solved, (ps.any (fun p => p.1 == v)) = false := by
    intro v hv
    exact any_key_false (hkeyne v hv)
  have hfindnone : ∀ v ∈ solved, ps.find? (fun p => p.1 == v) = none := by
    intro v hv
    exact find?_key_none (hkeyne v hv)
  refine ⟨?_, ?_, ?_, ?_, ?_, ?_, ?_, ?_⟩
  · exact hos.trans (Finset.subset_union_left)
  · intro x hx
    rcases Finset.mem_union.mp hx with hx' | hx'
    · exact hsr hx'
    · obtain ⟨p, hp, hpx⟩ := (hus x).mp hx'
      have hset := (hspec p hp).2
      have hmem : p.1 ∈ nbr g p.2 := by
        have : p.1 ∈ nbr g p.2 \ solved := by
          rw [hset]
          exact Finset.mem_singleton_self _
        exact (Finset.mem_sdiff.mp this).1
      rw [Finset.mem_range]
      exact hpx ▸ hwf.2.1 p.1 p.2 hmem
  · intro x hx
    rcases Finset.mem_union.mp hx with hx' | hx'
    · have := hcor (Finset.mem_sdiff.mp hx').1
      rw [Finset.mem_sdiff] at this ⊢
      exact ⟨Finset.mem_union_left _ this.1, this.2⟩
    · rw [Finset.mem_sdiff] at hx'
      rw [Finset.mem_sdiff]
      exact ⟨Finset.mem_union_right _ hx'.1, hx'.2⟩
  · exact Nat.le_succ_of_le hl
  · intro v hv
    dsimp only
    rcases Finset.mem_union.mp hv with hv' | hv'
    · rw [hanyfalse v hv']
      simp only [Bool.false_eq_true, if_false]
      exact Nat.lt_succ_of_lt (hlay v hv')
    · obtain ⟨p, hp, hpx⟩ := (hus v).mp hv'
      have hat : (ps.any (fun p => p.1 == v)) = true := by
        rw [List.any_eq_true]
        exact ⟨p, hp, by simpa using hpx⟩
      rw [hat]
      simp only [if_true]
      exact Nat.lt_succ_self _
  · intro v hv
    dsimp only
    rw [hanyfalse v (hos hv)]
    simp only [Bool.false_eq_true, if_false]
    exact holay v hv
  · intro v
    dsimp only
    cases hfind : ps.find? (fun p => p.1 == v) with
    | some p =>
      obtain ⟨hp, hpv⟩ := find?_key_eq hfind
      simp only [hfind, Option.isSome_some, true_iff]
      rw [Finset.mem_sdiff]
      constructor
      · exact Finset.mem_union_right _ ((hus v).mpr ⟨p, hp, hpv⟩)
      · intro hvo
        exact hunsolved p hp (hpv ▸ hos hvo)
    | none =>
      simp only [hfind]
      rw [hdom v]
      have hvnus : v ∉ ps.foldl (fun t p => insert p.1 t) (∅ : Finset Nat) := by
        intro hmem
        obtain ⟨p, hp, hpv⟩ := (hus v).mp hmem
        have : ps.find? (fun q => q.1 == v) ≠ none := by
          intro hno
          rw [List.find?_eq_none] at hno
          exact hno p hp (by simpa using hpv)
        exact this hfind
      rw [Finset.mem_sdiff, Finset.mem_sdiff]
      constructor
      · rintro ⟨h1, h2⟩
        exact ⟨Finset.mem_union_left _ h1, h2⟩
      · rintro ⟨h1, h2⟩
        rcases Finset.mem_union.mp h1 with h' | h'
        · exact ⟨h', h2⟩
        · exact absurd h' hvnus
  · intro u c hfu
    dsimp only at hfu
    cases hfind : ps.find? (fun p => p.1 == u) with
    | some p =>
      rw [hfind] at hfu
      obtain ⟨hp, hpu⟩ := find?_key_eq hfind
      have hc : c = p.2 := by
        simpa using hfu.symm
      subst hc
      obtain ⟨hpcor, hpset⟩ := hspec p hp
      have hcsolved : p.2 ∈ solved := (Finset.mem_sdiff.mp (hcor hpcor)).1
      have hciset : p.2 ∉ iset := (Finset.mem_sdiff.mp (hcor hpcor)).2
      have humem : u ∈ nbr g p.2 := by
        have : u ∈ nbr g p.2 \ solved := by
          rw [hpset, hpu]
          exact Finset.mem_singleton_self _
        exact (Finset.mem_sdiff.mp this).1
      have huns : u ∉ solved := hpu ▸ hunsolved p hp
      have hanyu : (ps.any (fun q => q.1 == u)) = true := by
        rw [List.any_eq_true]
        exact ⟨p, hp, by simpa using hpu⟩
      have hwsolved : ∀ w ∈ insert p.2 (nbr g p.2), w ≠ u → w ∈ solved := by
        intro w hw hwu
        rcases Finset.mem_insert.mp hw with h' | h'
        · exact h' ▸ hcsolved
        · by_contra hns
          have : w ∈ nbr g p.2 \ solved := Finset.mem_sdiff.mpr ⟨h', hns⟩
          rw [hpset, hpu] at this
          exact hwu (Finset.mem_singleton.mp this)
      refine ⟨?_, hciset, humem, ?_, ?_, ?_⟩
      · intro w hw hwu
        exact Finset.mem_union_left _ (hwsolved w hw hwu)
      · intro he
        exact huns (he ▸ hcsolved)
      · dsimp only
        rw [hanyu]
        simp only [if_true]
        exact hl
      · intro w hw hwu
        have hws := hwsolved w hw hwu
        dsimp only
        rw [hanyu, hanyfalse w hws]
        simp only [if_true, Bool.false_eq_true, if_false]
        exact hlay w hws
    | none =>
      rw [hfind] at hfu
      have hfu' : f u = some c := hfu
      obtain ⟨hold, hentry⟩ := hent u c hfu'
      have husolved : u ∈ solved := by
        have hsome : (f u).isSome := by
          rw [hfu']
          rfl
        exact (Finset.mem_sdiff.mp ((hdom u).mp hsome)).1
      obtain ⟨hci, hun, hune, hlu, hord⟩ := hentry
      refine ⟨?_, hci, hun, hune, ?_, ?_⟩
      · intro w hw hwu
        exact Finset.mem_union_left _ (hold w hw hwu)
      · dsimp only
        rw [hanyfalse u husolved]
        simp only [Bool.false_eq_true, if_false]
        exact hlu
      · intro w hw hwu
        have hws := hold w hw hwu
        dsimp only
        rw [hanyfalse w hws, hanyfalse u husolved]
        simp only [Bool.false_eq_true, if_false]
        exact hord w hw hwu

theorem flowLoop_sound (g : DGraph) (iset oset : Finset Nat) (hwf : dgWF g) :
    ∀ (fuel : Nat) (solved correctors : Finset Nat) (f : Nat → Option Nat)
      (layer : Nat → Nat) (l : Nat) (out : (Nat → Option Nat) × (Nat → Nat)),
    FlowInv g iset oset solved correctors f layer l →
    flowLoop g iset fuel solved correctors f layer l = some out →
    FlowGood g iset oset out.1 out.2 := by
  intro fuel
  induction fuel with
  | zero =>
    intro solved correctors f layer l out _ hloop
    simp [flowLoop] at hloop
  | succ fuel ih =>
    intro solved correctors f layer l out hinv hloop
    simp only [flowLoop] at hloop
    by_cases hempty : (flowPairs g solved correctors).isEmpty
    · rw [if_pos hempty] at hloop
      by_cases hall : solved = Finset.range g.length
      · rw [if_pos hall] at hloop
        obtain ⟨hos, hsr, hcor, hl, hlay, holay, hdom, hent⟩ := hinv
        have hout : out = (f, layer) := by
          simpa using hloop.symm
        subst hout
        refine ⟨holay, ?_, ?_⟩
        · intro v
          rw [hdom v, hall]
        · intro u c hfu
          exact (hent u c hfu).2
      · rw [if_neg hall] at hloop
        simp at hloop
    · rw [if_neg hempty] at hloop
      exact ih _ _ _ _ _ out (flowInv_step g iset oset solved correctors f layer l hwf hinv) hloop

theorem flowFindCore_verifies (g : DGraph) (iset oset : Finset Nat)
    (hwf : dgWF g) (hos : oset ⊆ Finset.range g.length)
    (w : List (Nat × Nat) × List Nat)
    (hfind : flowFindCore g iset oset = some w) :
    flowVerifyCore g iset oset w.1 w.2 = Except.ok () := by
  unfold flowFindCore at hfind
  cases hloop : flowLoop g iset (g.length + 1) oset (oset \ iset)
      (fun _ => none) (fun _ => 0) 1 with
  | none =>
    rw [hloop] at hfind
    exact absurd hfind (by simp)
  | some out =>
    rw [hloop] at hfind
    obtain ⟨f, layer⟩ := out
    have hw : w = ((List.range g.length).filterMap (fun u => (f u).map (fun c => (u, c))),
        (List.range g.length).map layer) := by
      have := hfind
      simpa using this.symm
    have hinv : FlowInv g iset oset oset (oset \ iset) (fun _ => none) (fun _ => 0) 1 := by
      refine ⟨Finset.Subset.refl _, hos, Finset.Subset.refl _, Nat.le_refl _, ?_, ?_, ?_, ?_⟩
      · intro v _
        exact Nat.zero_lt_one
      · intro v _
        rfl
      · intro v
        simp
      · intro u c h
        simp at h
    have hgood := flowLoop_sound g iset oset hwf _ _ _ _ _ _ (f, layer) hinv hloop
    obtain ⟨holay, hdom, hent⟩ := hgood
    dsimp only at holay hdom hent
    subst hw
    dsimp only
    have hflk : ∀ v, flookup ((List.range g.length).filterMap
        (fun u => (f u).map (fun c => (u, c)))) v
        = if v ∈ List.range g.length then f v else none :=
      flookup_filterMap f (List.range g.length) (List.nodup_range _)
    unfold flowVerifyCore
    rw [firstErr_ok]
    intro o ho
    rcases List.mem_append.mp ho with ho | ho
    ·
      rcases List.mem_append.mp ho with ho | ho
      · -- layer contract checks
        obtain ⟨v, hv, rfl⟩ := List.mem_map.mp ho
        have hvn : v < g.length := List.mem_range.mp hv
        by_cases hvo : v ∈ oset
        · rw [if_pos hvo]
          rw [chk_eq_none, layAt_map_range, if_pos hvn, holay v hvo]
          simp
        · rw [if_neg hvo]
          rw [chk_eq_none, layAt_map_range, if_pos hvn]
          have hsome : (f v).isSome := (hdom v).mpr
            (Finset.mem_sdiff.mpr ⟨Finset.mem_range.mpr hvn, hvo⟩)
          obtain ⟨c, hc⟩ := Option.isSome_iff_exists.mp hsome
          have := (hent v c hc).2.2.2.1
          have hpos : 0 < layer v := Nat.lt_of_lt_of_le Nat.zero_lt_one this
          simp [Nat.pos_iff_ne_zero.mp hpos]
      · -- domain checks
        obtain ⟨v, hv, rfl⟩ := List.mem_map.mp ho
        have hvn : v < g.length := List.mem_range.mp hv
        rw [chk_eq_none, hflk v, if_pos hv]
        by_cases hvo : v ∈ oset
        · have : (f v).isSome = false := by
            rw [Bool.eq_false_iff]
            intro hc
            exact (Finset.mem_sdiff.mp ((hdom v).mp hc)).2 hvo
          simp [this, hvo]
        · have : (f v).isSome = true := (hdom v).mpr
            (Finset.mem_sdiff.mpr ⟨Finset.mem_range.mpr hvn, hvo⟩)
          simp [this, hvo]
    · -- per-entry checks
      obtain ⟨u, hu, hmem⟩ := List.mem_flatMap.mp ho
      rw [hflk u, if_pos hu] at hmem
      cases hfu : f u with
      | none =>
        rw [hfu] at hmem
        exact absurd hmem (by simp)
      | some c =>
        rw [hfu] at hmem
        obtain ⟨hci, hadj, hune, hlu, hord⟩ := hent u c hfu
        have hun : u < g.length := List.mem_range.mp hu
        have hcn : c < g.length := nbr_lt_length hadj
        have hodd : oddN g {c} = nbr g c := oddN_singleton hwf c
        rcases List.mem_cons.mp hmem with h' | h'
        · subst h'
          rw [chk_eq_none]
          simpa using hci
        rcases List.mem_cons.mp h' with h'' | h''
        · subst h''
          rw [chk_eq_none, hodd]
          simp [hune, hadj]
        · obtain ⟨v, hvmem, rfl⟩ := List.mem_map.mp h''
          rw [chk_eq_none]
          have hv' : v ∈ insert c (nbr g c) := by
            have := mem_fsort.mp hvmem
            rwa [hodd] at this
          by_cases hvu : v = u
          · simp [hvu]
          · have hlt := hord v hv' hvu
            have hvn : v < g.length := by
              rcases Finset.mem_insert.mp hv' with h3 | h3
              · exact h3 ▸ hcn
              · exact hwf.2.1 v c h3
            rw [layAt_map_range, layAt_map_range, if_pos hun, if_pos hvn]
            simp [hlt]

/-! ### Gflow finder soundness -/

theorem mem_filterMap_keyed {α : Type} {h : Nat → Option α} {l : List Nat} {p : Nat × α} :
    p ∈ l.filterMap (fun u => (h u).map (fun s => (u, s))) ↔ p.1 ∈ l ∧ h p.1 = some p.2 := by
  rw [List.mem_filterMap]
  constructor
  · rintro ⟨a, ha, hmap⟩
    cases hha : h a with
    | none => rw [hha] at hmap; simp at hmap
    | some s =>
      rw [hha] at hmap
      simp at hmap
      subst hmap
      exact ⟨by simpa using ha, by simp [hha]⟩
  · rintro ⟨hmem, hval⟩
    exact ⟨p.1, hmem, by simp [hval]⟩

theorem gsolve_spec {g : DGraph} {iset B : Finset Nat} {pl : Nat → Plane} {u : Nat}
    {s : Finset Nat} (h : gsolve g iset B pl u = some s) :
    s ⊆ gcand iset B pl u ∧ gcond g B pl u s = true := by
  have hmem := pickMinSet_mem h
  rw [List.mem_filter] at hmem
  exact ⟨mem_subsetsOf.mp hmem.1, hmem.2⟩

theorem gcond_parts {g : DGraph} {B : Finset Nat} {pl : Nat → Plane} {u : Nat}
    {s : Finset Nat} (h : gcond g B pl u s = true) :
    oddN g s ⊆ B ∪ {u} ∧ planeProp g pl u s := by
  unfold gcond at h
  rw [Bool.and_eq_true] at h
  obtain ⟨h1, h2⟩ := h
  refine ⟨by simpa using h1, ?_⟩
  unfold planeProp
  cases hpl : pl u <;> rw [hpl] at h2 <;> simp at h2 <;> simpa using h2

theorem gcand_cases {iset B : Finset Nat} {pl : Nat → Plane} {u w : Nat}
    (h : w ∈ gcand iset B pl u) :
    (w ∈ B ∧ w ∉ iset) ∨ (w = u ∧ u ∉ iset) := by
  unfold gcand at h
  rcases Finset.mem_union.mp h with h' | h'
  · rw [Finset.mem_sdiff] at h'
    exact Or.inl h'
  · split at h'
    · next hc =>
      simp at h'
      exact Or.inr ⟨h', h'.symm ▸ hc.2⟩
    · simp at h'

theorem gInv_step (g : DGraph) (iset oset : Finset Nat) (pl : Nat → Plane)
    (B : Finset Nat) (f : Nat → Option (Finset Nat)) (layer : Nat → Nat) (l : Nat)
    (hinv : GInv g iset oset pl B f layer l) :
    GInv g iset oset pl
      (B ∪ ((fsort (Finset.range g.length \ B)).filterMap
        (fun u => (gsolve g iset B pl u).map (fun s => (u, s)))).foldl
          (fun t p => insert p.1 t) ∅)
      (fun v => match ((fsort (Finset.range g.length \ B)).filterMap
          (fun u => (gsolve g iset B pl u).map (fun s => (u, s)))).find?
            (fun p => p.1 == v) with
        | some p => some p.2
        | none => f v)
      (fun v => if ((fsort (Finset.range g.length \ B)).filterMap
          (fun u => (gsolve g iset B pl u).map (fun s => (u, s)))).any
            (fun p => p.1 == v) then l else layer v)
      (l + 1) := by
  obtain ⟨hos, hbr, hl, hlay, holay, hdom, hent⟩ := hinv
  set news := (fsort (Finset.range g.length \ B)).filterMap
    (fun u => (gsolve g iset B pl u).map (fun s => (u, s))) with hnews
  have hmemn : ∀ p ∈ news, p.1 ∈ Finset.range g.length \ B ∧
      gsolve g iset B pl p.1 = some p.2 := by
    intro p hp
    rw [hnews] at hp
    have := mem_filterMap_keyed.mp hp
    exact ⟨mem_fsort.mp this.1, this.2⟩
  have hus : ∀ x, x ∈ news.foldl (fun t p => insert p.1 t) (∅ : Finset Nat) ↔
      ∃ p ∈ news, p.1 = x := by
    intro x
    rw [mem_foldl_insert]
    simp
  have hunsolved : ∀ p ∈ news, p.1 ∉ B := by
    intro p hp
    exact (Finset.mem_sdiff.mp (hmemn p hp).1).2
  have hkeyne : ∀ v ∈ B, ∀ p ∈ news, p.1 ≠ v := by
    intro v hv p hp he
    exact hunsolved p hp (he ▸ hv)
  have hanyfalse : ∀ v ∈ B, (news.any (fun p => p.1 == v)) = false := by
    intro v hv
    exact any_key_false (hkeyne v hv)
  refine ⟨?_, ?_, ?_, ?_, ?_, ?_, ?_⟩
  · exact hos.trans (Finset.subset_union_left)
  · intro x hx
    rcases Finset.mem_union.mp hx with hx' | hx'
    · exact hbr hx'
    · obtain ⟨p, hp, hpx⟩ := (hus x).mp hx'
      exact hpx ▸ (Finset.mem_sdiff.mp (hmemn p hp).1).1
  · exact Nat.le_succ_of_le hl
  · intro v hv
    dsimp only
    rcases Finset.mem_union.mp hv with hv' | hv'
    · rw [hanyfalse v hv']
      simp only [Bool.false_eq_true, if_false]
      exact Nat.lt_succ_of_lt (hlay v hv')
    · obtain ⟨p, hp, hpx⟩ := (hus v).mp hv'
      have hat : (news.any (fun p => p.1 == v)) = true := by
        rw [List.any_eq_true]
        exact ⟨p, hp, by simpa using hpx⟩
      rw [hat]
      simp only [if_true]
      exact Nat.lt_succ_self _
  · intro v hv
    dsimp only
    rw [hanyfalse v (hos hv)]
    simp only [Bool.false_eq_true, if_false]
    exact holay v hv
  · intro v
    dsimp only
    cases hfind : news.find? (fun p => p.1 == v) with
    | some p =>
      obtain ⟨hp, hpv⟩ := find?_key_eq hfind
      simp only [hfind, Option.isSome_some, true_iff]
      rw [Finset.mem_sdiff]
      constructor
      · exact Finset.mem_union_right _ ((hus v).mpr ⟨p, hp, hpv⟩)
      · intro hvo
        exact hunsolved p hp (hpv ▸ hos hvo)
    | none =>
      simp only [hfind]
      rw [hdom v]
      have hvnus : v ∉ news.foldl (fun t p => insert p.1 t) (∅ : Finset Nat) := by
        intro hmem
        obtain ⟨p, hp, hpv⟩ := (hus v).mp hmem
        have : news.find? (fun q => q.1 == v) ≠ none := by
          intro hno
          rw [List.find?_eq_none] at hno
          exact hno p hp (by simpa using hpv)
        exact this hfind
      rw [Finset.mem_sdiff, Finset.mem_sdiff]
      constructor
      · rintro ⟨h1, h2⟩
        exact ⟨Finset.mem_union_left _ h1, h2⟩
      · rintro ⟨h1, h2⟩
        rcases Finset.mem_union.mp h1 with h' | h'
        · exact ⟨h', h2⟩
        · exact absurd h' hvnus
  · intro u s hfu
    dsimp only at hfu
    cases hfind : news.find? (fun p => p.1 == u) with
    | some p =>
      rw [hfind] at hfu
      obtain ⟨hp, hpu⟩ := find?_key_eq hfind
      have hs : s = p.2 := by
        simpa using hfu.symm
      subst hs
      obtain ⟨hrng, hsolve⟩ := hmemn p hp
      rw [hpu] at hsolve hrng
      obtain ⟨hsub, hcond⟩ := gsolve_spec hsolve
      obtain ⟨hoddsub, hplane⟩ := gcond_parts hcond
      have huns : u ∉ B := (Finset.mem_sdiff.mp hrng).2
      have hun : u < g.length := Finset.mem_range.mp (Finset.mem_sdiff.mp hrng).1
      have hanyu : (news.any (fun q => q.1 == u)) = true := by
        rw [List.any_eq_true]
        exact ⟨p, hp, by simpa using hpu⟩
      have hsB : ∀ w ∈ p.2, w ≠ u → w ∈ B := by
        intro w hw hwu
        rcases gcand_cases (hsub hw) with h' | h'
        · exact h'.1
        · exact absurd h'.1 hwu
      have hoddB : ∀ w ∈ oddN g p.2, w ≠ u → w ∈ B := by
        intro w hw hwu
        rcases Finset.mem_union.mp (hoddsub hw) with h' | h'
        · exact h'
        · exact absurd (Finset.mem_singleton.mp h') hwu
      have hallB : ∀ w ∈ p.2 ∪ oddN g p.2, w ≠ u → w ∈ B := by
        intro w hw hwu
        rcases Finset.mem_union.mp hw with h' | h'
        · exact hsB w h' hwu
        · exact hoddB w h' hwu
      constructor
      · intro w hw hwu
        exact Finset.mem_union_left _ (hallB w hw hwu)
      refine ⟨hun, ?_, ?_, ?_, ?_, hplane⟩
      · dsimp only
        rw [hanyu]
        simp only [if_true]
        exact hl
      · intro w hw
        rcases gcand_cases (hsub hw) with h' | h'
        · exact (hbr h'.1 : w ∈ Finset.range g.length)
        · exact h'.1 ▸ Finset.mem_range.mpr hun
      · intro w hw
        rcases gcand_cases (hsub hw) with h' | h'
        · exact h'.2
        · exact h'.1 ▸ h'.2
      · intro w hw hwu
        have hwB : w ∈ B := hallB w hw hwu
        dsimp only
        rw [hanyu, hanyfalse w hwB]
        simp only [if_true, Bool.false_eq_true, if_false]
        exact hlay w hwB
    | none =>
      rw [hfind] at hfu
      have hfu' : f u = some s := hfu
      obtain ⟨holdB, hun, hlu, hsr, hci, hord, hplane⟩ := hent u s hfu'
      have husolved : u ∈ B := by
        have hsome : (f u).isSome := by
          rw [hfu']
          rfl
        exact (Finset.mem_sdiff.mp ((hdom u).mp hsome)).1
      constructor
      · intro w hw hwu
        exact Finset.mem_union_left _ (holdB w hw hwu)
      refine ⟨hun, ?_, hsr, hci, ?_, hplane⟩
      · dsimp only
        rw [hanyfalse u husolved]
        simp only [Bool.false_eq_true, if_false]
        exact hlu
      · intro w hw hwu
        have hwB : w ∈ B := holdB w hw hwu
        dsimp only
        rw [hanyfalse u husolved, hanyfalse w hwB]
        simp only [Bool.false_eq_true, if_false]
        exact hord w hw hwu

theorem gflowLoop_sound (g : DGraph) (iset oset : Finset Nat) (pl : Nat → Plane) :
    ∀ (fuel : Nat) (B : Finset Nat) (f : Nat → Option (Finset Nat))
      (layer : Nat → Nat) (l : Nat) (out : (Nat → Option (Finset Nat)) × (Nat → Nat)),
    GInv g iset oset pl B f layer l →
    gflowLoop g iset pl fuel B f layer l = some out →
    GGood g iset oset pl out.1 out.2 := by
  intro fuel
  induction fuel with
  | zero =>
    intro B f layer l out _ hloop
    simp [gflowLoop] at hloop
  | succ fuel ih =>
    intro B f layer l out hinv hloop
    simp only [gflowLoop] at hloop
    by_cases hempty : ((fsort (Finset.range g.length \ B)).filterMap
        (fun u => (gsolve g iset B pl u).map (fun s => (u, s)))).isEmpty
    · rw [if_pos hempty] at hloop
      by_cases hall : B = Finset.range g.length
      · rw [if_pos hall] at hloop
        obtain ⟨hos, hbr, hl, hlay, holay, hdom, hent⟩ := hinv
        have hout : out = (f, layer) := by
          simpa using hloop.symm
        subst hout
        refine ⟨holay, ?_, ?_⟩
        · intro v
          rw [hdom v, hall]
        · intro u s hfu
          exact (hent u s hfu).2
      · rw [if_neg hall] at hloop
        simp at hloop
    · rw [if_neg hempty] at hloop
      exact ih _ _ _ _ out (gInv_step g iset oset pl B f layer l hinv) hloop

theorem gflowFindCore_verifies (g : DGraph) (iset oset : Finset Nat) (pl : Nat → Plane)
    (hos : oset ⊆ Finset.range g.length)
    (w : List (Nat × Finset Nat) × List Nat)
    (hfind : gflowFindCore g iset oset pl = some w) :
    gflowVerifyCore g iset oset pl w.1 w.2 = Except.ok () := by
  unfold gflowFindCore at hfind
  cases hloop : gflowLoop g iset pl (g.length + 1) oset (fun _ => none) (fun _ => 0) 1 with
  | none =>
    rw [hloop] at hfind
    exact absurd hfind (by simp)
  | some out =>
    rw [hloop] at hfind
    obtain ⟨f, layer⟩ := out
    have hw : w = ((List.range g.length).filterMap (fun u => (f u).map (fun s => (u, s))),
        (List.range g.length).map layer) := by
      simpa using hfind.symm
    have hinv : GInv g iset oset pl oset (fun _ => none) (fun _ => 0) 1 := by
      refine ⟨Finset.Subset.refl _, hos, Nat.le_refl _, ?_, ?_, ?_, ?_⟩
      · intro v _
        exact Nat.zero_lt_one
      · intro v _
        rfl
      · intro v
        simp
      · intro u s h
        simp at h
    have hgood := gflowLoop_sound g iset oset pl _ _ _ _ _ (f, layer) hinv hloop
    obtain ⟨holay, hdom, hent⟩ := hgood
    dsimp only at holay hdom hent
    subst hw
    dsimp only
    have hflk : ∀ v, flookup ((List.range g.length).filterMap
        (fun u => (f u).map (fun s => (u, s)))) v
        = if v ∈ List.range g.length then f v else none :=
      flookup_filterMap f (List.range g.length) (List.nodup_range _)
    unfold gflowVerifyCore
    rw [firstErr_ok]
    intro o ho
    rcases List.mem_append.mp ho with ho | ho
    ·
      rcases List.mem_append.mp ho with ho | ho
      · obtain ⟨v, hv, rfl⟩ := List.mem_map.mp ho
        have hvn : v < g.length := List.mem_range.mp hv
        by_cases hvo : v ∈ oset
        · rw [if_pos hvo]
          rw [chk_eq_none, layAt_map_range, if_pos hvn, holay v hvo]
          simp
        · rw [if_neg hvo]
          rw [chk_eq_none, layAt_map_range, if_pos hvn]
          have hsome : (f v).isSome := (hdom v).mpr
            (Finset.mem_sdiff.mpr ⟨Finset.mem_range.mpr hvn, hvo⟩)
          obtain ⟨s, hc⟩ := Option.isSome_iff_exists.mp hsome
          have hpos : 0 < layer v :=
            Nat.lt_of_lt_of_le Nat.zero_lt_one (hent v s hc).2.1
          simp [Nat.pos_iff_ne_zero.mp hpos]
      · obtain ⟨v, hv, rfl⟩ := List.mem_map.mp ho
        have hvn : v < g.length := List.mem_range.mp hv
        rw [chk_eq_none, hflk v, if_pos hv]
        by_cases hvo : v ∈ oset
        · have hno : (f v).isSome = false := by
            rw [Bool.eq_false_iff]
            intro hc
            exact (Finset.mem_sdiff.mp ((hdom v).mp hc)).2 hvo
          simp [hno, hvo]
        · have hyes : (f v).isSome = true := (hdom v).mpr
            (Finset.mem_sdiff.mpr ⟨Finset.mem_range.mpr hvn, hvo⟩)
          simp [hyes, hvo]
    · obtain ⟨u, hu, hmem⟩ := List.mem_flatMap.mp ho
      rw [hflk u, if_pos hu] at hmem
      cases hfu : f u with
      | none =>
        rw [hfu] at hmem
        exact absurd hmem (by simp)
      | some s =>
        rw [hfu] at hmem
        obtain ⟨hun, hlu, hsr, hci, hord, hplane⟩ := hent u s hfu
        rcases List.mem_cons.mp hmem with h' | h'
        · subst h'
          rw [chk_eq_none]
          simpa using hci
        rcases List.mem_cons.mp h' with h'' | h''
        · subst h''
          rw [chk_eq_none]
          rw [decide_eq_true_eq]
          intro x hx hxu
          have hxn : x < g.length := by
            rcases Finset.mem_union.mp hx with h3 | h3
            · exact Finset.mem_range.mp (hsr h3)
            · exact (mem_oddN.mp h3).1
          rw [layAt_map_range, layAt_map_range, if_pos hun, if_pos hxn]
          exact hord x hx hxu
        rcases List.mem_cons.mp h'' with h3 | h3
        · subst h3
          rw [chk_eq_none]
          unfold planeProp at hplane
          cases hpl : pl u <;> rw [hpl] at hplane <;> simp [hpl, hplane.1, hplane.2]
        · exact absurd h3 (by simp)

/-! ### Pauli-flow finder soundness -/

theorem mem_pauliXYs {pl : Nat → PPlane} {n w : Nat} :
    w ∈ pauliXYs pl n ↔ w < n ∧ (pl w = PPlane.X ∨ pl w = PPlane.Y) := by
  simp [pauliXYs, Finset.mem_filter, Finset.mem_range]

theorem mem_pauliYZs {pl : Nat → PPlane} {n w : Nat} :
    w ∈ pauliYZs pl n ↔ w < n ∧ (pl w = PPlane.Y ∨ pl w = PPlane.Z) := by
  simp [pauliYZs, Finset.mem_filter, Finset.mem_range]

theorem selfOK_parts {iset : Finset Nat} {pl : Nat → PPlane} {u : Nat}
    (h : selfOK iset pl u = true) :
    pl u ≠ PPlane.XY ∧ (u ∉ iset ∨ isPauli (pl u) = true) := by
  unfold selfOK at h
  rw [Bool.and_eq_true] at h
  obtain ⟨h1, h2⟩ := h
  refine ⟨by simpa using h1, ?_⟩
  rw [Bool.or_eq_true] at h2
  rcases h2 with h' | h'
  · exact Or.inl (by simpa using h')
  · exact Or.inr h'

theorem pcand_cases {iset bprev : Finset Nat} {pl : Nat → PPlane} {n u w : Nat}
    (h : w ∈ pcand iset bprev pl n u) :
    ((w ∈ bprev ∨ w ∈ pauliXYs pl n) ∧ w ∉ iset) ∨ (w = u ∧ selfOK iset pl u = true) := by
  unfold pcand at h
  rcases Finset.mem_union.mp h with h' | h'
  · rw [Finset.mem_sdiff] at h'
    exact Or.inl ⟨Finset.mem_union.mp h'.1, h'.2⟩
  · split at h'
    · next hc =>
      simp at h'
      exact Or.inr ⟨h', hc⟩
    · simp at h'

theorem psolve_spec {g : DGraph} {iset bprev : Finset Nat} {pl : Nat → PPlane} {u : Nat}
    {s : Finset Nat} (h : psolve g iset bprev pl u = some s) :
    s ⊆ pcand iset bprev pl g.length u ∧ pcond g bprev pl u s = true := by
  have hmem := pickMinSet_mem h
  rw [List.mem_filter] at hmem
  exact ⟨mem_subsetsOf.mp hmem.1, hmem.2⟩

theorem pcond_parts {g : DGraph} {bprev : Finset Nat} {pl : Nat → PPlane} {u : Nat}
    {s : Finset Nat} (h : pcond g bprev pl u s = true) :
    oddN g s ⊆ bprev ∪ pauliYZs pl g.length ∪ {u} ∧
    (∀ w ∈ Finset.range g.length, pl w = PPlane.Y → w ≠ u → w ∉ bprev →
      (w ∈ s ↔ w ∈ oddN g s)) ∧
    ptypeProp g pl u s := by
  unfold pcond at h
  rw [Bool.and_eq_true, Bool.and_eq_true] at h
  obtain ⟨⟨h1, h2⟩, h3⟩ := h
  refine ⟨by simpa using h1, by simpa using h2, ?_⟩
  unfold ptypeProp
  cases hpl : pl u <;> rw [hpl] at h3 <;> simp at h3 <;> simpa using h3

theorem pInv_step (g : DGraph) (iset oset : Finset Nat) (pl : Nat → PPlane)
    (B bprev : Finset Nat) (f : Nat → Option (Finset Nat)) (layer : Nat → Nat) (l : Nat)
    (hos : oset ⊆ B) (hbr : B ⊆ Finset.range g.length)
    (hlay1 : ∀ v ∈ B, layer v < l + 1)
    (holay : ∀ v ∈ oset, layer v = 0)
    (hdom : ∀ v, (f v).isSome ↔ v ∈ B \ oset)
    (hent : ∀ u s, f u = some s → PEntryB g iset pl layer B u s)
    (hbp : bprev ⊆ B)
    (hbpl : ∀ w ∈ bprev, layer w < l) :
    PInv g iset oset pl
      (B ∪ ((fsort (Finset.range g.length \ B)).filterMap
        (fun u => (psolve g iset bprev pl u).map (fun s => (u, s)))).foldl
          (fun t p => insert p.1 t) ∅)
      (fun v => match ((fsort (Finset.range g.length \ B)).filterMap
          (fun u => (psolve g iset bprev pl u).map (fun s => (u, s)))).find?
            (fun p => p.1 == v) with
        | some p => some p.2
        | none => f v)
      (fun v => if ((fsort (Finset.range g.length \ B)).filterMap
          (fun u => (psolve g iset bprev pl u).map (fun s => (u, s)))).any
            (fun p => p.1 == v) then l else layer v)
      (l + 1) := by
  set news := (fsort (Finset.range g.length \ B)).filterMap
    (fun u => (psolve g iset bprev pl u).map (fun s => (u, s))) with hnews
  have hmemn : ∀ p ∈ news, p.1 ∈ Finset.range g.length \ B ∧
      psolve g iset bprev pl p.1 = some p.2 := by
    intro p hp
    rw [hnews] at hp
    have := mem_filterMap_keyed.mp hp
    exact ⟨mem_fsort.mp this.1, this.2⟩
  have hus : ∀ x, x ∈ news.foldl (fun t p => insert p.1 t) (∅ : Finset Nat) ↔
      ∃ p ∈ news, p.1 = x := by
    intro x
    rw [mem_foldl_insert]
    simp
  have hunsolved : ∀ p ∈ news, p.1 ∉ B := by
    intro p hp
    exact (Finset.mem_sdiff.mp (hmemn p hp).1).2
  have hkeyne : ∀ v ∈ B, ∀ p ∈ news, p.1 ≠ v := by
    intro v hv p hp he
    exact hunsolved p hp (he ▸ hv)
  have hanyfalse : ∀ v ∈ B, (news.any (fun p => p.1 == v)) = false := by
    intro v hv
    exact any_key_false (hkeyne v hv)
  refine ⟨?_, ?_, ?_, ?_, ?_, ?_, ?_⟩
  · exact hos.trans (Finset.subset_union_left)
  · intro x hx
    rcases Finset.mem_union.mp hx with hx' | hx'
    · exact hbr hx'
    · obtain ⟨p, hp, hpx⟩ := (hus x).mp hx'
      exact hpx ▸ (Finset.mem_sdiff.mp (hmemn p hp).1).1
  · exact Nat.le_add_left _ _
  · intro v hv
    dsimp only
    rcases Finset.mem_union.mp hv with hv' | hv'
    · rw [hanyfalse v hv']
      simp only [Bool.false_eq_true, if_false]
      exact hlay1 v hv'
    · obtain ⟨p, hp, hpx⟩ := (hus v).mp hv'
      have hat : (news.any (fun p => p.1 == v)) = true := by
        rw [List.any_eq_true]
        exact ⟨p, hp, by simpa using hpx⟩
      rw [hat]
      simp only [if_true]
      exact Nat.lt_succ_self _
  · intro v hv
    dsimp only
    rw [hanyfalse v (hos hv)]
    simp only [Bool.false_eq_true, if_false]
    exact holay v hv
  · intro v
    dsimp only
    cases hfind : news.find? (fun p => p.1 == v) with
    | some p =>
      obtain ⟨hp, hpv⟩ := find?_key_eq hfind
      simp only [hfind, Option.isSome_some, true_iff]
      rw [Finset.mem_sdiff]
      constructor
      · exact Finset.mem_union_right _ ((hus v).mpr ⟨p, hp, hpv⟩)
      · intro hvo
        exact hunsolved p hp (hpv ▸ hos hvo)
    | none =>
      simp only [hfind]
      rw [hdom v]
      have hvnus : v ∉ news.foldl (fun t p => insert p.1 t) (∅ : Finset Nat) := by
        intro hmem
        obtain ⟨p, hp, hpv⟩ := (hus v).mp hmem
        have : news.find? (fun q => q.1 == v) ≠ none := by
          intro hno
          rw [List.find?_eq_none] at hno
          exact hno p hp (by simpa using hpv)
        exact this hfind
      rw [Finset.mem_sdiff, Finset.mem_sdiff]
      constructor
      · rintro ⟨h1, h2⟩
        exact ⟨Finset.mem_union_left _ h1, h2⟩
      · rintro ⟨h1, h2⟩
        rcases Finset.mem_union.mp h1 with h' | h'
        · exact ⟨h', h2⟩
        · exact absurd h' hvnus
  · intro u s hfu
    dsimp only at hfu
    cases hfind : news.find? (fun p => p.1 == u) with
    | some p =>
      rw [hfind] at hfu
      obtain ⟨hp, hpu⟩ := find?_key_eq hfind
      have hs : s = p.2 := by
        simpa using hfu.symm
      subst hs
      obtain ⟨hrng, hsolve⟩ := hmemn p hp
      rw [hpu] at hsolve hrng
      obtain ⟨hsub, hcond⟩ := psolve_spec hsolve
      obtain ⟨hoddsub, hp3, htype⟩ := pcond_parts hcond
      have hun : u < g.length := Finset.mem_range.mp (Finset.mem_sdiff.mp hrng).1
      have hanyu : (news.any (fun q => q.1 == u)) = true := by
        rw [List.any_eq_true]
        exact ⟨p, hp, by simpa using hpu⟩
      have hlayu : (if (news.any (fun q => q.1 == u)) = true then l else layer u) = l := by
        rw [hanyu]
        simp
      have hlayB : ∀ w ∈ B,
          (if (news.any (fun q => q.1 == w)) = true then l else layer w) = layer w := by
        intro w hw
        rw [hanyfalse w hw]
        simp
      refine ⟨hun, ?_, ?_, ?_, ?_, ?_, htype⟩
      · intro w hw
        rcases pcand_cases (hsub hw) with h' | h'
        · rcases h'.1 with h3 | h3
          · exact hbr (hbp h3)
          · exact Finset.mem_range.mpr (mem_pauliXYs.mp h3).1
        · exact h'.1 ▸ Finset.mem_range.mpr hun
      · intro w hw
        rcases pcand_cases (hsub hw) with h' | h'
        · exact Or.inl h'.2
        · rcases (selfOK_parts h'.2).2 with hni | hpau
          · exact Or.inl (h'.1 ▸ hni)
          · exact Or.inr ⟨h'.1, hpau⟩
      · intro w hw hwu
        dsimp only
        rcases pcand_cases (hsub hw) with h' | h'
        · rcases h'.1 with h3 | h3
          · refine Or.inr (Or.inr ⟨Finset.mem_union_left _ (hbp h3), ?_⟩)
            rw [hanyu, hanyfalse w (hbp h3)]
            simp only [if_true, Bool.false_eq_true, if_false]
            exact hbpl w h3
          · rcases (mem_pauliXYs.mp h3).2 with h4 | h4
            · exact Or.inl h4
            · exact Or.inr (Or.inl h4)
        · exact absurd h'.1 hwu
      · intro w hw hwu
        dsimp only
        rcases Finset.mem_union.mp (hoddsub hw) with h' | h'
        · rcases Finset.mem_union.mp h' with h3 | h3
          · refine Or.inr (Or.inr ⟨Finset.mem_union_left _ (hbp h3), ?_⟩)
            rw [hanyu, hanyfalse w (hbp h3)]
            simp only [if_true, Bool.false_eq_true, if_false]
            exact hbpl w h3
          · rcases (mem_pauliYZs.mp h3).2 with h4 | h4
            · exact Or.inl h4
            · exact Or.inr (Or.inl h4)
        · exact absurd (Finset.mem_singleton.mp h') hwu
      · intro w hw hY hwu
        dsimp only
        by_cases hwb : w ∈ bprev
        · refine Or.inl ⟨Finset.mem_union_left _ (hbp hwb), ?_⟩
          rw [hanyu, hanyfalse w (hbp hwb)]
          simp only [if_true, Bool.false_eq_true, if_false]
          exact hbpl w hwb
        · exact Or.inr (hp3 w hw hY hwu hwb)
    | none =>
      rw [hfind] at hfu
      have hfu' : f u = some s := hfu
      obtain ⟨hun, hsr, hci, hp1, hp2, hp3, htype⟩ := hent u s hfu'
      have husolved : u ∈ B := by
        have hsome : (f u).isSome := by
          rw [hfu']
          rfl
        exact (Finset.mem_sdiff.mp ((hdom u).mp hsome)).1
      have hlayB : ∀ w ∈ B,
          (if (news.any (fun q => q.1 == w)) = true then l else layer w) = layer w := by
        intro w hw
        rw [hanyfalse w hw]
        simp
      refine ⟨hun, hsr, hci, ?_, ?_, ?_, htype⟩
      · intro w hw hwu
        dsimp only
        rcases hp1 w hw hwu with h' | h' | h'
        · exact Or.inl h'
        · exact Or.inr (Or.inl h')
        · refine Or.inr (Or.inr ⟨Finset.mem_union_left _ h'.1, ?_⟩)
          rw [hlayB w h'.1, hlayB u husolved]
          exact h'.2
      · intro w hw hwu
        dsimp only
        rcases hp2 w hw hwu with h' | h' | h'
        · exact Or.inl h'
        · exact Or.inr (Or.inl h')
        · refine Or.inr (Or.inr ⟨Finset.mem_union_left _ h'.1, ?_⟩)
          rw [hlayB w h'.1, hlayB u husolved]
          exact h'.2
      · intro w hw hY hwu
        dsimp only
        rcases hp3 w hw hY hwu with h' | h'
        · refine Or.inl ⟨Finset.mem_union_left _ h'.1, ?_⟩
          rw [hlayB w h'.1, hlayB u husolved]
          exact h'.2
        · exact Or.inr h'

theorem pEntryB_weaken {g : DGraph} {iset : Finset Nat} {pl : Nat → PPlane}
    {layer : Nat → Nat} {B : Finset Nat} {u : Nat} {s : Finset Nat}
    (h : PEntryB g iset pl layer B u s) : PEntry g iset pl layer u s := by
  obtain ⟨hun, hsr, hci, hp1, hp2, hp3, htype⟩ := h
  refine ⟨hun, hsr, hci, ?_, ?_, ?_, htype⟩
  · intro w hw hwu
    rcases hp1 w hw hwu with h' | h' | h'
    · exact Or.inl h'
    · exact Or.inr (Or.inl h')
    · exact Or.inr (Or.inr h'.2)
  · intro w hw hwu
    rcases hp2 w hw hwu with h' | h' | h'
    · exact Or.inl h'
    · exact Or.inr (Or.inl h')
    · exact Or.inr (Or.inr h'.2)
  · intro w hw hY hwu
    rcases hp3 w hw hY hwu with h' | h'
    · exact Or.inl h'.2
    · exact Or.inr h'

theorem pflowLoop_sound (g : DGraph) (iset oset : Finset Nat) (pl : Nat → PPlane) :
    ∀ (fuel : Nat) (B : Finset Nat) (f : Nat → Option (Finset Nat))
      (layer : Nat → Nat) (l : Nat) (out : (Nat → Option (Finset Nat)) × (Nat → Nat)),
    PInv g iset oset pl B f layer l →
    pflowLoop g iset pl fuel B f layer l = some out →
    PGood g iset oset pl out.1 out.2 := by
  intro fuel
  induction fuel with
  | zero =>
    intro B f layer l out _ hloop
    simp [pflowLoop] at hloop
  | succ fuel ih =>
    intro B f layer l out hinv hloop
    have hl1 : 1 ≤ l := hinv.2.2.1
    have hlne : l ≠ 0 := Nat.one_le_iff_ne_zero.mp hl1
    simp only [pflowLoop] at hloop
    rw [if_neg hlne] at hloop
    by_cases hempty : ((fsort (Finset.range g.length \ B)).filterMap
        (fun u => (psolve g iset B pl u).map (fun s => (u, s)))).isEmpty
    · rw [if_pos hempty, if_neg hlne] at hloop
      by_cases hall : B = Finset.range g.length
      · rw [if_pos hall] at hloop
        obtain ⟨hos, hbr, hl, hlay, holay, hdom, hent⟩ := hinv
        have hout : out = (f, layer) := by
          simpa using hloop.symm
        subst hout
        refine ⟨holay, ?_, ?_⟩
        · intro v
          rw [hdom v, hall]
        · intro u s hfu
          exact pEntryB_weaken (hent u s hfu)
      · rw [if_neg hall] at hloop
        simp at hloop
    · rw [if_neg hempty] at hloop
      obtain ⟨hos, hbr, hl, hlay, holay, hdom, hent⟩ := hinv
      refine ih _ _ _ _ out ?_ hloop
      exact pInv_step g iset oset pl B B f layer l hos hbr
        (fun v hv => Nat.lt_succ_of_lt (hlay v hv)) holay hdom hent
        (Finset.Subset.refl _) hlay

theorem gflow_verify_imp_pflow (g : DGraph) (iset oset : Finset Nat) (pl : Nat → PPlane)
    (hnp : ∀ v, v < g.length → v ∉ oset → isPauli (pl v) = false)
    (f_ : List (Nat × Finset Nat)) (ly_ : List Nat)
    (hok : gflowVerifyCore g iset oset (fun v => planarize (pl v)) f_ ly_ = Except.ok ()) :
    pflowVerifyCore g iset oset pl f_ ly_ = Except.ok () := by
  unfold gflowVerifyCore at hok
  rw [firstErr_ok] at hok
  have hlayc : ∀ v, v < g.length →
      (v ∈ oset → layAt ly_ v = 0) ∧ (v ∉ oset → ¬(layAt ly_ v = 0)) := by
    intro v hv
    have hm := hok _ (List.mem_append.mpr (Or.inl (List.mem_append.mpr (Or.inl
      (List.mem_map.mpr ⟨v, List.mem_range.mpr hv, rfl⟩)))))
    constructor
    · intro hvo
      rw [if_pos hvo, chk_eq_none] at hm
      simpa using hm
    · intro hvo
      rw [if_neg hvo, chk_eq_none] at hm
      simpa using hm
  have hdomc : ∀ v, v < g.length → (flookup f_ v).isSome = decide (v ∉ oset) := by
    intro v hv
    have hm := hok _ (List.mem_append.mpr (Or.inl (List.mem_append.mpr (Or.inr
      (List.mem_map.mpr ⟨v, List.mem_range.mpr hv, rfl⟩)))))
    rw [chk_eq_none] at hm
    simpa using hm
  have hentc : ∀ u s, u < g.length → flookup f_ u = some s →
      (∀ w ∈ s, w ∉ iset) ∧
      (∀ w ∈ s ∪ oddN g s, w ≠ u → layAt ly_ u > layAt ly_ w) ∧
      ((match planarize (pl u) with
        | Plane.XY => decide (u ∉ s) && decide (u ∈ oddN g s)
        | Plane.YZ => decide (u ∈ s) && decide (u ∉ oddN g s)
        | Plane.ZX => decide (u ∈ s) && decide (u ∈ oddN g s)) = true) := by
    intro u s hu hlk
    have hin : ∀ o, o ∈ [chk (decide (∀ w ∈ s, w ∉ iset)) (VMsg.invalidFlowCodomain u),
        chk (decide (∀ w ∈ s ∪ oddN g s, w ≠ u → layAt ly_ u > layAt ly_ w))
          (VMsg.inconsistentFlowOrder u u),
        chk (match planarize (pl u) with
             | Plane.XY => decide (u ∉ s) && decide (u ∈ oddN g s)
             | Plane.YZ => decide (u ∈ s) && decide (u ∉ oddN g s)
             | Plane.ZX => decide (u ∈ s) && decide (u ∈ oddN g s))
          (VMsg.inconsistentFlowPlane u)] → o = none := by
      intro o hoin
      refine hok _ (List.mem_append.mpr (Or.inr (List.mem_flatMap.mpr
        ⟨u, List.mem_range.mpr hu, ?_⟩)))
      rw [hlk]
      exact hoin
    refine ⟨?_, ?_, ?_⟩
    · have := hin _ (List.mem_cons_self _ _)
      rw [chk_eq_none] at this
      simpa using this
    · have := hin _ (List.mem_cons_of_mem _ (List.mem_cons_self _ _))
      rw [chk_eq_none] at this
      simpa using this
    · have := hin _ (List.mem_cons_of_mem _ (List.mem_cons_of_mem _ (List.mem_cons_self _ _)))
      rw [chk_eq_none] at this
      exact this
  unfold pflowVerifyCore
  rw [firstErr_ok]
  intro o ho
  rcases List.mem_append.mp ho with ho | ho
  ·
    rcases List.mem_append.mp ho with ho | ho
    · obtain ⟨v, hv, rfl⟩ := List.mem_map.mp ho
      have hvn : v < g.length := List.mem_range.mp hv
      by_cases hvo : v ∈ oset
      · rw [if_pos hvo, chk_eq_none]
        simp [(hlayc v hvn).1 hvo]
      · rw [if_neg hvo]
    · obtain ⟨v, hv, rfl⟩ := List.mem_map.mp ho
      have hvn : v < g.length := List.mem_range.mp hv
      rw [chk_eq_none, hdomc v hvn]
      simp
  · obtain ⟨u, hu, hmem⟩ := List.mem_flatMap.mp ho
    have hun : u < g.length := List.mem_range.mp hu
    cases hlk : flookup f_ u with
    | none =>
      rw [hlk] at hmem
      exact absurd hmem (by simp)
    | some s =>
      rw [hlk] at hmem
      obtain ⟨hci, hord, hplb⟩ := hentc u s hun hlk
      have huo : u ∉ oset := by
        have := hdomc u hun
        rw [hlk] at this
        simp at this
        exact this
      have hupl : isPauli (pl u) = false := hnp u hun huo
      rcases List.mem_cons.mp hmem with h1 | hmem
      · subst h1
        rw [chk_eq_none, decide_eq_true_eq]
        intro w hw
        exact Or.inl (hci w hw)
      rcases List.mem_cons.mp hmem with h1 | hmem
      · subst h1
        rw [chk_eq_none, decide_eq_true_eq]
        intro w hw hwu
        exact Or.inr (Or.inr (hord w (Finset.mem_union_left _ hw) hwu))
      rcases List.mem_cons.mp hmem with h1 | hmem
      · subst h1
        rw [chk_eq_none, decide_eq_true_eq]
        intro w hw hwu
        exact Or.inr (Or.inr (hord w (Finset.mem_union_right _ hw) hwu))
      rcases List.mem_cons.mp hmem with h1 | hmem
      · subst h1
        rw [chk_eq_none, decide_eq_true_eq]
        intro w hw hY hwu hnlt
        exfalso
        have hwn : w < g.length := List.mem_range.mp (by simpa using hw)
        by_cases hwo : w ∈ oset
        · have hw0 : layAt ly_ w = 0 := (hlayc w hwn).1 hwo
          have hu0 : ¬(layAt ly_ u = 0) := (hlayc u hun).2 huo
          exact hnlt (by rw [hw0]; exact Nat.pos_of_ne_zero hu0)
        · have := hnp w hwn hwo
          rw [hY] at this
          simp [isPauli] at this
      rcases List.mem_cons.mp hmem with h1 | hmem
      · subst h1
        rw [chk_eq_none]
        cases hpu : pl u with
        | XY =>
          rw [hpu] at hplb
          simpa [planarize] using hplb
        | YZ =>
          rw [hpu] at hplb
          simpa [planarize] using hplb
        | ZX =>
          rw [hpu] at hplb
          simpa [planarize] using hplb
        | X => rw [hpu] at hupl; simp [isPauli] at hupl
        | Y => rw [hpu] at hupl; simp [isPauli] at hupl
        | Z => rw [hpu] at hupl; simp [isPauli] at hupl
      · exact absurd hmem (by simp)

theorem pflowLoop_sound0 (g : DGraph) (iset oset : Finset Nat) (pl : Nat → PPlane)
    (hos : oset ⊆ Finset.range g.length) :
    ∀ (fuel : Nat) (out : (Nat → Option (Finset Nat)) × (Nat → Nat)),
    pflowLoop g iset pl fuel oset (fun _ => none) (fun _ => 0) 0 = some out →
    PGood g iset oset pl out.1 out.2 := by
  intro fuel out hloop
  cases fuel with
  | zero => simp [pflowLoop] at hloop
  | succ fuel =>
    have hinv1 : ∀ B' f' ly', PInv g iset oset pl B' f' ly' 1 →
        pflowLoop g iset pl fuel B' f' ly' 1 = some out →
        PGood g iset oset pl out.1 out.2 := by
      intro B' f' ly' hinv hl
      exact pflowLoop_sound g iset oset pl fuel B' f' ly' 1 out hinv hl
    simp only [pflowLoop, if_true] at hloop
    by_cases hempty : ((fsort (Finset.range g.length \ oset)).filterMap
        (fun u => (psolve g iset ∅ pl u).map (fun s => (u, s)))).isEmpty
    · rw [if_pos hempty] at hloop
      refine hinv1 _ _ _ ?_ hloop
      refine ⟨Finset.Subset.refl _, hos, Nat.le_refl _, ?_, ?_, ?_, ?_⟩
      · intro v _
        exact Nat.zero_lt_one
      · intro v _
        rfl
      · intro v
        simp
      · intro u s h
        simp at h
    · rw [if_neg hempty] at hloop
      refine hinv1 _ _ _ ?_ hloop
      have hstep := pInv_step g iset oset pl oset ∅ (fun _ => none) (fun _ => 0) 0
        (Finset.Subset.refl _) hos (fun v _ => Nat.zero_lt_one) (fun v _ => rfl)
        (by intro v; simp) (by intro u s h; simp at h)
        (Finset.empty_subset _) (by intro w hw; simp at hw)
      exact hstep

theorem pflowFindCore_verifies (g : DGraph) (iset oset : Finset Nat) (pl : Nat → PPlane)
    (hos : oset ⊆ Finset.range g.length)
    (w : List (Nat × Finset Nat) × List Nat)
    (hfind : pflowFindCore g iset oset pl = some w) :
    pflowVerifyCore g iset oset pl w.1 w.2 = Except.ok () := by
  unfold pflowFindCore at hfind
  by_cases hnp : ((fsort (Finset.range g.length \ oset)).all
      (fun v => !isPauli (pl v))) = true
  · rw [if_pos hnp] at hfind
    have hg := gflowFindCore_verifies g iset oset (fun v => planarize (pl v)) hos w hfind
    refine gflow_verify_imp_pflow g iset oset pl ?_ w.1 w.2 hg
    intro v hv hvo
    have hmem : v ∈ fsort (Finset.range g.length \ oset) := by
      rw [mem_fsort]
      exact Finset.mem_sdiff.mpr ⟨Finset.mem_range.mpr hv, hvo⟩
    have := List.all_eq_true.mp hnp v hmem
    simpa using this
  · rw [if_neg hnp] at hfind
    cases hloop : pflowLoop g iset pl (g.length + 2) oset (fun _ => none) (fun _ => 0) 0 with
    | none =>
      rw [hloop] at hfind
      exact absurd hfind (by simp)
    | some out =>
      rw [hloop] at hfind
      obtain ⟨f, layer⟩ := out
      have hw : w = ((List.range g.length).filterMap (fun u => (f u).map (fun s => (u, s))),
          (List.range g.length).map layer) := by
        simpa using hfind.symm
      have hgood := pflowLoop_sound0 g iset oset pl hos _ (f, layer) hloop
      obtain ⟨holay, hdom, hent⟩ := hgood
      dsimp only at holay hdom hent
      subst hw
      dsimp only
      have hflk : ∀ v, flookup ((List.range g.length).filterMap
          (fun u => (f u).map (fun s => (u, s)))) v
          = if v ∈ List.range g.length then f v else none :=
        flookup_filterMap f (List.range g.length) (List.nodup_range _)
      unfold pflowVerifyCore
      rw [firstErr_ok]
      intro o ho
      rcases List.mem_append.mp ho with ho | ho
      ·
        rcases List.mem_append.mp ho with ho | ho
        · obtain ⟨v, hv, rfl⟩ := List.mem_map.mp ho
          have hvn : v < g.length := List.mem_range.mp hv
          by_cases hvo : v ∈ oset
          · rw [if_pos hvo, chk_eq_none, layAt_map_range, if_pos hvn, holay v hvo]
            simp
          · rw [if_neg hvo]
        · obtain ⟨v, hv, rfl⟩ := List.mem_map.mp ho
          have hvn : v < g.length := List.mem_range.mp hv
          rw [chk_eq_none, hflk v, if_pos hv]
          by_cases hvo : v ∈ oset
          · have hno : (f v).isSome = false := by
              rw [Bool.eq_false_iff]
              intro hc
              exact (Finset.mem_sdiff.mp ((hdom v).mp hc)).2 hvo
            simp [hno, hvo]
          · have hyes : (f v).isSome = true := (hdom v).mpr
              (Finset.mem_sdiff.mpr ⟨Finset.mem_range.mpr hvn, hvo⟩)
            simp [hyes, hvo]
      · obtain ⟨u, hu, hmem⟩ := List.mem_flatMap.mp ho
        have hun : u < g.length := List.mem_range.mp hu
        rw [hflk u, if_pos hu] at hmem
        cases hfu : f u with
        | none =>
          rw [hfu] at hmem
          exact absurd hmem (by simp)
        | some s =>
          rw [hfu] at hmem
          obtain ⟨hun', hsr, hci, hp1, hp2, hp3, htype⟩ := hent u s hfu
          rcases List.mem_cons.mp hmem with h1 | hmem
          · subst h1
            rw [chk_eq_none, decide_eq_true_eq]
            exact hci
          rcases List.mem_cons.mp hmem with h1 | hmem
          · subst h1
            rw [chk_eq_none, decide_eq_true_eq]
            intro x hx hxu
            rcases hp1 x hx hxu with h' | h' | h'
            · exact Or.inl h'
            · exact Or.inr (Or.inl h')
            · refine Or.inr (Or.inr ?_)
              have hxn : x < g.length := Finset.mem_range.mp (hsr hx)
              rw [layAt_map_range, layAt_map_range, if_pos hun', if_pos hxn]
              exact h'
          rcases List.mem_cons.mp hmem with h1 | hmem
          · subst h1
            rw [chk_eq_none, decide_eq_true_eq]
            intro x hx hxu
            rcases hp2 x hx hxu with h' | h' | h'
            · exact Or.inl h'
            · exact Or.inr (Or.inl h')
            · refine Or.inr (Or.inr ?_)
              have hxn : x < g.length := (mem_oddN.mp hx).1
              rw [layAt_map_range, layAt_map_range, if_pos hun', if_pos hxn]
              exact h'
          rcases List.mem_cons.mp hmem with h1 | hmem
          · subst h1
            rw [chk_eq_none, decide_eq_true_eq]
            intro x hx hY hxu hnlt
            have hxn : x < g.length := List.mem_range.mp (by simpa using hx)
            rcases hp3 x (Finset.mem_range.mpr hxn) hY hxu with h' | h'
            · exfalso
              apply hnlt
              rw [layAt_map_range, layAt_map_range, if_pos hun', if_pos hxn]
              exact h'
            · exact h'
          rcases List.mem_cons.mp hmem with h1 | hmem
          · subst h1
            rw [chk_eq_none]
            unfold ptypeProp at htype
            cases hpu : pl u with
            | XY =>
              simp only [hpu] at htype ⊢
              simp [htype.1, htype.2]
            | YZ =>
              simp only [hpu] at htype ⊢
              simp [htype.1, htype.2]
            | ZX =>
              simp only [hpu] at htype ⊢
              simp [htype.1, htype.2]
            | X =>
              simp only [hpu] at htype ⊢
              simp [htype]
            | Y =>
              simp only [hpu] at htype ⊢
              simp only [decide_eq_true_eq]
              exact htype
            | Z =>
              simp only [hpu] at htype ⊢
              simp [htype]
          · exact absurd hmem (by simp)

/-! ### IndexMap and wrapper glue -/

theorem ordOK_mem {ord : List Nat} {vs : Finset Nat} (h : ordOK ord vs) {v : Nat} :
    v ∈ ord ↔ v ∈ vs := by
  rw [← h.2, List.mem_toFinset]

theorem idx_lt {ord : List Nat} {vs : Finset Nat} (h : ordOK ord vs) {v : Nat}
    (hv : v ∈ vs) : idxOf ord v < ord.length :=
  List.indexOf_lt_length.mpr ((ordOK_mem h).mpr hv)

theorem decV_eq_getElem {ord : List Nat} {i : Nat} (hi : i < ord.length) :
    decV ord i = ord[i] := by
  simp [decV, List.getD, List.getElem?_eq_getElem hi]

theorem dec_idx {ord : List Nat} {vs : Finset Nat} (h : ordOK ord vs) {v : Nat}
    (hv : v ∈ vs) : decV ord (idxOf ord v) = v := by
  have hlt : List.indexOf v ord < ord.length :=
    List.indexOf_lt_length.mpr ((ordOK_mem h).mpr hv)
  have h2 : ord[List.indexOf v ord] = v := by
    have hg := List.indexOf_get hlt
    rw [List.get_eq_getElem] at hg
    exact hg
  rw [decV_eq_getElem (idx_lt h hv)]
  exact h2

theorem idx_dec {ord : List Nat} {vs : Finset Nat} (h : ordOK ord vs) {i : Nat}
    (hi : i < ord.length) : idxOf ord (decV ord i) = i := by
  rw [decV_eq_getElem hi]
  exact List.indexOf_getElem h.1 i hi

theorem decV_mem {ord : List Nat} {vs : Finset Nat} (h : ordOK ord vs) {i : Nat}
    (hi : i < ord.length) : decV ord i ∈ vs := by
  rw [decV_eq_getElem hi]
  exact (ordOK_mem h).mp (List.getElem_mem _)

theorem mem_encSet_iff {ord : List Nat} {vs : Finset Nat} (h : ordOK ord vs)
    {s : Finset Nat} (hs : s ⊆ vs) {i : Nat} (hi : i < ord.length) :
    i ∈ encSet ord s ↔ decV ord i ∈ s := by
  unfold encSet
  constructor
  · intro hmem
    obtain ⟨v, hv, hvi⟩ := Finset.mem_image.mp hmem
    rw [← hvi, dec_idx h (hs hv)]
    exact hv
  · intro hmem
    have : i = idxOf ord (decV ord i) := (idx_dec h hi).symm
    rw [this]
    exact Finset.mem_image_of_mem _ hmem

theorem encSet_lt {ord : List Nat} {vs : Finset Nat} (h : ordOK ord vs)
    {s : Finset Nat} (hs : s ⊆ vs) {i : Nat} (hi : i ∈ encSet ord s) : i < ord.length := by
  obtain ⟨v, hv, hvi⟩ := Finset.mem_image.mp hi
  rw [← hvi]
  exact idx_lt h (hs hv)

theorem encSet_vs {ord : List Nat} {vs : Finset Nat} (h : ordOK ord vs) :
    encSet ord vs = Finset.range ord.length := by
  ext i
  rw [Finset.mem_range]
  constructor
  · intro hi
    exact encSet_lt h (Finset.Subset.refl _) hi
  · intro hi
    rw [mem_encSet_iff h (Finset.Subset.refl _) hi]
    exact decV_mem h hi

theorem encGraph_length {ord : List Nat} {hg : HG} : (encGraph ord hg).length = ord.length := by
  simp [encGraph]

theorem nbr_encGraph {ord : List Nat} {hg : HG} {i : Nat} (hi : i < ord.length) :
    nbr (encGraph ord hg) i = encSet ord (hg.adj (decV ord i)) := by
  unfold nbr encGraph
  rw [decV_eq_getElem hi]
  simp [List.getD, List.getElem?_map, List.getElem?_eq_getElem hi]

theorem dgWF_encGraph {ord : List Nat} {hg : HG} (hord : ordOK ord hg.vs)
    (hwf : hgWF hg) (hnl : ∀ v ∈ hg.vs, v ∉ hg.adj v) : dgWF (encGraph ord hg) := by
  have hlen : (encGraph ord hg).length = ord.length := encGraph_length
  have hdir : ∀ i j, i ∈ nbr (encGraph ord hg) j → j ∈ nbr (encGraph ord hg) i := by
    intro i j hij
    have hj : j < ord.length := by
      have := nbr_lt_length hij
      rwa [hlen] at this
    rw [nbr_encGraph hj] at hij
    have hadjsub := hwf.1 (decV ord j) (decV_mem hord hj)
    have hi : i < ord.length := encSet_lt hord hadjsub hij
    rw [mem_encSet_iff hord hadjsub hi] at hij
    rw [nbr_encGraph hi, mem_encSet_iff hord (hwf.1 (decV ord i)
      (decV_mem hord hi)) hj]
    exact (hwf.2 (decV ord j) (decV_mem hord hj) (decV ord i) (decV_mem hord hi)).mp hij
  refine ⟨fun i j => ⟨hdir i j, hdir j i⟩, ?_, ?_⟩
  · intro i j hij
    have hj : j < ord.length := by
      have := nbr_lt_length hij
      rwa [hlen] at this
    rw [nbr_encGraph hj] at hij
    rw [hlen]
    exact encSet_lt hord (hwf.1 (decV ord j) (decV_mem hord hj)) hij
  · intro i hii
    have hi : i < ord.length := by
      have := nbr_lt_length hii
      rwa [hlen] at this
    rw [nbr_encGraph hi] at hii
    rw [mem_encSet_iff hord (hwf.1 (decV ord i) (decV_mem hord hi)) hi] at hii
    exact hnl (decV ord i) (decV_mem hord hi) hii

theorem encFlow_decFlow {ord : List Nat} {vs : Finset Nat} (hord : ordOK ord vs)
    (f_ : List (Nat × Nat)) (hb : ∀ p ∈ f_, p.1 < ord.length ∧ p.2 < ord.length) :
    encFlow ord (decFlow ord f_) = f_ := by
  unfold encFlow decFlow
  rw [List.map_map]
  have : ∀ p ∈ f_, (fun p => (idxOf ord (decV ord p.1), idxOf ord (decV ord p.2))) p = p := by
    intro p hp
    obtain ⟨h1, h2⟩ := hb p hp
    simp [idx_dec hord h1, idx_dec hord h2]
  calc f_.map _ = f_.map id := List.map_congr_left this
  _ = f_ := List.map_id _

theorem encSet_decSet {ord : List Nat} {vs : Finset Nat} (hord : ordOK ord vs)
    {s : Finset Nat} (hb : ∀ i ∈ s, i < ord.length) :
    encSet ord (decSet ord s) = s := by
  unfold encSet decSet
  rw [Finset.image_image]
  have : ∀ i ∈ s, (idxOf ord ∘ decV ord) i = i := by
    intro i hi
    exact idx_dec hord (hb i hi)
  calc s.image _ = s.image id := Finset.image_congr (fun i hi => this i hi)
  _ = s := Finset.image_id

theorem encGFlow_decGFlow {ord : List Nat} {vs : Finset Nat} (hord : ordOK ord vs)
    (f_ : List (Nat × Finset Nat))
    (hb : ∀ p ∈ f_, p.1 < ord.length ∧ ∀ i ∈ p.2, i < ord.length) :
    encGFlow ord (decGFlow ord f_) = f_ := by
  unfold encGFlow decGFlow
  rw [List.map_map]
  have : ∀ p ∈ f_,
      (fun p => (idxOf ord (decV ord p.1), encSet ord (decSet ord p.2))) p = p := by
    intro p hp
    obtain ⟨h1, h2⟩ := hb p hp
    simp [idx_dec hord h1, encSet_decSet hord h2]
  calc f_.map _ = f_.map id := List.map_congr_left this
  _ = f_ := List.map_id _

theorem flookup_map_inj {α : Type} (key : Nat → Nat) (val : Nat → α) :
    ∀ (l : List Nat) (v j : Nat), j ∈ l → key j = v → (∀ i ∈ l, key i = v → i = j) →
    flookup (l.map (fun i => (key i, val i))) v = some (val j) := by
  intro l
  induction l with
  | nil => intro v j hj _ _; simp at hj
  | cons a t ih =>
    intro v j hj hkey huniq
    rw [List.map_cons, flookup_cons]
    by_cases hav : key a = v
    · have : a = j := huniq a (List.mem_cons_self _ _) hav
      subst this
      simp [hav]
    · rw [if_neg hav]
      have hjt : j ∈ t := by
        rcases List.mem_cons.mp hj with h' | h'
        · exact absurd (h' ▸ hkey) hav
        · exact h'
      exact ih v j hjt hkey (fun i hi => huniq i (List.mem_cons_of_mem _ hi))

theorem flookup_decLayer {ord : List Nat} {vs : Finset Nat} (hord : ordOK ord vs)
    (ly_ : List Nat) {v : Nat} (hv : v ∈ vs) :
    flookup (decLayer ord ly_) v = some (ly_.getD (idxOf ord v) 0) := by
  unfold decLayer
  exact flookup_map_inj (decV ord) (fun i => ly_.getD i 0) (List.range ord.length) v
    (idxOf ord v) (List.mem_range.mpr (idx_lt hord hv)) (dec_idx hord hv)
    (fun i hi hdec => by
      have hi' : i < ord.length := List.mem_range.mp hi
      rw [← hdec, idx_dec hord hi'])

theorem encLayer_decLayer {ord : List Nat} {vs : Finset Nat} (hord : ordOK ord vs)
    (ly_ : List Nat) (hlen : ly_.length = ord.length) :
    encLayer ord (decLayer ord ly_) = ly_ := by
  unfold encLayer
  have hmaplen : (ord.map (fun v =>
      (((decLayer ord ly_).find? (fun p => p.1 == v)).map Prod.snd).getD 0)).length
      = ly_.length := by
    rw [List.length_map, hlen]
  apply List.ext_getElem hmaplen
  intro j h1 h2
  have hj : j < ord.length := by
    rw [List.length_map] at h1
    exact h1
  rw [List.getElem_map]
  have hvmem : ord[j] ∈ vs := by
    have := decV_eq_getElem hj
    rw [← this]
    exact decV_mem hord hj
  have hfl := flookup_decLayer hord ly_ hvmem
  unfold flookup at hfl
  rw [hfl]
  have hidx : idxOf ord ord[j] = j := List.indexOf_getElem hord.1 j hj
  rw [hidx]
  simp [List.getD, List.getElem?_eq_getElem h2]

theorem checkGraph_ok_iff {hg : HG} {iset oset : Finset Nat} :
    checkGraph hg iset oset = Except.ok () ↔
    (hg.vs ≠ ∅ ∧ (∀ v ∈ hg.vs, v ∉ hg.adj v) ∧ iset ⊆ hg.vs ∧ oset ⊆ hg.vs) := by
  unfold checkGraph
  by_cases h1 : hg.vs = ∅
  · simp [h1]
  · rw [if_neg h1]
    by_cases h2 : ((fsort hg.vs).any (fun v => v ∈ hg.adj v)) = true
    · rw [if_pos h2]
      constructor
      · intro hc
        simp at hc
      · rintro ⟨_, hnl, _, _⟩
        rw [List.any_eq_true] at h2
        obtain ⟨v, hv, hvadj⟩ := h2
        exact absurd (by simpa using hvadj : v ∈ hg.adj v)
          (hnl v (mem_fsort.mp hv))
    · rw [if_neg h2]
      by_cases h3 : iset ⊆ hg.vs
      · rw [if_neg (by simpa using h3)]
        by_cases h4 : oset ⊆ hg.vs
        · rw [if_neg (by simpa using h4)]
          constructor
          · intro _
            refine ⟨h1, ?_, h3, h4⟩
            intro v hv hvadj
            exact h2 (List.any_eq_true.mpr ⟨v, mem_fsort.mpr hv,
              by simpa using hvadj⟩)
          · intro _
            rfl
        · rw [if_pos (by simpa using h4)]
          constructor
          · intro hc
            simp at hc
          · rintro ⟨_, _, _, hc⟩
            exact absurd hc h4
      · rw [if_pos (by simpa using h3)]
        constructor
        · intro hc
          simp at hc
        · rintro ⟨_, _, hc, _⟩
          exact absurd hc h3

theorem checkPlanelike_ok_iff {P : Type} {vset oset : Finset Nat} {plike : PMap P} :
    checkPlanelike vset oset plike = Except.ok () ↔
    (plike.keys ⊆ vset ∧ (vset \ oset) ⊆ plike.keys ∧ plike.keys ⊆ (vset \ oset)) := by
  unfold checkPlanelike
  by_cases h1 : plike.keys ⊆ vset
  · rw [if_neg (by simpa using h1)]
    by_cases h2 : (vset \ oset) ⊆ plike.keys
    · rw [if_neg (by simpa using h2)]
      by_cases h3 : plike.keys ⊆ (vset \ oset)
      · rw [if_neg (by simpa using h3)]
        simp [h1, h2, h3]
      · rw [if_pos (by simpa using h3)]
        constructor
        · intro hc
          simp at hc
        · rintro ⟨_, _, hc⟩
          exact absurd hc h3
    · rw [if_pos (by simpa using h2)]
      constructor
      · intro hc
        simp at hc
      · rintro ⟨_, hc, _⟩
        exact absurd hc h2
  · rw [if_pos (by simpa using h1)]
    constructor
    · intro hc
      simp at hc
    · rintro ⟨hc, _, _⟩
      exact absurd hc h1

/-! ### Bounds on produced witnesses -/

theorem flowFindCore_bounds (g : DGraph) (iset oset : Finset Nat)
    (hwf : dgWF g) (hos : oset ⊆ Finset.range g.length)
    (w : List (Nat × Nat) × List Nat)
    (hfind : flowFindCore g iset oset = some w) :
    (∀ p ∈ w.1, p.1 < g.length ∧ p.2 < g.length) ∧ w.2.length = g.length := by
  unfold flowFindCore at hfind
  cases hloop : flowLoop g iset (g.length + 1) oset (oset \ iset)
      (fun _ => none) (fun _ => 0) 1 with
  | none =>
    rw [hloop] at hfind
    exact absurd hfind (by simp)
  | some out =>
    rw [hloop] at hfind
    obtain ⟨f, layer⟩ := out
    have hw : w = ((List.range g.length).filterMap (fun u => (f u).map (fun c => (u, c))),
        (List.range g.length).map layer) := by
      simpa using hfind.symm
    have hinv : FlowInv g iset oset oset (oset \ iset) (fun _ => none) (fun _ => 0) 1 := by
      refine ⟨Finset.Subset.refl _, hos, Finset.Subset.refl _, Nat.le_refl _, ?_, ?_, ?_, ?_⟩
      · intro v _
        exact Nat.zero_lt_one
      · intro v _
        rfl
      · intro v
        simp
      · intro u c h
        simp at h
    have hgood := flowLoop_sound g iset oset hwf _ _ _ _ _ _ (f, layer) hinv hloop
    obtain ⟨_, _, hent⟩ := hgood
    dsimp only at hent
    subst hw
    constructor
    · intro p hp
      have := mem_filterMap_keyed.mp hp
      obtain ⟨hp1, hp2⟩ := this
      refine ⟨List.mem_range.mp hp1, ?_⟩
      have := (hent p.1 p.2 hp2).2.1
      exact nbr_lt_length this
    · simp

theorem gflowFindCore_bounds (g : DGraph) (iset oset : Finset Nat) (pl : Nat → Plane)
    (hos : oset ⊆ Finset.range g.length)
    (w : List (Nat × Finset Nat) × List Nat)
    (hfind : gflowFindCore g iset oset pl = some w) :
    (∀ p ∈ w.1, p.1 < g.length ∧ ∀ i ∈ p.2, i < g.length) ∧ w.2.length = g.length := by
  unfold gflowFindCore at hfind
  cases hloop : gflowLoop g iset pl (g.length + 1) oset (fun _ => none) (fun _ => 0) 1 with
  | none =>
    rw [hloop] at hfind
    exact absurd hfind (by simp)
  | some out =>
    rw [hloop] at hfind
    obtain ⟨f, layer⟩ := out
    have hw : w = ((List.range g.length).filterMap (fun u => (f u).map (fun s => (u, s))),
        (List.range g.length).map layer) := by
      simpa using hfind.symm
    have hinv : GInv g iset oset pl oset (fun _ => none) (fun _ => 0) 1 := by
      refine ⟨Finset.Subset.refl _, hos, Nat.le_refl _, ?_, ?_, ?_, ?_⟩
      · intro v _
        exact Nat.zero_lt_one
      · intro v _
        rfl
      · intro v
        simp
      · intro u s h
        simp at h
    have hgood := gflowLoop_sound g iset oset pl _ _ _ _ _ (f, layer) hinv hloop
    obtain ⟨_, _, hent⟩ := hgood
    dsimp only at hent
    subst hw
    constructor
    · intro p hp
      obtain ⟨hp1, hp2⟩ := mem_filterMap_keyed.mp hp
      refine ⟨List.mem_range.mp hp1, ?_⟩
      intro i hi
      exact Finset.mem_range.mp ((hent p.1 p.2 hp2).2.2.1 hi)
    · simp

theorem pflowFindCore_bounds (g : DGraph) (iset oset : Finset Nat) (pl : Nat → PPlane)
    (hos : oset ⊆ Finset.range g.length)
    (w : List (Nat × Finset Nat) × List Nat)
    (hfind : pflowFindCore g iset oset pl = some w) :
    (∀ p ∈ w.1, p.1 < g.length ∧ ∀ i ∈ p.2, i < g.length) ∧ w.2.length = g.length := by
  unfold pflowFindCore at hfind
  by_cases hnp : ((fsort (Finset.range g.length \ oset)).all
      (fun v => !isPauli (pl v))) = true
  · rw [if_pos hnp] at hfind
    exact gflowFindCore_bounds g iset oset (fun v => planarize (pl v)) hos w hfind
  · rw [if_neg hnp] at hfind
    cases hloop : pflowLoop g iset pl (g.length + 2) oset (fun _ => none) (fun _ => 0) 0 with
    | none =>
      rw [hloop] at hfind
      exact absurd hfind (by simp)
    | some out =>
      rw [hloop] at hfind
      obtain ⟨f, layer⟩ := out
      have hw : w = ((List.range g.length).filterMap (fun u => (f u).map (fun s => (u, s))),
          (List.range g.length).map layer) := by
        simpa using hfind.symm
      have hgood := pflowLoop_sound0 g iset oset pl hos _ (f, layer) hloop
      obtain ⟨_, _, hent⟩ := hgood
      dsimp only at hent
      subst hw
      constructor
      · intro p hp
        obtain ⟨hp1, hp2⟩ := mem_filterMap_keyed.mp hp
        refine ⟨List.mem_range.mp hp1, ?_⟩
        intro i hi
        exact Finset.mem_range.mp ((hent p.1 p.2 hp2).2.1 hi)
      · simp

/-! ### Claim C2 -/

/-- C2: on every valid open graph (networkx invariants `hgWF`, a valid
node enumeration `ordOK`), if a finder returns a witness then the
corresponding verifier accepts that witness with the same arguments:
`flow.find`/`flow.verify`, `gflow.find`/`gflow.verify` (any `plane`
argument), and `pflow.find`/`pflow.verify` (any `pplane` argument). -/
theorem find_verify_roundtrip (hg : HG) (iset oset : Finset Nat) (ord : List Nat)
    (plane? : Option (PMap Plane)) (pplane? : Option (PMap PPlane))
    (hwf : hgWF hg) (hord : ordOK ord hg.vs) :
    (∀ w, flowFindPy hg iset oset ord = Except.ok (some w) →
        flowVerifyPy w hg iset oset ord = Except.ok ()) ∧
    (∀ b w, gflowFindPy hg iset oset plane? ord = Except.ok (b, some w) →
        gflowVerifyPy w hg iset oset plane? ord = Except.ok ()) ∧
    (∀ b w, pflowFindPy hg iset oset pplane? ord = Except.ok (b, some w) →
        pflowVerifyPy w hg iset oset pplane? ord = Except.ok ()) := by
  refine ⟨?_, ?_, ?_⟩
  · -- causal flow
    intro w hfind
    unfold flowFindPy at hfind
    cases hcg : checkGraph hg iset oset with
    | error e =>
      rw [hcg] at hfind
      exact absurd hfind (by simp)
    | ok u =>
      cases u
      rw [hcg] at hfind
      obtain ⟨hne, hnl, his, hos⟩ := checkGraph_ok_iff.mp hcg
      cases hcore : flowFindCore (encGraph ord hg) (encSet ord iset) (encSet ord oset) with
      | none =>
        rw [hcore] at hfind
        exact absurd hfind (by simp)
      | some fw =>
        rw [hcore] at hfind
        obtain ⟨f_, ly_⟩ := fw
        have hw : w = (decFlow ord f_, decLayer ord ly_) := by
          simpa using hfind.symm
        subst hw
        have hdg : dgWF (encGraph ord hg) := dgWF_encGraph hord hwf hnl
        have hosr : encSet ord oset ⊆ Finset.range (encGraph ord hg).length := by
          intro i hi
          rw [Finset.mem_range, encGraph_length]
          exact encSet_lt hord hos hi
        have hver := flowFindCore_verifies _ _ _ hdg hosr (f_, ly_) hcore
        have hbounds := flowFindCore_bounds _ _ _ hdg hosr (f_, ly_) hcore
        have he1 : encFlow ord (decFlow ord f_) = f_ := by
          refine encFlow_decFlow hord f_ ?_
          intro p hp
          have := hbounds.1 p hp
          rwa [encGraph_length] at this
        have he2 : encLayer ord (decLayer ord ly_) = ly_ := by
          refine encLayer_decLayer hord ly_ ?_
          have := hbounds.2
          dsimp only at this
          rwa [encGraph_length] at this
        unfold flowVerifyPy
        rw [hcg]
        dsimp only
        rw [he1, he2, hver]
  · -- gflow
    intro b w hfind
    unfold gflowFindPy at hfind
    cases hcg : checkGraph hg iset oset with
    | error e =>
      rw [hcg] at hfind
      exact absurd hfind (by simp)
    | ok u =>
      cases u
      rw [hcg] at hfind
      dsimp only at hfind
      obtain ⟨hne, hnl, his, hos⟩ := checkGraph_ok_iff.mp hcg
      set plane := plane?.getD (PMap.mk (hg.vs \ oset) (fun _ => Plane.XY)) with hplane
      cases hcp : checkPlanelike hg.vs oset plane with
      | error e =>
        rw [hcp] at hfind
        exact absurd hfind (by simp)
      | ok u =>
        cases u
        rw [hcp] at hfind
        dsimp only at hfind
        obtain ⟨hk1, hk2, hk3⟩ := checkPlanelike_ok_iff.mp hcp
        have hignore : plane.keys ∩ oset = ∅ := by
          rw [Finset.eq_empty_iff_forall_not_mem]
          intro v hv
          rw [Finset.mem_inter] at hv
          exact (Finset.mem_sdiff.mp (hk3 hv.1)).2 hv.2
        have hkeys : plane.keys \ (plane.keys ∩ oset) = plane.keys := by
          rw [hignore, Finset.sdiff_empty]
        have hlabel : labelAt Plane.XY ord (PMap.mk (plane.keys \ (plane.keys ∩ oset)) plane.val)
            = labelAt Plane.XY ord plane := by
          funext i
          unfold labelAt
          rw [hkeys]
        rw [hlabel] at hfind
        cases hcore : gflowFindCore (encGraph ord hg) (encSet ord iset) (encSet ord oset)
            (labelAt Plane.XY ord plane) with
        | none =>
          rw [hcore] at hfind
          exact absurd hfind (by simp)
        | some fw =>
          rw [hcore] at hfind
          obtain ⟨f_, ly_⟩ := fw
          have hw : w = (decGFlow ord f_, decLayer ord ly_) := by
            have := hfind
            simp at this
            exact this.2.symm
          subst hw
          have hosr : encSet ord oset ⊆ Finset.range (encGraph ord hg).length := by
            intro i hi
            rw [Finset.mem_range, encGraph_length]
            exact encSet_lt hord hos hi
          have hver := gflowFindCore_verifies _ _ _ _ hosr (f_, ly_) hcore
          have hbounds := gflowFindCore_bounds _ _ _ _ hosr (f_, ly_) hcore
          have he1 : encGFlow ord (decGFlow ord f_) = f_ := by
            refine encGFlow_decGFlow hord f_ ?_
            intro p hp
            obtain ⟨hp1, hp2⟩ := hbounds.1 p hp
            rw [encGraph_length] at hp1
            refine ⟨hp1, fun i hi => ?_⟩
            have := hp2 i hi
            rwa [encGraph_length] at this
          have he2 : encLayer ord (decLayer ord ly_) = ly_ := by
            refine encLayer_decLayer hord ly_ ?_
            have := hbounds.2
            dsimp only at this
            rwa [encGraph_length] at this
          unfold gflowVerifyPy
          rw [hcg]
          dsimp only
          rw [← hplane, he1, he2, hver]
  · -- pflow
    intro b w hfind
    unfold pflowFindPy at hfind
    cases hcg : checkGraph hg iset oset with
    | error e =>
      rw [hcg] at hfind
      exact absurd hfind (by simp)
    | ok u =>
      cases u
      rw [hcg] at hfind
      dsimp only at hfind
      obtain ⟨hne, hnl, his, hos⟩ := checkGraph_ok_iff.mp hcg
      set pplane := pplane?.getD (PMap.mk (hg.vs \ oset) (fun _ => PPlane.XY)) with hpplane
      cases hcp : checkPlanelike hg.vs oset pplane with
      | error e =>
        rw [hcp] at hfind
        exact absurd hfind (by simp)
      | ok u =>
        cases u
        rw [hcp] at hfind
        dsimp only at hfind
        cases hcore : pflowFindCore (encGraph ord hg) (encSet ord iset) (encSet ord oset)
            (labelAt PPlane.XY ord pplane) with
        | none =>
          rw [hcore] at hfind
          exact absurd hfind (by simp)
        | some fw =>
          rw [hcore] at hfind
          obtain ⟨f_, ly_⟩ := fw
          have hw : w = (decGFlow ord f_, decLayer ord ly_) := by
            have := hfind
            simp at this
            exact this.2.symm
          subst hw
          have hosr : encSet ord oset ⊆ Finset.range (encGraph ord hg).length := by
            intro i hi
            rw [Finset.mem_range, encGraph_length]
            exact encSet_lt hord hos hi
          have hver := pflowFindCore_verifies _ _ _ _ hosr (f_, ly_) hcore
          have hbounds := pflowFindCore_bounds _ _ _ _ hosr (f_, ly_) hcore
          have he1 : encGFlow ord (decGFlow ord f_) = f_ := by
            refine encGFlow_decGFlow hord f_ ?_
            intro p hp
            obtain ⟨hp1, hp2⟩ := hbounds.1 p hp
            rw [encGraph_length] at hp1
            refine ⟨hp1, fun i hi => ?_⟩
            have := hp2 i hi
            rwa [encGraph_length] at this
          have he2 : encLayer ord (decLayer ord ly_) = ly_ := by
            refine encLayer_decLayer hord ly_ ?_
            have := hbounds.2
            dsimp only at this
            rwa [encGraph_length] at this
          unfold pflowVerifyPy
          rw [hcg]
          dsimp only
          rw [← hpplane, he1, he2, hver]

theorem list_any_congr {α : Type} {l : List α} {p q : α → Bool}
    (h : ∀ a ∈ l, p a = q a) : l.any p = l.any q := by
  induction l with
  | nil => rfl
  | cons a t ih =>
    simp only [List.any_cons, h a (List.mem_cons_self a t),
      ih (fun b hb => h b (List.mem_cons_of_mem a hb))]

theorem list_map_congr {α β : Type} {l : List α} {f g : α → β}
    (h : ∀ a ∈ l, f a = g a) : l.map f = l.map g := by
  induction l with
  | nil => rfl
  | cons a t ih =>
    simp only [List.map_cons, h a (List.mem_cons_self a t),
      ih (fun b hb => h b (List.mem_cons_of_mem a hb))]

theorem checkGraph_congr {hg₁ hg₂ : HG} {iset oset : Finset Nat}
    (h1 : hg₁.vs = hg₂.vs) (h2 : ∀ v ∈ hg₁.vs, hg₁.adj v = hg₂.adj v) :
    checkGraph hg₁ iset oset = checkGraph hg₂ iset oset := by
  unfold checkGraph
  rw [h1]
  have hany : ((fsort hg₂.vs).any (fun v => v ∈ hg₁.adj v))
      = ((fsort hg₂.vs).any (fun v => v ∈ hg₂.adj v)) := by
    refine list_any_congr (fun a ha => ?_)
    rw [h2 a (h1 ▸ mem_fsort.mp ha)]
  rw [hany]

theorem encGraph_congr {hg₁ hg₂ : HG} {ord : List Nat}
    (hord : ordOK ord hg₁.vs) (h2 : ∀ v ∈ hg₁.vs, hg₁.adj v = hg₂.adj v) :
    encGraph ord hg₁ = encGraph ord hg₂ := by
  unfold encGraph
  refine list_map_congr (fun v hv => ?_)
  rw [h2 v ((ordOK_mem hord).mp hv)]

theorem flowVerify_layer {g : DGraph} {iset oset : Finset Nat}
    {f_ : List (Nat × Nat)} {ly_ : List Nat}
    (hver : flowVerifyCore g iset oset f_ ly_ = Except.ok ()) {i : Nat} (hi : i < g.length) :
    layAt ly_ i = 0 ↔ i ∈ oset := by
  unfold flowVerifyCore at hver
  rw [firstErr_ok] at hver
  have hmem := hver _ (List.mem_append.mpr (Or.inl (List.mem_append.mpr (Or.inl
    (List.mem_map.mpr ⟨i, List.mem_range.mpr hi, rfl⟩)))))
  by_cases hio : i ∈ oset
  · rw [if_pos hio, chk_eq_none] at hmem
    simp only [beq_iff_eq] at hmem
    exact ⟨fun _ => hio, fun _ => hmem⟩
  · rw [if_neg hio, chk_eq_none] at hmem
    simp only [bne_iff_ne, ne_eq] at hmem
    exact ⟨fun h => absurd h hmem, fun h => absurd h hio⟩

theorem gflowVerify_layer {g : DGraph} {iset oset : Finset Nat} {pl : Nat → Plane}
    {f_ : List (Nat × Finset Nat)} {ly_ : List Nat}
    (hver : gflowVerifyCore g iset oset pl f_ ly_ = Except.ok ()) {i : Nat} (hi : i < g.length) :
    layAt ly_ i = 0 ↔ i ∈ oset := by
  unfold gflowVerifyCore at hver
  rw [firstErr_ok] at hver
  have hmem := hver _ (List.mem_append.mpr (Or.inl (List.mem_append.mpr (Or.inl
    (List.mem_map.mpr ⟨i, List.mem_range.mpr hi, rfl⟩)))))
  by_cases hio : i ∈ oset
  · rw [if_pos hio, chk_eq_none] at hmem
    simp only [beq_iff_eq] at hmem
    exact ⟨fun _ => hio, fun _ => hmem⟩
  · rw [if_neg hio, chk_eq_none] at hmem
    simp only [bne_iff_ne, ne_eq] at hmem
    exact ⟨fun h => absurd h hmem, fun h => absurd h hio⟩

theorem pflowVerify_layer {g : DGraph} {iset oset : Finset Nat} {pl : Nat → PPlane}
    {f_ : List (Nat × Finset Nat)} {ly_ : List Nat}
    (hver : pflowVerifyCore g iset oset pl f_ ly_ = Except.ok ()) {i : Nat} (hi : i < g.length)
    (hio : i ∈ oset) : layAt ly_ i = 0 := by
  unfold pflowVerifyCore at hver
  rw [firstErr_ok] at hver
  have hmem := hver _ (List.mem_append.mpr (Or.inl (List.mem_append.mpr (Or.inl
    (List.mem_map.mpr ⟨i, List.mem_range.mpr hi, rfl⟩)))))
  rw [if_pos hio, chk_eq_none] at hmem
  simpa using hmem

theorem flowVerify_dom {g : DGraph} {iset oset : Finset Nat}
    {f_ : List (Nat × Nat)} {ly_ : List Nat}
    (hver : flowVerifyCore g iset oset f_ ly_ = Except.ok ()) {i : Nat} (hi : i < g.length) :
    (flookup f_ i).isSome = decide (i ∉ oset) := by
  unfold flowVerifyCore at hver
  rw [firstErr_ok] at hver
  have hmem := hver _ (List.mem_append.mpr (Or.inl (List.mem_append.mpr (Or.inr
    (List.mem_map.mpr ⟨i, List.mem_range.mpr hi, rfl⟩)))))
  rw [chk_eq_none] at hmem
  simpa using hmem

theorem gflowVerify_dom {g : DGraph} {iset oset : Finset Nat} {pl : Nat → Plane}
    {f_ : List (Nat × Finset Nat)} {ly_ : List Nat}
    (hver : gflowVerifyCore g iset oset pl f_ ly_ = Except.ok ()) {i : Nat} (hi : i < g.length) :
    (flookup f_ i).isSome = decide (i ∉ oset) := by
  unfold gflowVerifyCore at hver
  rw [firstErr_ok] at hver
  have hmem := hver _ (List.mem_append.mpr (Or.inl (List.mem_append.mpr (Or.inr
    (List.mem_map.mpr ⟨i, List.mem_range.mpr hi, rfl⟩)))))
  rw [chk_eq_none] at hmem
  simpa using hmem

theorem pflowVerify_dom {g : DGraph} {iset oset : Finset Nat} {pl : Nat → PPlane}
    {f_ : List (Nat × Finset Nat)} {ly_ : List Nat}
    (hver : pflowVerifyCore g iset oset pl f_ ly_ = Except.ok ()) {i : Nat} (hi : i < g.length) :
    (flookup f_ i).isSome = decide (i ∉ oset) := by
  unfold pflowVerifyCore at hver
  rw [firstErr_ok] at hver
  have hmem := hver _ (List.mem_append.mpr (Or.inl (List.mem_append.mpr (Or.inr
    (List.mem_map.mpr ⟨i, List.mem_range.mpr hi, rfl⟩)))))
  rw [chk_eq_none] at hmem
  simpa using hmem

theorem decPair_not_mem {α β : Type} {ord : List Nat} {vs : Finset Nat} (hord : ordOK ord vs)
    {f_ : List (Nat × α)} {dec : α → β} (hb : ∀ p ∈ f_, p.1 < ord.length)
    {v : Nat} (hnone : flookup f_ (idxOf ord v) = none) :
    ∀ c, (v, c) ∉ f_.map (fun p => (decV ord p.1, dec p.2)) := by
  intro c hc
  obtain ⟨p, hp, heq⟩ := List.mem_map.mp hc
  have hkey : decV ord p.1 = v := congrArg Prod.fst heq
  have hidx : idxOf ord v = p.1 := by
    rw [← hkey, idx_dec hord (hb p hp)]
  have hfind : f_.find? (fun q => q.1 == idxOf ord v) = none := by
    unfold flookup at hnone
    exact Option.map_eq_none.mp hnone
  have := List.find?_eq_none.mp hfind p hp
  rw [hidx] at this
  simp at this

theorem fsort_empty : fsort ∅ = [] := by decide

theorem flowFindCore_allout (g : DGraph) (iset : Finset Nat) (hwf : dgWF g) :
    flowFindCore g iset (Finset.range g.length)
      = some ([], (List.range g.length).map (fun _ => 0)) := by
  unfold flowFindCore
  have hkey : ∀ c, nbr g c \ Finset.range g.length = ∅ := by
    intro c
    rw [Finset.eq_empty_iff_forall_not_mem]
    intro x hx
    rw [Finset.mem_sdiff] at hx
    exact hx.2 (Finset.mem_range.mpr (hwf.2.1 x c hx.1))
  have hloop : flowLoop g iset (g.length + 1) (Finset.range g.length)
      (Finset.range g.length \ iset)
      (fun _ => none) (fun _ => 0) 1 = some ((fun _ => none), (fun _ => 0)) := by
    simp only [flowLoop]
    have hpairs : flowPairs g (Finset.range g.length)
        (Finset.range g.length \ iset) = [] := by
      unfold flowPairs
      have hfold : ∀ (l : List Nat) (acc : List (Nat × Nat)),
          l.foldl (fun acc c =>
            match fsort (nbr g c \ Finset.range g.length) with
            | [u] => if acc.any (fun p => p.1 = u) then acc else acc ++ [(u, c)]
            | _ => acc) acc = acc := by
        intro l
        induction l with
        | nil => intro acc; rfl
        | cons a t ih =>
          intro acc
          rw [List.foldl_cons]
          simp only [hkey a, fsort_empty]
          exact ih acc
      exact hfold _ []
    rw [hpairs]
    simp
  rw [hloop]
  simp

theorem gflowFindCore_allout (g : DGraph) (iset : Finset Nat) (pl : Nat → Plane) :
    gflowFindCore g iset (Finset.range g.length) pl
      = some ([], (List.range g.length).map (fun _ => 0)) := by
  unfold gflowFindCore
  have hloop : gflowLoop g iset pl (g.length + 1) (Finset.range g.length)
      (fun _ => none) (fun _ => 0) 1 = some ((fun _ => none), (fun _ => 0)) := by
    simp only [gflowLoop]
    rw [Finset.sdiff_self, fsort_empty]
    simp
  rw [hloop]
  simp

theorem pflowFindCore_allout (g : DGraph) (iset : Finset Nat) (pl : Nat → PPlane) :
    pflowFindCore g iset (Finset.range g.length) pl
      = some ([], (List.range g.length).map (fun _ => 0)) := by
  unfold pflowFindCore
  rw [Finset.sdiff_self, fsort_empty]
  have hc : ([].all fun v => !isPauli (pl v)) = true := rfl
  rw [if_pos hc]
  exact gflowFindCore_allout g iset (fun v => planarize (pl v))

theorem decLayer_zeros {ord : List Nat} {n : Nat} (hn : n = ord.length) :
    decLayer ord ((List.range n).map (fun _ => 0)) = ord.map (fun v => (v, 0)) := by
  subst hn
  unfold decLayer
  refine List.ext_getElem (by simp) ?_
  intro i h1 h2
  have hlen : i < ord.length := by simpa using h2
  simp only [List.getElem_map, List.getElem_range]
  rw [decV_eq_getElem hlen]
  have hgd : ((List.range ord.length).map (fun _ => (0 : Nat))).getD i 0 = 0 := by
    have h0 : layAt ((List.range ord.length).map (fun _ => 0)) i = 0 := by
      rw [layAt_map_range]
      simp [hlen]
    exact h0
  rw [hgd]

/-! ### Claim C3 -/

/-- C3 counterexample: on the CASE7 open graph (vertices `{0..4}`,
`I = {0}`, `O = {4}`, labels `0,1 ↦ Z`, `2,3 ↦ Y`), `pflow.find`
returns the repository's own expected witness, in which vertex `1` is
not an output yet has layer `0` — so "layer 0 iff output" is false for
`pflow.find`. -/
theorem pflow_layer_zero_nonoutput :
    pflowFindPy hg7 {0} {4} (some pm7) [0, 1, 2, 3, 4] =
      Except.ok (false, some ([(0, {0}), (1, {1}), (2, {2}), (3, {3})],
        [(0, 1), (1, 0), (2, 0), (3, 1), (4, 0)])) ∧
    flookup [(0, 1), (1, 0), (2, 0), (3, 1), (4, 0)] 1 = some 0 ∧
    (1 : Nat) ∉ ({4} : Finset Nat) :=
  ⟨by decide, by decide, by decide⟩

/-- C3 (amended): in every witness returned by `flow.find` or
`gflow.find`, a vertex has layer 0 iff it is an output; in every witness
returned by `pflow.find` each output vertex has layer 0, but a non-output
vertex measured along a Pauli axis may share layer 0 with the outputs. -/
theorem layer_contract (hg : HG) (iset oset : Finset Nat) (ord : List Nat)
    (plane? : Option (PMap Plane)) (pplane? : Option (PMap PPlane))
    (hwf : hgWF hg) (hord : ordOK ord hg.vs) :
    (∀ w, flowFindPy hg iset oset ord = Except.ok (some w) →
        ∀ v ∈ hg.vs, (flookup w.2 v = some 0 ↔ v ∈ oset)) ∧
    (∀ b w, gflowFindPy hg iset oset plane? ord = Except.ok (b, some w) →
        ∀ v ∈ hg.vs, (flookup w.2 v = some 0 ↔ v ∈ oset)) ∧
    (∀ b w, pflowFindPy hg iset oset pplane? ord = Except.ok (b, some w) →
        ∀ v ∈ oset, flookup w.2 v = some 0) := by
  refine ⟨?_, ?_, ?_⟩
  · -- flow
    intro w hfind v hv
    unfold flowFindPy at hfind
    cases hcg : checkGraph hg iset oset with
    | error e =>
      rw [hcg] at hfind
      exact absurd hfind (by simp)
    | ok u =>
      cases u
      rw [hcg] at hfind
      obtain ⟨hne, hnl, his, hos⟩ := checkGraph_ok_iff.mp hcg
      cases hcore : flowFindCore (encGraph ord hg) (encSet ord iset) (encSet ord oset) with
      | none =>
        rw [hcore] at hfind
        exact absurd hfind (by simp)
      | some fw =>
        rw [hcore] at hfind
        obtain ⟨f_, ly_⟩ := fw
        have hw : w = (decFlow ord f_, decLayer ord ly_) := by
          simpa using hfind.symm
        subst hw
        have hdg : dgWF (encGraph ord hg) := dgWF_encGraph hord hwf hnl
        have hosr : encSet ord oset ⊆ Finset.range (encGraph ord hg).length := by
          intro i hi
          rw [Finset.mem_range, encGraph_length]
          exact encSet_lt hord hos hi
        have hver := flowFindCore_verifies _ _ _ hdg hosr (f_, ly_) hcore
        have hilt : idxOf ord v < ord.length := idx_lt hord hv
        have hig : idxOf ord v < (encGraph ord hg).length := by
          rwa [encGraph_length]
        have hiff : ly_.getD (idxOf ord v) 0 = 0 ↔ v ∈ oset := by
          have h1 : layAt ly_ (idxOf ord v) = 0 ↔ idxOf ord v ∈ encSet ord oset :=
            flowVerify_layer hver hig
          rwa [mem_encSet_iff hord hos hilt, dec_idx hord hv] at h1
        show flookup (decLayer ord ly_) v = some 0 ↔ v ∈ oset
        rw [flookup_decLayer hord ly_ hv, Option.some_inj]
        exact hiff
  · -- gflow
    intro b w hfind v hv
    unfold gflowFindPy at hfind
    cases hcg : checkGraph hg iset oset with
    | error e =>
      rw [hcg] at hfind
      exact absurd hfind (by simp)
    | ok u =>
      cases u
      rw [hcg] at hfind
      dsimp only at hfind
      obtain ⟨hne, hnl, his, hos⟩ := checkGraph_ok_iff.mp hcg
      set plane := plane?.getD (PMap.mk (hg.vs \ oset) (fun _ => Plane.XY)) with hplane
      cases hcp : checkPlanelike hg.vs oset plane with
      | error e =>
        rw [hcp] at hfind
        exact absurd hfind (by simp)
      | ok u =>
        cases u
        rw [hcp] at hfind
        dsimp only at hfind
        cases hcore : gflowFindCore (encGraph ord hg) (encSet ord iset) (encSet ord oset)
            (labelAt Plane.XY ord (PMap.mk (plane.keys \ (plane.keys ∩ oset)) plane.val)) with
        | none =>
          rw [hcore] at hfind
          exact absurd hfind (by simp)
        | some fw =>
          rw [hcore] at hfind
          obtain ⟨f_, ly_⟩ := fw
          have hw : w = (decGFlow ord f_, decLayer ord ly_) := by
            have := hfind
            simp at this
            exact this.2.symm
          subst hw
          have hosr : encSet ord oset ⊆ Finset.range (encGraph ord hg).length := by
            intro i hi
            rw [Finset.mem_range, encGraph_length]
            exact encSet_lt hord hos hi
          have hver := gflowFindCore_verifies _ _ _ _ hosr (f_, ly_) hcore
          have hilt : idxOf ord v < ord.length := idx_lt hord hv
          have hig : idxOf ord v < (encGraph ord hg).length := by
            rwa [encGraph_length]
          have hiff : ly_.getD (idxOf ord v) 0 = 0 ↔ v ∈ oset := by
            have h1 : layAt ly_ (idxOf ord v) = 0 ↔ idxOf ord v ∈ encSet ord oset :=
              gflowVerify_layer hver hig
            rwa [mem_encSet_iff hord hos hilt, dec_idx hord hv] at h1
          show flookup (decLayer ord ly_) v = some 0 ↔ v ∈ oset
          rw [flookup_decLayer hord ly_ hv, Option.some_inj]
          exact hiff
  · -- pflow
    intro b w hfind v hv
    unfold pflowFindPy at hfind
    cases hcg : checkGraph hg iset oset with
    | error e =>
      rw [hcg] at hfind
      exact absurd hfind (by simp)
    | ok u =>
      cases u
      rw [hcg] at hfind
      dsimp only at hfind
      obtain ⟨hne, hnl, his, hos⟩ := checkGraph_ok_iff.mp hcg
      set pplane := pplane?.getD (PMap.mk (hg.vs \ oset) (fun _ => PPlane.XY)) with hpplane
      cases hcp : checkPlanelike hg.vs oset pplane with
      | error e =>
        rw [hcp] at hfind
        exact absurd hfind (by simp)
      | ok u =>
        cases u
        rw [hcp] at hfind
        dsimp only at hfind
        cases hcore : pflowFindCore (encGraph ord hg) (encSet ord iset) (encSet ord oset)
            (labelAt PPlane.XY ord pplane) with
        | none =>
          rw [hcore] at hfind
          exact absurd hfind (by simp)
        | some fw =>
          rw [hcore] at hfind
          obtain ⟨f_, ly_⟩ := fw
          have hw : w = (decGFlow ord f_, decLayer ord ly_) := by
            have := hfind
            simp at this
            exact this.2.symm
          subst hw
          have hvv : v ∈ hg.vs := hos hv
          have hosr : encSet ord oset ⊆ Finset.range (encGraph ord hg).length := by
            intro i hi
            rw [Finset.mem_range, encGraph_length]
            exact encSet_lt hord hos hi
          have hver := pflowFindCore_verifies _ _ _ _ hosr (f_, ly_) hcore
          have hilt : idxOf ord v < ord.length := idx_lt hord hvv
          have hig : idxOf ord v < (encGraph ord hg).length := by
            rwa [encGraph_length]
          have hienc : idxOf ord v ∈ encSet ord oset :=
            Finset.mem_image.mpr ⟨v, hv, rfl⟩
          have h0 : layAt ly_ (idxOf ord v) = 0 := pflowVerify_layer hver hig hienc
          show flookup (decLayer ord ly_) v = some 0
          rw [flookup_decLayer hord ly_ hvv, Option.some_inj]
          exact h0

theorem layer_contract_witness :
    flookup [(0, 4), (1, 3), (2, 2), (3, 1), (4, 0)] 4 = some 0 ↔ (4 : Nat) ∈ ({4} : Finset Nat) :=
  (layer_contract hgPath {0} {4} [0, 1, 2, 3, 4] none none
      ⟨by decide, by decide⟩ ⟨by decide, by decide⟩).1
    ([(0, 1), (1, 2), (2, 3), (3, 4)], [(0, 4), (1, 3), (2, 2), (3, 1), (4, 0)])
    (by decide) 4 (by decide)

theorem find_verify_roundtrip_witness :
    flowVerifyPy ([(0, 1), (1, 2), (2, 3), (3, 4)],
        [(0, 4), (1, 3), (2, 2), (3, 1), (4, 0)])
      hgPath {0} {4} [0, 1, 2, 3, 4] = Except.ok () ∧
    gflowVerifyPy ([(0, {1}), (1, {2}), (2, {3}), (3, {4})],
        [(0, 4), (1, 3), (2, 2), (3, 1), (4, 0)])
      hgPath {0} {4} none [0, 1, 2, 3, 4] = Except.ok () ∧
    pflowVerifyPy ([(0, {1}), (1, {2}), (2, {3}), (3, {4})],
        [(0, 4), (1, 3), (2, 2), (3, 1), (4, 0)])
      hgPath {0} {4} none [0, 1, 2, 3, 4] = Except.ok () :=
  ⟨(find_verify_roundtrip hgPath {0} {4} [0, 1, 2, 3, 4] none none
      ⟨by decide, by decide⟩ ⟨by decide, by decide⟩).1 _ (by decide),
   (find_verify_roundtrip hgPath {0} {4} [0, 1, 2, 3, 4] none none
      ⟨by decide, by decide⟩ ⟨by decide, by decide⟩).2.1 false _ (by decide),
   (find_verify_roundtrip hgPath {0} {4} [0, 1, 2, 3, 4] none none
      ⟨by decide, by decide⟩ ⟨by decide, by decide⟩).2.2 true _ (by decide)⟩

/-! ### Claim C5 -/

/-- C5 counterexample: the witness is not determined by the set value of
the arguments alone.  On the star graph (`0` adjacent to the outputs `1`
and `2`, `I = {0}`, `O = {1,2}`) the two node-enumeration orders
`[0,1,2]` and `[0,2,1]` — both valid iterations of the same node set,
and Python fixes neither across runs for arbitrary hashable vertices —
make `gflow.find` return `f(0) = {1}` and `f(0) = {2}` respectively, so
identical arguments do not yield bit-identical witnesses across runs. -/
theorem find_order_dependent :
    ordOK [0, 1, 2] hgStar.vs ∧ ordOK [0, 2, 1] hgStar.vs ∧
    gflowFindPy hgStar {0} {1, 2} none [0, 1, 2] =
      Except.ok (false, some ([(0, {1})], [(0, 1), (1, 0), (2, 0)])) ∧
    gflowFindPy hgStar {0} {1, 2} none [0, 2, 1] =
      Except.ok (false, some ([(0, {2})], [(0, 1), (2, 0), (1, 0)])) ∧
    flookup [(0, ({1} : Finset Nat))] 0 ≠ flookup [(0, ({2} : Finset Nat))] 0 :=
  ⟨⟨by decide, by decide⟩, ⟨by decide, by decide⟩, by decide, by decide, by decide⟩

/-- C5 (amended): each finder is a deterministic function of its
arguments together with the node-set iteration order: two invocations on
extensionally equal graphs (same node set, same adjacency on every node)
with the same `iset`, `oset`, measurement mapping and iteration order
return identical results; bit-identical witnesses across runs are
guaranteed only when the iteration order is also reproduced. -/
theorem find_deterministic_extensional (hg₁ hg₂ : HG) (iset oset : Finset Nat)
    (ord : List Nat) (plane? : Option (PMap Plane)) (pplane? : Option (PMap PPlane))
    (h1 : hg₁.vs = hg₂.vs) (h2 : ∀ v ∈ hg₁.vs, hg₁.adj v = hg₂.adj v)
    (hord : ordOK ord hg₁.vs) :
    flowFindPy hg₁ iset oset ord = flowFindPy hg₂ iset oset ord ∧
    gflowFindPy hg₁ iset oset plane? ord = gflowFindPy hg₂ iset oset plane? ord ∧
    pflowFindPy hg₁ iset oset pplane? ord = pflowFindPy hg₂ iset oset pplane? ord := by
  have hcg : checkGraph hg₁ iset oset = checkGraph hg₂ iset oset := checkGraph_congr h1 h2
  have henc : encGraph ord hg₁ = encGraph ord hg₂ := encGraph_congr hord h2
  refine ⟨?_, ?_, ?_⟩
  · unfold flowFindPy
    rw [hcg, henc]
  · unfold gflowFindPy
    rw [hcg, henc, h1]
  · unfold pflowFindPy
    rw [hcg, henc, h1]

theorem find_deterministic_extensional_witness :
    gflowFindPy hgStar {0} {1, 2} none [0, 1, 2] =
      gflowFindPy (HG.mk {0, 1, 2}
        (fun v => if v = 2 then {0} else if v = 1 then {0} else if v = 0 then {2, 1} else ∅))
        {0} {1, 2} none [0, 1, 2] :=
  (find_deterministic_extensional hgStar
    (HG.mk {0, 1, 2}
      (fun v => if v = 2 then {0} else if v = 1 then {0} else if v = 0 then {2, 1} else ∅))
    {0} {1, 2} [0, 1, 2] none none (by decide) (by decide) ⟨by decide, by decide⟩).2.1

/-! ### Claim C7 -/

/-- C7: a measurement label for an output vertex is fatal in the code,
not a warning.  `check_planelike` runs before the wrapper's
"Ignoring plane" warning block and raises "Excessive measurement planes
specified." whenever the mapping has a key outside `V \ O`, so a label
on an output vertex (the `test_gflow_redundant` scenario: edge `0-1`,
`I = {0}`, `O = {1}`, both vertices labelled `XY`) makes `gflow.find`
and `pflow.find` raise instead of warning, ignoring the label and
proceeding — the warning branch is unreachable. -/
theorem redundant_plane_raises :
    gflowFindPy hgEdge {0} {1} (some (PMap.mk {0, 1} (fun _ => Plane.XY))) [0, 1] =
      Except.error PyErr.planesExcessive ∧
    pflowFindPy hgEdge {0} {1} (some (PMap.mk {0, 1} (fun _ => PPlane.XY))) [0, 1] =
      Except.error PyErr.planesExcessive :=
  ⟨by decide, by decide⟩

/-! ### Claim C6 -/

/-- C6: on any open graph, when the `pplane` mapping carries no Pauli
label, `pflow.find` reports the "No Pauli measurement found" warning
(the `true` flag) and its result — error, `None`, or witness — is
identical to `gflow.find` on the same graph with the corresponding
planar mapping (the warning flag aside, which the gflow path does not
raise). -/
theorem pflow_nopauli_delegates (hg : HG) (iset oset : Finset Nat) (ord : List Nat)
    (pm : PMap PPlane) (hord : ordOK ord hg.vs)
    (hnp : ∀ v ∈ pm.keys, isPauli (pm.val v) = false) :
    pflowFindPy hg iset oset (some pm) ord =
      (gflowFindPy hg iset oset
        (some (PMap.mk pm.keys (fun v => planarize (pm.val v)))) ord).map
        (fun p => (true, p.2)) := by
  unfold pflowFindPy gflowFindPy
  cases hcg : checkGraph hg iset oset with
  | error e =>
    rfl
  | ok u =>
    cases u
    dsimp only
    simp only [Option.getD_some]
    obtain ⟨hne, hnl, his, hos⟩ := checkGraph_ok_iff.mp hcg
    have hcpe : checkPlanelike hg.vs oset (PMap.mk pm.keys (fun v => planarize (pm.val v)))
        = checkPlanelike hg.vs oset pm := rfl
    rw [hcpe]
    cases hcp : checkPlanelike hg.vs oset pm with
    | error e =>
      rfl
    | ok u =>
      cases u
      dsimp only
      obtain ⟨hk1, hk2, hk3⟩ := checkPlanelike_ok_iff.mp hcp
      have hig : pm.keys ∩ oset = ∅ := by
        rw [Finset.eq_empty_iff_forall_not_mem]
        intro v hv
        rw [Finset.mem_inter] at hv
        exact (Finset.mem_sdiff.mp (hk3 hv.1)).2 hv.2
      have hwL : ((fsort pm.keys).all (fun v => !isPauli (pm.val v))) = true := by
        rw [List.all_eq_true]
        intro v hv
        rw [hnp v (mem_fsort.mp hv)]
        rfl
      have hguard : ((fsort (Finset.range (encGraph ord hg).length \ encSet ord oset)).all
          (fun v => !isPauli (labelAt PPlane.XY ord pm v))) = true := by
        rw [List.all_eq_true]
        intro i hi
        obtain ⟨hlt', hnotin⟩ := Finset.mem_sdiff.mp (mem_fsort.mp hi)
        have hlt : i < ord.length := by
          have := Finset.mem_range.mp hlt'
          rwa [encGraph_length] at this
        have hvv : decV ord i ∈ hg.vs := decV_mem hord hlt
        have hno : decV ord i ∉ oset := by
          intro hc
          exact hnotin ((mem_encSet_iff hord hos hlt).mpr hc)
        have hkey : decV ord i ∈ pm.keys := hk2 (Finset.mem_sdiff.mpr ⟨hvv, hno⟩)
        unfold labelAt
        rw [if_pos hkey, hnp _ hkey]
        rfl
      have hlabel2 : labelAt Plane.XY ord
            (PMap.mk (pm.keys \ (pm.keys ∩ oset)) (fun v => planarize (pm.val v)))
          = fun i => planarize (labelAt PPlane.XY ord pm i) := by
        funext i
        unfold labelAt
        rw [hig, Finset.sdiff_empty]
        dsimp only
        by_cases hk : decV ord i ∈ pm.keys
        · rw [if_pos hk, if_pos hk]
        · rw [if_neg hk, if_neg hk]
          rfl
      have hdeleg : pflowFindCore (encGraph ord hg) (encSet ord iset) (encSet ord oset)
            (labelAt PPlane.XY ord pm)
          = gflowFindCore (encGraph ord hg) (encSet ord iset) (encSet ord oset)
            (labelAt Plane.XY ord
              (PMap.mk (pm.keys \ (pm.keys ∩ oset)) (fun v => planarize (pm.val v)))) := by
        unfold pflowFindCore
        rw [if_pos hguard, hlabel2]
      rw [hdeleg, hwL]
      cases hcore : gflowFindCore (encGraph ord hg) (encSet ord iset) (encSet ord oset)
          (labelAt Plane.XY ord
            (PMap.mk (pm.keys \ (pm.keys ∩ oset)) (fun v => planarize (pm.val v)))) with
      | none =>
        rfl
      | some fw =>
        rfl

theorem pflow_nopauli_delegates_witness :
    pflowFindPy hgEdge {0} {1} (some (PMap.mk {0} (fun _ => PPlane.XY))) [0, 1] =
      (gflowFindPy hgEdge {0} {1}
        (some (PMap.mk {0} (fun _ => planarize PPlane.XY))) [0, 1]).map
        (fun p => (true, p.2)) :=
  pflow_nopauli_delegates hgEdge {0} {1} [0, 1] (PMap.mk {0} (fun _ => PPlane.XY))
    ⟨by decide, by decide⟩ (by decide)

/-! ### Claim C9 -/

/-- C9: inputs and outputs may overlap.  The wrapper's validation never
compares `iset` against `oset`, so any overlap is accepted; in every
returned witness an `I ∩ O` vertex is treated as an output — its layer
is 0, it is outside the accepted measurement mappings (whose key sets
avoid `oset` altogether), and it is not a key of `f`; and on the full
overlap `I = O = V` each finder succeeds with the empty correction map
and all layers 0. -/
theorem io_overlap (hg : HG) (iset oset : Finset Nat) (ord : List Nat)
    (pm : PMap Plane) (ppm : PMap PPlane)
    (hwf : hgWF hg) (hord : ordOK ord hg.vs)
    (hne : hg.vs ≠ ∅) (hnl : ∀ v ∈ hg.vs, v ∉ hg.adj v) :
    (iset ⊆ hg.vs → oset ⊆ hg.vs → checkGraph hg iset oset = Except.ok ()) ∧
    (∀ w, flowFindPy hg iset oset ord = Except.ok (some w) →
      ∀ v ∈ iset ∩ oset, flookup w.2 v = some 0 ∧ ∀ c, (v, c) ∉ w.1) ∧
    (∀ b w, gflowFindPy hg iset oset (some pm) ord = Except.ok (b, some w) →
      pm.keys ∩ oset = ∅ ∧
      ∀ v ∈ iset ∩ oset, flookup w.2 v = some 0 ∧ ∀ s, (v, s) ∉ w.1) ∧
    (∀ b w, pflowFindPy hg iset oset (some ppm) ord = Except.ok (b, some w) →
      ppm.keys ∩ oset = ∅ ∧
      ∀ v ∈ iset ∩ oset, flookup w.2 v = some 0 ∧ ∀ s, (v, s) ∉ w.1) ∧
    (flowFindPy hg hg.vs hg.vs ord =
      Except.ok (some ([], ord.map (fun v => (v, 0)))) ∧
     gflowFindPy hg hg.vs hg.vs none ord =
      Except.ok (false, some ([], ord.map (fun v => (v, 0)))) ∧
     pflowFindPy hg hg.vs hg.vs none ord =
      Except.ok (true, some ([], ord.map (fun v => (v, 0))))) := by
  have hdg : dgWF (encGraph ord hg) := dgWF_encGraph hord hwf hnl
  have hvs : encSet ord hg.vs = Finset.range (encGraph ord hg).length := by
    rw [encSet_vs hord, encGraph_length]
  have hcgf : checkGraph hg hg.vs hg.vs = Except.ok () :=
    checkGraph_ok_iff.mpr ⟨hne, hnl, Finset.Subset.refl _, Finset.Subset.refl _⟩
  have hsd : hg.vs \ hg.vs = ∅ := Finset.sdiff_self _
  refine ⟨?_, ?_, ?_, ?_, ?_, ?_, ?_⟩
  · intro his hos
    exact checkGraph_ok_iff.mpr ⟨hne, hnl, his, hos⟩
  · -- flow: I ∩ O vertices are outputs in the witness
    intro w hfind v hv
    obtain ⟨hvI, hvO⟩ := Finset.mem_inter.mp hv
    unfold flowFindPy at hfind
    cases hcg : checkGraph hg iset oset with
    | error e =>
      rw [hcg] at hfind
      exact absurd hfind (by simp)
    | ok u =>
      cases u
      rw [hcg] at hfind
      obtain ⟨hne', hnl', his, hos⟩ := checkGraph_ok_iff.mp hcg
      cases hcore : flowFindCore (encGraph ord hg) (encSet ord iset) (encSet ord oset) with
      | none =>
        rw [hcore] at hfind
        exact absurd hfind (by simp)
      | some fw =>
        rw [hcore] at hfind
        obtain ⟨f_, ly_⟩ := fw
        have hw : w = (decFlow ord f_, decLayer ord ly_) := by
          simpa using hfind.symm
        subst hw
        have hosr : encSet ord oset ⊆ Finset.range (encGraph ord hg).length := by
          intro i hi
          rw [Finset.mem_range, encGraph_length]
          exact encSet_lt hord hos hi
        have hver := flowFindCore_verifies _ _ _ hdg hosr (f_, ly_) hcore
        have hbounds := flowFindCore_bounds _ _ _ hdg hosr (f_, ly_) hcore
        have hvv : v ∈ hg.vs := hos hvO
        have hilt : idxOf ord v < ord.length := idx_lt hord hvv
        have hig : idxOf ord v < (encGraph ord hg).length := by
          rwa [encGraph_length]
        have hienc : idxOf ord v ∈ encSet ord oset := Finset.mem_image.mpr ⟨v, hvO, rfl⟩
        refine ⟨?_, ?_⟩
        · have h0 : layAt ly_ (idxOf ord v) = 0 := (flowVerify_layer hver hig).mpr hienc
          show flookup (decLayer ord ly_) v = some 0
          rw [flookup_decLayer hord ly_ hvv, Option.some_inj]
          exact h0
        · have hdom := flowVerify_dom hver hig
          have hnone : flookup f_ (idxOf ord v) = none := by
            cases hh : flookup f_ (idxOf ord v) with
            | none => rfl
            | some x =>
              rw [hh] at hdom
              simp [hienc] at hdom
          have hb' : ∀ p ∈ f_, p.1 < ord.length := by
            intro p hp
            have := (hbounds.1 p hp).1
            rwa [encGraph_length] at this
          exact decPair_not_mem hord hb' hnone
  · -- gflow: label keys avoid outputs; I ∩ O vertices are outputs
    intro b w hfind
    unfold gflowFindPy at hfind
    cases hcg : checkGraph hg iset oset with
    | error e =>
      rw [hcg] at hfind
      exact absurd hfind (by simp)
    | ok u =>
      cases u
      rw [hcg] at hfind
      dsimp only at hfind
      simp only [Option.getD_some] at hfind
      obtain ⟨hne', hnl', his, hos⟩ := checkGraph_ok_iff.mp hcg
      cases hcp : checkPlanelike hg.vs oset pm with
      | error e =>
        rw [hcp] at hfind
        exact absurd hfind (by simp)
      | ok u =>
        cases u
        rw [hcp] at hfind
        dsimp only at hfind
        obtain ⟨hk1, hk2, hk3⟩ := checkPlanelike_ok_iff.mp hcp
        have higo : pm.keys ∩ oset = ∅ := by
          rw [Finset.eq_empty_iff_forall_not_mem]
          intro x hx
          rw [Finset.mem_inter] at hx
          exact (Finset.mem_sdiff.mp (hk3 hx.1)).2 hx.2
        refine ⟨higo, ?_⟩
        intro v hv
        obtain ⟨hvI, hvO⟩ := Finset.mem_inter.mp hv
        cases hcore : gflowFindCore (encGraph ord hg) (encSet ord iset) (encSet ord oset)
            (labelAt Plane.XY ord (PMap.mk (pm.keys \ (pm.keys ∩ oset)) pm.val)) with
        | none =>
          rw [hcore] at hfind
          exact absurd hfind (by simp)
        | some fw =>
          rw [hcore] at hfind
          obtain ⟨f_, ly_⟩ := fw
          have hw : w = (decGFlow ord f_, decLayer ord ly_) := by
            have := hfind
            simp at this
            exact this.2.symm
          subst hw
          have hosr : encSet ord oset ⊆ Finset.range (encGraph ord hg).length := by
            intro i hi
            rw [Finset.mem_range, encGraph_length]
            exact encSet_lt hord hos hi
          have hver := gflowFindCore_verifies _ _ _ _ hosr (f_, ly_) hcore
          have hbounds := gflowFindCore_bounds _ _ _ _ hosr (f_, ly_) hcore
          have hvv : v ∈ hg.vs := hos hvO
          have hilt : idxOf ord v < ord.length := idx_lt hord hvv
          have hig : idxOf ord v < (encGraph ord hg).length := by
            rwa [encGraph_length]
          have hienc : idxOf ord v ∈ encSet ord oset := Finset.mem_image.mpr ⟨v, hvO, rfl⟩
          refine ⟨?_, ?_⟩
          · have h0 : layAt ly_ (idxOf ord v) = 0 := (gflowVerify_layer hver hig).mpr hienc
            show flookup (decLayer ord ly_) v = some 0
            rw [flookup_decLayer hord ly_ hvv, Option.some_inj]
            exact h0
          · have hdom := gflowVerify_dom hver hig
            have hnone : flookup f_ (idxOf ord v) = none := by
              cases hh : flookup f_ (idxOf ord v) with
              | none => rfl
              | some x =>
                rw [hh] at hdom
                simp [hienc] at hdom
            have hb' : ∀ p ∈ f_, p.1 < ord.length := by
              intro p hp
              have := (hbounds.1 p hp).1
              rwa [encGraph_length] at this
            exact decPair_not_mem hord hb' hnone
  · -- pflow: label keys avoid outputs; I ∩ O vertices are outputs
    intro b w hfind
    unfold pflowFindPy at hfind
    cases hcg : checkGraph hg iset oset with
    | error e =>
      rw [hcg] at hfind
      exact absurd hfind (by simp)
    | ok u =>
      cases u
      rw [hcg] at hfind
      dsimp only at hfind
      simp only [Option.getD_some] at hfind
      obtain ⟨hne', hnl', his, hos⟩ := checkGraph_ok_iff.mp hcg
      cases hcp : checkPlanelike hg.vs oset ppm with
      | error e =>
        rw [hcp] at hfind
        exact absurd hfind (by simp)
      | ok u =>
        cases u
        rw [hcp] at hfind
        dsimp only at hfind
        obtain ⟨hk1, hk2, hk3⟩ := checkPlanelike_ok_iff.mp hcp
        have higo : ppm.keys ∩ oset = ∅ := by
          rw [Finset.eq_empty_iff_forall_not_mem]
          intro x hx
          rw [Finset.mem_inter] at hx
          exact (Finset.mem_sdiff.mp (hk3 hx.1)).2 hx.2
        refine ⟨higo, ?_⟩
        intro v hv
        obtain ⟨hvI, hvO⟩ := Finset.mem_inter.mp hv
        cases hcore : pflowFindCore (encGraph ord hg) (encSet ord iset) (encSet ord oset)
            (labelAt PPlane.XY ord ppm) with
        | none =>
          rw [hcore] at hfind
          exact absurd hfind (by simp)
        | some fw =>
          rw [hcore] at hfind
          obtain ⟨f_, ly_⟩ := fw
          have hw : w = (decGFlow ord f_, decLayer ord ly_) := by
            have := hfind
            simp at this
            exact this.2.symm
          subst hw
          have hosr : encSet ord oset ⊆ Finset.range (encGraph ord hg).length := by
            intro i hi
            rw [Finset.mem_range, encGraph_length]
            exact encSet_lt hord hos hi
          have hver := pflowFindCore_verifies _ _ _ _ hosr (f_, ly_) hcore
          have hbounds := pflowFindCore_bounds _ _ _ _ hosr (f_, ly_) hcore
          have hvv : v ∈ hg.vs := hos hvO
          have hilt : idxOf ord v < ord.length := idx_lt hord hvv
          have hig : idxOf ord v < (encGraph ord hg).length := by
            rwa [encGraph_length]
          have hienc : idxOf ord v ∈ encSet ord oset := Finset.mem_image.mpr ⟨v, hvO, rfl⟩
          refine ⟨?_, ?_⟩
          · have h0 : layAt ly_ (idxOf ord v) = 0 := pflowVerify_layer hver hig hienc
            show flookup (decLayer ord ly_) v = some 0
            rw [flookup_decLayer hord ly_ hvv, Option.some_inj]
            exact h0
          · have hdom := pflowVerify_dom hver hig
            have hnone : flookup f_ (idxOf ord v) = none := by
              cases hh : flookup f_ (idxOf ord v) with
              | none => rfl
              | some x =>
                rw [hh] at hdom
                simp [hienc] at hdom
            have hb' : ∀ p ∈ f_, p.1 < ord.length := by
              intro p hp
              have := (hbounds.1 p hp).1
              rwa [encGraph_length] at this
            exact decPair_not_mem hord hb' hnone
  · -- full overlap, flow
    unfold flowFindPy
    rw [hcgf]
    dsimp only
    rw [hvs, flowFindCore_allout _ _ hdg]
    dsimp only
    rw [decLayer_zeros encGraph_length]
    rfl
  · -- full overlap, gflow
    have hcp : checkPlanelike hg.vs hg.vs (PMap.mk (hg.vs \ hg.vs) (fun _ => Plane.XY))
        = Except.ok () :=
      checkPlanelike_ok_iff.mpr
        ⟨Finset.sdiff_subset, Finset.Subset.refl _, Finset.Subset.refl _⟩
    unfold gflowFindPy
    rw [hcgf]
    dsimp only
    simp only [Option.getD_none]
    rw [hcp]
    dsimp only
    have hwn : decide ((hg.vs \ hg.vs) ∩ hg.vs ≠ ∅) = false := by
      simp [hsd]
    rw [hwn, hvs, gflowFindCore_allout]
    dsimp only
    rw [decLayer_zeros encGraph_length]
    rfl
  · -- full overlap, pflow
    have hcp : checkPlanelike hg.vs hg.vs (PMap.mk (hg.vs \ hg.vs) (fun _ => PPlane.XY))
        = Except.ok () :=
      checkPlanelike_ok_iff.mpr
        ⟨Finset.sdiff_subset, Finset.Subset.refl _, Finset.Subset.refl _⟩
    unfold pflowFindPy
    rw [hcgf]
    dsimp only
    simp only [Option.getD_none]
    rw [hcp]
    dsimp only
    have hwn : ((fsort (hg.vs \ hg.vs)).all (fun _ => !isPauli PPlane.XY)) = true := by
      rw [hsd, fsort_empty]
      rfl
    rw [hvs, pflowFindCore_allout]
    dsimp only
    rw [decLayer_zeros encGraph_length, hsd, fsort_empty]
    rfl

/-! ### Claim C10 -/

/-- C10: omitting the measurement mapping (passing `None`) is the same
as passing the explicit mapping that labels every vertex of `V \ O` with
the default plane `XY` (resp. `PPlane.XY`): `gflow.find` and
`pflow.find` give identical results on every input. -/
theorem default_plane_eq (hg : HG) (iset oset : Finset Nat) (ord : List Nat) :
    (gflowFindPy hg iset oset none ord =
      gflowFindPy hg iset oset (some (PMap.mk (hg.vs \ oset) (fun _ => Plane.XY))) ord) ∧
    (pflowFindPy hg iset oset none ord =
      pflowFindPy hg iset oset (some (PMap.mk (hg.vs \ oset) (fun _ => PPlane.XY))) ord) :=
  ⟨rfl, rfl⟩

theorem io_overlap_witness :
    flowFindPy hgPath hgPath.vs hgPath.vs [0, 1, 2, 3, 4] =
      Except.ok (some ([], [0, 1, 2, 3, 4].map (fun v => (v, 0)))) :=
  (io_overlap hgPath ∅ ∅ [0, 1, 2, 3, 4]
    (PMap.mk ∅ (fun _ => Plane.XY)) (PMap.mk ∅ (fun _ => PPlane.XY))
    ⟨by decide, by decide⟩ ⟨by decide, by decide⟩ (by decide) (by decide)).2.2.2.2.1

end Fastflow
